import Mathlib

/-!
# get-old-tweets: query encoding, date decoding and pagination

A shallow embedding of the `twitter` package of `akiomik/get-old-tweets` and
theorems about it.

* Go strings and byte slices are finite sequences of bytes; they are embedded
  as `List (Fin 256)`.
* `twitter/query.go` (`Query.Encode`, `Query.IsEmpty`) and
  `twitter/ruby_date.go` (`RubyDate.UnmarshalJSON`) are embedded function by
  function.
* The routines of the Go standard library they call are embedded next to them,
  each under the name it has in Go: `url.QueryEscape` and `url.QueryUnescape`
  (`net/url`, with `escape`, `unescape`, `shouldEscape`, `ishex`, `unhex`),
  `strings.Join`, `bytes.Trim`, and `time.Parse` (`time/format.go`, with `skip`,
  `lookup`, `getnum`, `atoi`, `leadingInt`, `parseNanoseconds`, `daysIn`).
  `time.Parse` is embedded for the one layout it is called with,
  `time.RubyDate`: the layout is given by the chunks `nextStdChunk` cuts it
  into, and the `switch` of `parse` has the arms of these chunks.
* The single-page search, the pagination and the response types live in files
  that are not part of the sources at hand (`twitter/client.go`,
  `twitter/json`); they are modelled from the specification, and checked
  against the values of `twitter/client_test.go`.

The definitions come first, the theorems after them.
-/

set_option autoImplicit false
set_option maxRecDepth 100000

/-- A byte. -/
abbrev Byte := Fin 256

/-- A Go `string` (or `[]byte`): a finite sequence of bytes. -/
abbrev GoString := List Byte

/-- The bytes of an ASCII literal. -/
def ascii (s : String) : GoString :=
  s.toList.map (fun c => Fin.ofNat c.toNat)

/-! ## `net/url`: escaping of a query component -/

namespace url

/-- `shouldEscape(c, encodeQueryComponent)`: alphanumerics and the four marks
`-`, `_`, `.`, `~` are kept, every other byte is escaped. -/
def shouldEscape (c : Byte) : Bool :=
  if (97 ≤ c.val ∧ c.val ≤ 122) ∨ (65 ≤ c.val ∧ c.val ≤ 90) ∨ (48 ≤ c.val ∧ c.val ≤ 57) then
    false
  else if c.val = 45 ∨ c.val = 95 ∨ c.val = 46 ∨ c.val = 126 then
    false
  else
    true

/-- The constant `upperhex = "0123456789ABCDEF"`. -/
def upperhex : List Byte :=
  [48, 49, 50, 51, 52, 53, 54, 55, 56, 57, 65, 66, 67, 68, 69, 70]

/-- The first loop of `escape`: the number of spaces and of other bytes to escape. -/
def escapeCounts : GoString → Nat × Nat
  | [] => (0, 0)
  | c :: s =>
    let r := escapeCounts s
    if shouldEscape c then
      if c.val = 32 then (r.1 + 1, r.2) else (r.1, r.2 + 1)
    else r

/-- One step of the main loop of `escape`: what is written for the byte `c`. -/
def escapeByte (c : Byte) : GoString :=
  if c.val = 32 then [43]
  else if shouldEscape c then [37, upperhex.getD (c.val / 16) 0, upperhex.getD (c.val % 16) 0]
  else [c]

/-- The main loop of `escape`. -/
def escapeLoop : GoString → GoString
  | [] => []
  | c :: s => escapeByte c ++ escapeLoop s

/-- `escape(s, encodeQueryComponent)`. -/
def escape (s : GoString) : GoString :=
  let counts := escapeCounts s
  if counts.1 = 0 ∧ counts.2 = 0 then s
  else if counts.2 = 0 then s.map (fun c => if c.val = 32 then 43 else c)
  else escapeLoop s

/-- `url.QueryEscape`. -/
def QueryEscape (s : GoString) : GoString := escape s

/-- `ishex`. -/
def ishex (c : Byte) : Bool :=
  if 48 ≤ c.val ∧ c.val ≤ 57 then true
  else if 97 ≤ c.val ∧ c.val ≤ 102 then true
  else if 65 ≤ c.val ∧ c.val ≤ 70 then true
  else false

/-- `unhex`, as a number below 16. -/
def unhex (c : Byte) : Nat :=
  if 48 ≤ c.val ∧ c.val ≤ 57 then c.val - 48
  else if 97 ≤ c.val ∧ c.val ≤ 102 then c.val - 97 + 10
  else if 65 ≤ c.val ∧ c.val ≤ 70 then c.val - 65 + 10
  else 0

/-- The error of `unescape`: `EscapeError` carries the malformed escape
(at most three bytes, starting at the `%`). -/
inductive Error where
  | EscapeError (s : GoString)
  deriving DecidableEq, Repr

/-- The first loop of `unescape(s, encodeQueryComponent)`: it checks that every
`%` is followed by two hexadecimal digits and returns the number of `%` and
whether a `+` was seen. -/
def unescapeCheck : GoString → Except Error (Nat × Bool)
  | [] => .ok (0, false)
  | c :: s =>
    if c.val = 37 then
      match s with
      | a :: b :: rest =>
        if ishex a ∧ ishex b then
          match unescapeCheck rest with
          | .ok r => .ok (r.1 + 1, r.2)
          | .error e => .error e
        else .error (.EscapeError ((c :: s).take 3))
      | _ => .error (.EscapeError ((c :: s).take 3))
    else if c.val = 43 then
      match unescapeCheck s with
      | .ok r => .ok (r.1, true)
      | .error e => .error e
    else unescapeCheck s

/-- The second loop of `unescape(s, encodeQueryComponent)`. -/
def unescapeLoop : GoString → GoString
  | [] => []
  | c :: s =>
    if c.val = 37 then
      match s with
      | a :: b :: rest => Fin.ofNat (unhex a * 16 + unhex b) :: unescapeLoop rest
      | _ => []
    else if c.val = 43 then 32 :: unescapeLoop s
    else c :: unescapeLoop s

/-- `unescape(s, encodeQueryComponent)`. -/
def unescape (s : GoString) : Except Error GoString :=
  match unescapeCheck s with
  | .error e => .error e
  | .ok r => if r.1 = 0 ∧ r.2 = false then .ok s else .ok (unescapeLoop s)

/-- The first loop of `unescape` accepts the string. -/
def CheckOk (s : GoString) : Prop := ∃ r, unescapeCheck s = .ok r

/-- `url.QueryUnescape`. -/
def QueryUnescape (s : GoString) : Except Error GoString := unescape s

end url

/-! ## `strings.Join` -/

namespace strings

/-- `strings.Join(elems, sep)`. -/
def Join : List GoString → GoString → GoString
  | [], _ => []
  | [e], _ => e
  | e :: es, sep => e ++ sep ++ Join es sep

end strings

/-! ## `twitter/query.go` -/

namespace twitter

/-- The struct `Query`. -/
structure Query where
  Text : GoString
  Since : GoString
  Until : GoString
  deriving DecidableEq, Repr

/-- `Query.Encode`. -/
def Query.Encode (q : Query) : GoString :=
  let ss : List GoString := []
  let ss := if q.Text.length ≠ 0 then ss ++ [url.QueryEscape q.Text] else ss
  let ss := if q.Since.length ≠ 0 then ss ++ [ascii "since:" ++ q.Since] else ss
  let ss := if q.Until.length ≠ 0 then ss ++ [ascii "until:" ++ q.Until] else ss
  strings.Join ss (url.QueryEscape (ascii " "))

/-- `Query.IsEmpty`. -/
def Query.IsEmpty (q : Query) : Bool :=
  q.Encode.length == 0

end twitter

/-! ## Specification-side vocabulary for the query encoding -/

namespace twitter

/-- The ordered token list of a query as the specification words it: the
(optionally transformed) text, the `since:` token and the `until:` token,
each present only when its field is non-empty. -/
def Query.tokens (f : GoString → GoString) (q : Query) : List GoString :=
  ([(q.Text, f q.Text), (q.Since, ascii "since:" ++ q.Since),
    (q.Until, ascii "until:" ++ q.Until)].filter (fun p => !p.1.isEmpty)).map Prod.snd

end twitter

namespace twitter

/-- A character that may stand for itself in an escaped query-parameter value:
a letter, a digit, or one of `-`, `_`, `.`, `~`, `:`, `+`. -/
def isPlainChar (c : Byte) : Bool :=
  (97 ≤ c.val && c.val ≤ 122) || (65 ≤ c.val && c.val ≤ 90) || (48 ≤ c.val && c.val ≤ 57) ||
    c.val == 45 || c.val == 95 || c.val == 46 || c.val == 126 || c.val == 58 || c.val == 43

/-- A hexadecimal digit, in either case. -/
def isHexDigit (c : Byte) : Bool :=
  (48 ≤ c.val && c.val ≤ 57) || (65 ≤ c.val && c.val ≤ 70) || (97 ≤ c.val && c.val ≤ 102)

/-- A single escaped query-parameter value: every byte is a plain character or
belongs to a well-formed `%XX` escape. -/
def wellEscaped : GoString → Bool
  | [] => true
  | c :: s =>
    if c.val = 37 then
      match s with
      | a :: b :: rest => isHexDigit a && isHexDigit b && wellEscaped rest
      | _ => false
    else isPlainChar c && wellEscaped s

end twitter

/-! ## `bytes.Trim` -/

namespace bytes

/-- `trimRightByte(s, c)`: drop the run of `c` at the end. -/
def trimRightByte : GoString → Byte → GoString
  | [], _ => []
  | b :: s, c =>
    match trimRightByte s c with
    | [] => if b = c then [] else [b]
    | r => b :: r

/-- `trimLeftByte(s, c)`: drop the run of `c` at the start. -/
def trimLeftByte : GoString → Byte → GoString
  | [], _ => []
  | b :: s, c => if b = c then trimLeftByte s c else b :: s

/-- `bytes.Trim(s, cutset)` for a cutset of one ASCII byte `c`. -/
def Trim (s : GoString) (c : Byte) : GoString :=
  trimLeftByte (trimRightByte s c) c

end bytes

/-! ## `time.Parse` on the layout `time.RubyDate` -/

namespace time

/-- The layout elements that occur in `time.RubyDate`. -/
inductive Std where
  | stdWeekDay | stdMonth | stdZeroDay | stdHour | stdZeroMinute | stdZeroSecond
  | stdNumTZ | stdLongYear
  deriving DecidableEq, Repr

/-- The constant `time.RubyDate`. -/
def RubyDate : GoString := ascii "Mon Jan 02 15:04:05 -0700 2006"

/-- The successive results `(prefix, std, text of std)` of `nextStdChunk` on the
layout `time.RubyDate`, up to the end of the layout (where `nextStdChunk`
returns an empty prefix and `std = 0`). -/
def RubyDateChunks : List (GoString × Std × GoString) :=
  [ (ascii "", .stdWeekDay, ascii "Mon"), (ascii " ", .stdMonth, ascii "Jan"),
    (ascii " ", .stdZeroDay, ascii "02"), (ascii " ", .stdHour, ascii "15"),
    (ascii ":", .stdZeroMinute, ascii "04"), (ascii ":", .stdZeroSecond, ascii "05"),
    (ascii " ", .stdNumTZ, ascii "-0700"), (ascii " ", .stdLongYear, ascii "2006") ]

/-- The table `shortDayNames`. -/
def shortDayNames : List GoString :=
  [ascii "Sun", ascii "Mon", ascii "Tue", ascii "Wed", ascii "Thu", ascii "Fri", ascii "Sat"]

/-- The table `shortMonthNames`. -/
def shortMonthNames : List GoString :=
  [ascii "Jan", ascii "Feb", ascii "Mar", ascii "Apr", ascii "May", ascii "Jun",
   ascii "Jul", ascii "Aug", ascii "Sep", ascii "Oct", ascii "Nov", ascii "Dec"]

/-- The error of `time.Parse`, by the place that raises it: `bad` is a
`ParseError` with an empty message (layout element, value element),
`outOfRange` one whose message is `": " + what + " out of range"`,
`extraText` the one for text left after the layout is exhausted, and
`dayOutOfRange` the one of the final validation of the day of the month. -/
inductive ParseError where
  | bad (layoutElem valueElem : GoString)
  | outOfRange (what layoutElem valueElem : GoString)
  | extraText (value : GoString)
  | dayOutOfRange (value : GoString)
  deriving DecidableEq, Repr

/-- `isDigit(s, i)`. -/
def isDigit (s : GoString) (i : Nat) : Bool :=
  match s.get? i with
  | none => false
  | some c => 48 ≤ c.val ∧ c.val ≤ 57

/-- `commaOrPeriod`. -/
def commaOrPeriod (b : Byte) : Bool := b.val = 46 ∨ b.val = 44

/-- `cutspace`. -/
def cutspace : GoString → GoString
  | [] => []
  | c :: s => if c.val = 32 then cutspace s else c :: s

/-- The loop of `skip(value, prefix)`; every turn shortens the prefix, so a fuel
of its length is never exhausted.  The result is the remaining value, or the
value at the mismatch together with `errBad`. -/
def skipLoop : Nat → GoString → GoString → Except GoString GoString
  | _, value, [] => .ok value
  | 0, value, _ :: _ => .error value
  | fuel + 1, value, p :: pfx =>
    if p.val = 32 then
      match value with
      | v :: _ =>
        if v.val ≠ 32 then .error value
        else skipLoop fuel (cutspace value) (cutspace (p :: pfx))
      | [] => skipLoop fuel (cutspace value) (cutspace (p :: pfx))
    else
      match value with
      | [] => .error value
      | v :: rest => if v ≠ p then .error value else skipLoop fuel rest pfx

/-- `skip(value, prefix)`. -/
def skip (value pfx : GoString) : Except GoString GoString :=
  skipLoop pfx.length value pfx

/-- The function `match(s1, s2)`: equality ignoring the case of letters, for
strings of the same length (it is never called with a shorter `s2`). -/
def matchFold : GoString → GoString → Bool
  | [], _ => true
  | _ :: _, [] => false
  | c1 :: s1, c2 :: s2 =>
    if c1 ≠ c2 then
      let d1 := c1.val ||| 32
      let d2 := c2.val ||| 32
      if d1 ≠ d2 ∨ d1 < 97 ∨ d1 > 122 then false else matchFold s1 s2
    else matchFold s1 s2

/-- The loop of `lookup`, with the index of the current table entry. -/
def lookupFrom : Nat → List GoString → GoString → Int × GoString × Bool
  | _, [], val => (-1, val, true)
  | i, v :: tab, val =>
    if val.length ≥ v.length ∧ matchFold (val.take v.length) v then
      (i, val.drop v.length, false)
    else lookupFrom (i + 1) tab val

/-- `lookup(tab, val)`: index, rest of the value, and whether `errBad` is returned. -/
def lookup (tab : List GoString) (val : GoString) : Int × GoString × Bool :=
  lookupFrom 0 tab val

/-- `getnum(s, fixed)`: number, rest of the value, and whether `errBad` is returned. -/
def getnum (s : GoString) ( fixed : Bool) : Int × GoString × Bool :=
  if !isDigit s 0 then (0, s, true)
  else if !isDigit s 1 then
    if fixed then (0, s, true)
    else (((s.getD 0 0).val - 48 : Int), s.drop 1, false)
  else (((s.getD 0 0).val - 48 : Int) * 10 + ((s.getD 1 0).val - 48), s.drop 2, false)

/-- The loop of `leadingInt`, with the accumulator `x`: the number read, the
rest, and whether `errLeadingInt` is returned. -/
def leadingIntLoop : Nat → GoString → Nat × GoString × Bool
  | x, [] => (x, [], false)
  | x, c :: s =>
    if c.val < 48 ∨ c.val > 57 then (x, c :: s, false)
    else if x > 2 ^ 63 / 10 then (0, [], true)
    else
      let y := x * 10 + c.val - 48
      if y > 2 ^ 63 then (0, [], true) else leadingIntLoop y s

/-- `leadingInt`. -/
def leadingInt (s : GoString) : Nat × GoString × Bool := leadingIntLoop 0 s

/-- The part of `atoi` that follows the removal of the sign: the number (as a
64-bit `int`), or `none` for `errAtoi`. -/
def atoiUnsigned (neg : Bool) (s : GoString) : Option Int :=
  let r := leadingInt s
  let x : Int := if r.1 < 2 ^ 63 then (r.1 : Int) else (r.1 : Int) - 2 ^ 64
  if r.2.2 ∨ r.2.1.length > 0 then none
  else some (if neg then -x else x)

/-- `atoi`: the number, or `none` for `errAtoi`. -/
def atoi (s : GoString) : Option Int :=
  match s with
  | c :: rest =>
    if c.val = 45 ∨ c.val = 43 then atoiUnsigned (c.val = 45) rest
    else atoiUnsigned false s
  | [] => atoiUnsigned false s

/-- `parseNanoseconds(value, nbytes)`: nanoseconds, range error string (empty
when there is none), and whether an error is returned.  It is never called
with an empty value. -/
def parseNanoseconds (value : GoString) (nbytes : Nat) : Int × GoString × Bool :=
  match value with
  | [] => (0, [], true)
  | c :: _ =>
    if !commaOrPeriod c then (0, [], true)
    else
      let value := if nbytes > 10 then value.take 10 else value
      let nbytes := if nbytes > 10 then 10 else nbytes
      match atoi ((value.take nbytes).drop 1) with
      | none => (0, [], true)
      | some ns =>
        if ns < 0 then (ns, ascii "fractional second", false)
        else (ns * 10 ^ (10 - nbytes), [], false)

/-- The table `daysBefore`. -/
def daysBefore : List Int :=
  [0, 31, 31 + 28, 31 + 28 + 31, 31 + 28 + 31 + 30, 31 + 28 + 31 + 30 + 31,
   31 + 28 + 31 + 30 + 31 + 30, 31 + 28 + 31 + 30 + 31 + 30 + 31,
   31 + 28 + 31 + 30 + 31 + 30 + 31 + 31, 31 + 28 + 31 + 30 + 31 + 30 + 31 + 31 + 30,
   31 + 28 + 31 + 30 + 31 + 30 + 31 + 31 + 30 + 31,
   31 + 28 + 31 + 30 + 31 + 30 + 31 + 31 + 30 + 31 + 30,
   31 + 28 + 31 + 30 + 31 + 30 + 31 + 31 + 30 + 31 + 30 + 31]

/-- `isLeap`. -/
def isLeap (year : Int) : Bool :=
  year % 4 = 0 ∧ (year % 100 ≠ 0 ∨ year % 400 = 0)

/-- `daysIn(m, year)`, for a month `1 ≤ m ≤ 12`. -/
def daysIn (m : Int) (year : Int) : Int :=
  if m = 2 ∧ isLeap year then 29
  else daysBefore.getD m.toNat 0 - daysBefore.getD (m.toNat - 1) 0

/-- The local variables of `parse`: the time being constructed. -/
structure Fields where
  year : Int := 0
  month : Int := -1
  day : Int := -1
  hour : Int := 0
  min : Int := 0
  sec : Int := 0
  nsec : Int := 0
  zoneOffset : Int := -1
  deriving DecidableEq, Repr

/-- What one arm of the `switch std` of `parse` leaves behind: the fields, the
rest of the value, `rangeErrString` (empty when unset) and whether `err` is set. -/
structure Arm where
  fields : Fields
  value : GoString
  rangeErrString : GoString := []
  err : Bool := false

/-- The number of leading bytes of `value` that the fractional-second loop
`for n := 2; n < len(value) && isDigit(value, n); n++` stops at. -/
def fracEnd : GoString → Nat → Nat
  | [], n => n
  | c :: s, n => if 48 ≤ c.val ∧ c.val ≤ 57 then fracEnd s (n + 1) else n

/-- The arms of `switch std & stdMask` in `parse` for the elements of
`time.RubyDate`.  No fractional-second element follows the seconds in this
layout, so the arm of the seconds takes a fractional second in the input by
its special case. -/
def parseArm (std : Std) (f : Fields) (value : GoString) : Arm :=
  match std with
  | .stdLongYear =>
    if value.length < 4 ∨ !isDigit value 0 then ⟨f, value, [], true⟩
    else
      match atoi (value.take 4) with
      | none => ⟨{ f with year := 0 }, value.drop 4, [], true⟩
      | some y => ⟨{ f with year := y }, value.drop 4, [], false⟩
  | .stdMonth =>
    let r := lookup shortMonthNames value
    ⟨{ f with month := r.1 + 1 }, r.2.1, [], r.2.2⟩
  | .stdWeekDay =>
    let r := lookup shortDayNames value
    ⟨f, r.2.1, [], r.2.2⟩
  | .stdZeroDay =>
    let r := getnum value true
    ⟨{ f with day := r.1 }, r.2.1, [], r.2.2⟩
  | .stdHour =>
    let r := getnum value false
    ⟨{ f with hour := r.1 }, r.2.1,
      if r.1 < 0 ∨ 24 ≤ r.1 then ascii "hour" else [], r.2.2⟩
  | .stdZeroMinute =>
    let r := getnum value true
    ⟨{ f with min := r.1 }, r.2.1,
      if r.1 < 0 ∨ 60 ≤ r.1 then ascii "minute" else [], r.2.2⟩
  | .stdZeroSecond =>
    let r := getnum value true
    let f := { f with sec := r.1 }
    let value := r.2.1
    if r.2.2 then ⟨f, value, [], true⟩
    else if r.1 < 0 ∨ 60 ≤ r.1 then ⟨f, value, ascii "second", false⟩
    else if value.length ≥ 2 ∧ commaOrPeriod (value.getD 0 0) ∧ isDigit value 1 then
      let n := fracEnd (value.drop 2) 2
      let p := parseNanoseconds value n
      ⟨{ f with nsec := p.1 }, value.drop n, p.2.1, p.2.2⟩
    else ⟨f, value, [], false⟩
  | .stdNumTZ =>
    if value.length < 5 then ⟨f, value, [], true⟩
    else
      let sign := value.take 1
      let hour := (value.drop 1).take 2
      let min := (value.drop 3).take 2
      let seconds := ascii "00"
      let value := value.drop 5
      let hr := getnum hour true
      let mm := if hr.2.2 then (0, [], true) else getnum min true
      let ss := if mm.2.2 then (0, [], true) else getnum seconds true
      let err := ss.2.2
      let rangeErrString : GoString := if hr.1 > 24 then ascii "time zone offset hour" else []
      let rangeErrString := if mm.1 > 60 then ascii "time zone offset minute" else rangeErrString
      let rangeErrString := if ss.1 > 60 then ascii "time zone offset second" else rangeErrString
      let zoneOffset := (hr.1 * 60 + mm.1) * 60 + ss.1
      if sign = ascii "+" then ⟨{ f with zoneOffset := zoneOffset }, value, rangeErrString, err⟩
      else if sign = ascii "-" then
        ⟨{ f with zoneOffset := -zoneOffset }, value, rangeErrString, err⟩
      else ⟨{ f with zoneOffset := zoneOffset }, value, rangeErrString, true⟩

/-- The loop `for` of `parse`, one turn for each layout element. -/
def parseLoop : List (GoString × Std × GoString) → Fields → GoString →
    Except ParseError (Fields × GoString)
  | [], f, value => .ok (f, value)
  | (pfx, std, stdstr) :: chunks, f, value =>
    match skip value pfx with
    | .error v => .error (.bad pfx v)
    | .ok value =>
      let a := parseArm std f value
      if a.rangeErrString ≠ [] then .error (.outOfRange a.rangeErrString stdstr a.value)
      else if a.err then .error (.bad stdstr value)
      else parseLoop chunks a.fields a.value

/-- A `time.Time` as `parse` builds it: the instant
`Date(year, month, day, hour, min, sec, nsec, UTC)` moved back by `zoneOffset`
seconds, in a zone `zoneOffset` seconds east of UTC. -/
structure Time where
  year : Int
  month : Int
  day : Int
  hour : Int
  min : Int
  sec : Int
  nsec : Int
  zoneOffset : Int
  deriving DecidableEq, Repr

/-- The zero value of `time.Time`: January 1 of the year 1, 00:00:00 UTC. -/
def Time.zero : Time := ⟨1, 1, 1, 0, 0, 0, 0, 0⟩

/-- `time.Parse(time.RubyDate, value)`: the loop over the layout, the check for
extra text at its end, the validation of the day of the month, and the
construction of the time with the parsed zone offset (UTC when there is none). -/
def Parse (value : GoString) : Except ParseError Time :=
  match parseLoop RubyDateChunks {} value with
  | .error e => .error e
  | .ok (f, value) =>
    if value.length ≠ 0 then .error (.extraText value)
    else
      let month := if f.month < 0 then 1 else f.month
      let day := if f.day < 0 then 1 else f.day
      if day < 1 ∨ day > daysIn month f.year then .error (.dayOutOfRange value)
      else if f.zoneOffset ≠ -1 then
        .ok ⟨f.year, month, day, f.hour, f.min, f.sec, f.nsec, f.zoneOffset⟩
      else .ok ⟨f.year, month, day, f.hour, f.min, f.sec, f.nsec, 0⟩

end time

/-! ## `twitter/ruby_date.go` -/

namespace twitter

/-- The body of `RubyDate.UnmarshalJSON` over a given parser for the layout:
the new value of the receiver and the returned error (`none` for `nil`). -/
def RubyDate.UnmarshalJSONWith {E T : Type} (parse : GoString → Except E T)
    (t : T) (buf : GoString) : T × Option E :=
  let s := bytes.Trim buf 34
  match parse s with
  | .error err => (t, some err)
  | .ok parsed => (parsed, none)

/-- `RubyDate.UnmarshalJSON`: the parser is `time.Parse(time.RubyDate, ·)`. -/
def RubyDate.UnmarshalJSON (t : time.Time) (buf : GoString) :
    time.Time × Option time.ParseError :=
  RubyDate.UnmarshalJSONWith time.Parse t buf

end twitter

/-! ## Specification-side vocabulary for timestamps in the Ruby date layout -/

namespace twitter

/-- The JSON string literal of a text that needs no escaping: the text between
two double quotes. -/
def quoted (s : GoString) : GoString := (34 : Byte) :: s ++ [34]

/-- A run of `n` double quotes. -/
def quotes (n : Nat) : GoString := List.replicate n 34

end twitter

namespace time

/-- The components of a timestamp written in the layout
`Mon Jan 02 15:04:05 -0700 2006`: a weekday name, a month name, and the
numbers of the remaining fields. -/
structure Stamp where
  weekday : Fin 7
  month : Fin 12
  day : Nat
  hour : Nat
  min : Nat
  sec : Nat
  east : Bool
  zoneHour : Nat
  zoneMin : Nat
  year : Nat
  deriving DecidableEq, Repr

/-- The number of days of the month (counted from 0) of a year of the
Gregorian calendar. -/
def Stamp.monthLength (month : Fin 12) (year : Nat) : Nat :=
  if month.val = 1 then
    if year % 4 = 0 ∧ (year % 100 ≠ 0 ∨ year % 400 = 0) then 29 else 28
  else if month.val = 3 ∨ month.val = 5 ∨ month.val = 8 ∨ month.val = 10 then 30
  else 31

/-- A well-formed timestamp: a day that exists in its month, a time of day, a
zone offset below 24 hours, and a year of four digits. -/
def Stamp.valid (s : Stamp) : Prop :=
  1 ≤ s.day ∧ s.day ≤ Stamp.monthLength s.month s.year ∧ s.hour < 24 ∧ s.min < 60 ∧
    s.sec < 60 ∧ s.zoneHour < 24 ∧ s.zoneMin < 60 ∧ s.year < 10000

instance (s : Stamp) : Decidable s.valid := by
  unfold Stamp.valid; infer_instance

/-- The decimal digit for the units of `n`. -/
def digit (n : Nat) : Byte := Fin.ofNat (48 + n % 10)

/-- Two decimal digits. -/
def digits2 (n : Nat) : GoString := [digit (n / 10), digit n]

/-- Four decimal digits. -/
def digits4 (n : Nat) : GoString := [digit (n / 1000), digit (n / 100), digit (n / 10), digit n]

/-- The text of a timestamp, written exactly in the layout
`Mon Jan 02 15:04:05 -0700 2006`. -/
def Stamp.text (s : Stamp) : GoString :=
  shortDayNames.getD s.weekday.val [] ++ (ascii " " ++ (shortMonthNames.getD s.month.val [] ++
    (ascii " " ++ (digits2 s.day ++ (ascii " " ++ (digits2 s.hour ++ (ascii ":" ++
    (digits2 s.min ++ (ascii ":" ++ (digits2 s.sec ++ (ascii " " ++
    ((if s.east then ascii "+" else ascii "-") ++ (digits2 s.zoneHour ++ (digits2 s.zoneMin ++
    (ascii " " ++ digits4 s.year)))))))))))))))

/-- The instant a timestamp denotes. -/
def Stamp.time (s : Stamp) : Time :=
  { year := s.year, month := s.month.val + 1, day := s.day, hour := s.hour, min := s.min,
    sec := s.sec, nsec := 0,
    zoneOffset := if s.east then ((s.zoneHour * 60 + s.zoneMin) * 60 : Int)
      else -((s.zoneHour * 60 + s.zoneMin) * 60 : Int) }

end time

/-! ## The response data model (`twitter/json`), the single-page search and the pagination

The files of the client (`twitter/client.go`) and of the response types
(`twitter/json`) are not among the sources; only the tests of the client are.
What follows is modelled from the specification and from the values the tests
build. -/

namespace json

/-- Modelled from the spec: the cursor of an entry (`twitter/json` is missing),
`{value: string, cursorType: "Top"|"Bottom"}`. -/
structure Cursor where
  Value : GoString := []
  CursorType : GoString := []
  deriving DecidableEq, Repr

/-- Modelled from the spec: the `operation` of an entry (`twitter/json` is
missing); it may carry a cursor. -/
structure Operation where
  Cursor : Cursor := {}
  deriving DecidableEq, Repr

/-- Modelled from the spec: the `content` of an entry (`twitter/json` is missing). -/
structure Content where
  Operation : Operation := {}
  deriving DecidableEq, Repr

/-- Modelled from the spec: an entry of an `addEntries` payload (`twitter/json`
is missing). -/
structure Entry where
  EntryId : GoString := []
  Content : Content := {}
  deriving DecidableEq, Repr

/-- Modelled from the spec: the `addEntries` payload of an instruction
(`twitter/json` is missing), an ordered sequence of entries. -/
structure AddEntries where
  Entries : List Entry := []
  deriving DecidableEq, Repr

/-- Modelled from the spec: a timeline instruction (`twitter/json` is missing). -/
structure Instruction where
  AddEntries : AddEntries := {}
  deriving DecidableEq, Repr

/-- Modelled from the spec: the timeline (`twitter/json` is missing), an ordered
sequence of instructions. -/
structure Timeline where
  Instructions : List Instruction := []
  deriving DecidableEq, Repr

/-- Modelled from the spec: a tweet record (`twitter/json` is missing), with the
two fields the tests use. -/
structure Tweet where
  Id : Int := 0
  FullText : GoString := []
  deriving DecidableEq, Repr

/-- Modelled from the spec: a user record (`twitter/json` is missing); none of
its fields matters to the pagination. -/
structure User where
  Id : Int := 0
  deriving DecidableEq, Repr

/-- Modelled from the spec: `globalObjects` (`twitter/json` is missing), the
maps from tweet id and user id to the records, as association lists. -/
structure GlobalObjects where
  Tweets : List (GoString × Tweet) := []
  Users : List (GoString × User) := []
  deriving DecidableEq, Repr

/-- Modelled from the spec: the response model `Adaptive` (`twitter/json` is
missing). -/
structure Adaptive where
  GlobalObjects : GlobalObjects := {}
  Timeline : Timeline := {}
  deriving DecidableEq, Repr

/-- Modelled from the spec: one entry `{code: int, message: string}` of an
error response (`twitter/json` is missing). -/
structure Error where
  Code : Int := 0
  Message : GoString := []
  deriving DecidableEq, Repr

/-- Modelled from the spec: the error response `{errors: sequence of {code,
message}}` (`twitter/json` is missing). -/
structure ErrorResponse where
  Errors : List Error := []
  deriving DecidableEq, Repr

/-- A JSON document, as the JSON library hands it to the decoders. -/
inductive Value where
  | null
  | bool (b : Bool)
  | num (n : Int)
  | str (s : GoString)
  | arr (elems : List Value)
  | obj (members : List (GoString × Value))

/-- The member of a JSON object with the given name. -/
def Value.member (name : GoString) : List (GoString × Value) → Option Value
  | [] => none
  | (k, v) :: rest => if k = name then some v else Value.member name rest

/-- Modelled from the spec: decoding of an optional member (the decoders of
`twitter/json` are missing): an absent member decodes to the zero value, a
present one must have the expected shape. -/
def optional {α : Type} (dflt : α) (dec : Value → Option α) : Option Value → Option α
  | none => some dflt
  | some v => dec v

/-- Modelled from the spec: decoding of a JSON string. -/
def decodeString : Value → Option GoString
  | .str s => some s
  | _ => none

/-- Modelled from the spec: decoding of a JSON integer. -/
def decodeInt : Value → Option Int
  | .num n => some n
  | _ => none

/-- Modelled from the spec: decoding of a JSON array with a decoder for its
elements. -/
def decodeList {α : Type} (dec : Value → Option α) : Value → Option (List α)
  | .arr elems => elems.mapM dec
  | _ => none

/-- Modelled from the spec: decoding of a JSON object into a map, with a
decoder for its values. -/
def decodeMap {α : Type} (dec : Value → Option α) : Value → Option (List (GoString × α))
  | .obj members => members.mapM (fun kv => (dec kv.2).map (fun a => (kv.1, a)))
  | _ => none

/-- Modelled from the spec: decoding of one `{code, message}` entry. -/
def decodeError : Value → Option Error
  | .obj m =>
    match optional 0 decodeInt (Value.member (ascii "code") m),
      optional [] decodeString (Value.member (ascii "message") m) with
    | some c, some s => some ⟨c, s⟩
    | _, _ => none
  | _ => none

/-- Modelled from the spec: decoding of a body as `ErrorResponse`; `none` is a
decode error (the body does not match the shape). -/
def decodeErrorResponse : Value → Option ErrorResponse
  | .obj m => (optional [] (decodeList decodeError) (Value.member (ascii "errors") m)).map
      (fun es => ⟨es⟩)
  | _ => none

/-- Modelled from the spec: decoding of a cursor. -/
def decodeCursor : Value → Option Cursor
  | .obj m =>
    match optional [] decodeString (Value.member (ascii "value") m),
      optional [] decodeString (Value.member (ascii "cursorType") m) with
    | some v, some t => some ⟨v, t⟩
    | _, _ => none
  | _ => none

/-- Modelled from the spec: decoding of an operation. -/
def decodeOperation : Value → Option Operation
  | .obj m => (optional {} decodeCursor (Value.member (ascii "cursor") m)).map (fun c => ⟨c⟩)
  | _ => none

/-- Modelled from the spec: decoding of the content of an entry. -/
def decodeContent : Value → Option Content
  | .obj m =>
    (optional {} decodeOperation (Value.member (ascii "operation") m)).map (fun o => ⟨o⟩)
  | _ => none

/-- Modelled from the spec: decoding of an entry. -/
def decodeEntry : Value → Option Entry
  | .obj m =>
    match optional [] decodeString (Value.member (ascii "entryId") m),
      optional {} decodeContent (Value.member (ascii "content") m) with
    | some i, some c => some ⟨i, c⟩
    | _, _ => none
  | _ => none

/-- Modelled from the spec: decoding of an `addEntries` payload. -/
def decodeAddEntries : Value → Option AddEntries
  | .obj m =>
    (optional [] (decodeList decodeEntry) (Value.member (ascii "entries") m)).map (fun es => ⟨es⟩)
  | _ => none

/-- Modelled from the spec: decoding of an instruction. -/
def decodeInstruction : Value → Option Instruction
  | .obj m =>
    (optional {} decodeAddEntries (Value.member (ascii "addEntries") m)).map (fun a => ⟨a⟩)
  | _ => none

/-- Modelled from the spec: decoding of the timeline. -/
def decodeTimeline : Value → Option Timeline
  | .obj m =>
    (optional [] (decodeList decodeInstruction) (Value.member (ascii "instructions") m)).map
      (fun is => ⟨is⟩)
  | _ => none

/-- Modelled from the spec: decoding of a tweet record. -/
def decodeTweet : Value → Option Tweet
  | .obj m =>
    match optional 0 decodeInt (Value.member (ascii "id") m),
      optional [] decodeString (Value.member (ascii "full_text") m) with
    | some i, some t => some ⟨i, t⟩
    | _, _ => none
  | _ => none

/-- Modelled from the spec: decoding of a user record. -/
def decodeUser : Value → Option User
  | .obj m => (optional 0 decodeInt (Value.member (ascii "id") m)).map (fun i => ⟨i⟩)
  | _ => none

/-- Modelled from the spec: decoding of `globalObjects`. -/
def decodeGlobalObjects : Value → Option GlobalObjects
  | .obj m =>
    match optional [] (decodeMap decodeTweet) (Value.member (ascii "tweets") m),
      optional [] (decodeMap decodeUser) (Value.member (ascii "users") m) with
    | some t, some u => some ⟨t, u⟩
    | _, _ => none
  | _ => none

/-- Modelled from the spec: decoding of a body as the response model; `none`
is a decode error. -/
def decodeAdaptive : Value → Option Adaptive
  | .obj m =>
    match optional {} decodeGlobalObjects (Value.member (ascii "globalObjects") m),
      optional {} decodeTimeline (Value.member (ascii "timeline") m) with
    | some g, some t => some ⟨g, t⟩
    | _, _ => none
  | _ => none

/-- Modelled from the spec: the continuation cursor of a page (the method of
`twitter/json` that extracts it is missing).  The instructions are scanned in
order, within each the entries in order; an entry whose cursor type is
`Bottom` overwrites the candidate found so far. -/
def Adaptive.FindCursor (a : Adaptive) : Option GoString :=
  a.Timeline.Instructions.foldl
    (fun found ins =>
      ins.AddEntries.Entries.foldl
        (fun found e =>
          if e.Content.Operation.Cursor.CursorType = ascii "Bottom" then
            some e.Content.Operation.Cursor.Value
          else found)
        found)
    none

end json

namespace twitter

/-- Modelled from the spec: the order of the keys in the serialization
(`twitter/client.go` is missing): bytewise lexicographic. -/
def keyLe : GoString → GoString → Bool
  | [], _ => true
  | _ :: _, [] => false
  | a :: s, b :: t => if a.val < b.val then true else if b.val < a.val then false else keyLe s t

/-- Modelled from the spec: insertion of a parameter at its place in a list
sorted by key. -/
def insertParam (p : GoString × GoString) : List (GoString × GoString) →
    List (GoString × GoString)
  | [] => [p]
  | r :: rest => if keyLe p.1 r.1 then p :: r :: rest else r :: insertParam p rest

/-- Modelled from the spec: the parameters sorted by key. -/
def sortParams : List (GoString × GoString) → List (GoString × GoString)
  | [] => []
  | p :: rest => insertParam p (sortParams rest)

/-- Modelled from the spec: the serialization of the parameters of a request
(`twitter/client.go` is missing): in lexicographic key order, each one as
`key=value`, separated by `&`.  The values are written as they stand in the
parameter set. -/
def serialize (params : List (GoString × GoString)) : GoString :=
  strings.Join ((sortParams params).map (fun p => p.1 ++ ascii "=" ++ p.2)) (ascii "&")

/-- Modelled from the spec: the parameters of a page request
(`twitter/client.go` is missing), with the values as the URL carries them: the
fixed set, with `q` the encoded query (the escaped value that `Encode`
returns), and `cursor`, URL-escaped, only when it is non-empty. -/
def pageParams (q : Query) (cursor : GoString) : List (GoString × GoString) :=
  let params := [(ascii "q", q.Encode), (ascii "count", ascii "40"),
    (ascii "include_quote_count", ascii "true"), (ascii "include_reply_count", ascii "1"),
    (ascii "query_source", ascii "typed_query"), (ascii "tweet_mode", ascii "extended"),
    (ascii "tweet_search_mode", ascii "live")]
  if cursor.length ≠ 0 then params ++ [(ascii "cursor", url.QueryEscape cursor)] else params

/-- The address of the search endpoint, as the tests of the client give it. -/
def endpoint : GoString := ascii "https://twitter.com/i/api/2/search/adaptive.json"

/-- Modelled from the spec: the URL of the request that `Search(q, "", cursor)`
issues (`twitter/client.go` is missing). -/
def requestURL (q : Query) (cursor : GoString) : GoString :=
  endpoint ++ ascii "?" ++ serialize (pageParams q cursor)

/-- An HTTP response: the status code and the JSON document of the body
(`none` when the body is not JSON). -/
structure Response where
  status : Nat
  body : Option json.Value

/-- A backend: what the server answers to the latest request, given the URLs
of all the requests made so far (oldest first, the latest one last); `none`
is a transport failure. -/
abbrev Backend := List GoString → Option Response

/-- Modelled from the spec: the errors of `Search` (`twitter/client.go` is
missing): a transport failure, a body that does not decode, or the structured
error response of the server. -/
inductive SearchError where
  | transport
  | decode
  | api (e : json.ErrorResponse)
  deriving DecidableEq, Repr

/-- The outcome of a call of `Search`: the result (`none` for nil), the error
(`none` for nil) and the requests made so far. -/
structure SearchOutcome where
  result : Option json.Adaptive
  err : Option SearchError
  requests : List GoString
  deriving DecidableEq, Repr

/-- Modelled from the spec: `Client.Search(q, "", cursor)` (`twitter/client.go`
is missing), after the requests `log`: one GET of the request URL; a 2xx body
is decoded as the response model, any other body as the error response. -/
def Client.Search (backend : Backend) (log : List GoString) (q : Query) (cursor : GoString) :
    SearchOutcome :=
  let requests := log ++ [requestURL q cursor]
  match backend requests with
  | none => ⟨none, some .transport, requests⟩
  | some resp =>
    if 200 ≤ resp.status ∧ resp.status < 300 then
      match resp.body.bind json.decodeAdaptive with
      | some a => ⟨some a, none, requests⟩
      | none => ⟨none, some .decode, requests⟩
    else
      match resp.body.bind json.decodeErrorResponse with
      | some e => ⟨none, some (.api e), requests⟩
      | none => ⟨none, some .decode, requests⟩

/-- What `SearchAll` has done: the values delivered on the channel in order
(`none` is the nil end marker) and the requests made. -/
structure Stream where
  delivered : List (Option json.Adaptive)
  requests : List GoString
  deriving DecidableEq, Repr

/-- Modelled from the spec: the loop of `Client.SearchAll` (`twitter/client.go`
is missing), run for at most `fuel` page fetches from the given cursor: fetch a
page, deliver it, and go on with its Bottom cursor; without one deliver the
end marker and stop.  A failed fetch stops the stream with nothing further. -/
def Client.SearchAllLoop (backend : Backend) (q : Query) :
    Nat → GoString → List GoString → Stream
  | 0, _, log => ⟨[], log⟩
  | fuel + 1, cursor, log =>
    let r := Client.Search backend log q cursor
    match r.result with
    | none => ⟨[], r.requests⟩
    | some page =>
      match page.FindCursor with
      | none => ⟨[some page, none], r.requests⟩
      | some next =>
        let rest := Client.SearchAllLoop backend q fuel next r.requests
        ⟨some page :: rest.delivered, rest.requests⟩

/-- Modelled from the spec: `Client.SearchAll(q)` (`twitter/client.go` is
missing), observed for at most `fuel` page fetches: the loop starts with the
empty cursor and no request made. -/
def Client.SearchAll (backend : Backend) (q : Query) (fuel : Nat) : Stream :=
  Client.SearchAllLoop backend q fuel [] []

/-- The Bottom cursors of a page in document order: the specification's
reading of which entries carry the continuation token. -/
def bottomCursors (a : json.Adaptive) : List GoString :=
  ((a.Timeline.Instructions.flatMap (fun ins => ins.AddEntries.Entries)).filter
    (fun e => e.Content.Operation.Cursor.CursorType = ascii "Bottom")).map
    (fun e => e.Content.Operation.Cursor.Value)

/-- The backend answers the successive requests of a pagination that starts at
`cursor` after the requests `log` with the given pages, each request carrying
the last Bottom cursor of the page before it. -/
def Answers (backend : Backend) (q : Query) :
    List GoString → GoString → List json.Adaptive → Prop
  | _, _, [] => True
  | log, cursor, p :: ps =>
    (Client.Search backend log q cursor).result = some p ∧
      Answers backend q (log ++ [requestURL q cursor]) ((bottomCursors p).getLastD []) ps

/-- The cursors of the requests that fetch the given pages, starting from
`cursor`: each further one is the last Bottom cursor of the page before. -/
def requestCursors : GoString → List json.Adaptive → List GoString
  | _, [] => []
  | cursor, p :: ps => cursor :: requestCursors ((bottomCursors p).getLastD []) ps

end twitter

/-! ## The mocked backend of the tests of the client -/

namespace twitter

/-- The body `res1` of `TestSearchAllWhenRestTweetsExist`: one tweet and a
Bottom cursor `scroll:deadbeef`. -/
def testBody1 : json.Value :=
  .obj [
    (ascii "globalObjects", .obj [
      (ascii "tweets", .obj [
        (ascii "1", .obj [
          (ascii "id", .num 1),
          (ascii "full_text", .str (ascii "To Sherlock Holmes she is always the woman."))])]),
      (ascii "users", .obj [])]),
    (ascii "timeline", .obj [
      (ascii "instructions", .arr [
        .obj [(ascii "addEntries", .obj [
          (ascii "entries", .arr [
            .obj [
              (ascii "entryId", .str (ascii "sq-cursor-bottom")),
              (ascii "content", .obj [
                (ascii "operation", .obj [
                  (ascii "cursor", .obj [
                    (ascii "value", .str (ascii "scroll:deadbeef")),
                    (ascii "cursorType", .str (ascii "Bottom"))])])])]])])]])])]

/-- The value `expected1` of `TestSearchAllWhenRestTweetsExist`. -/
def testPage1 : json.Adaptive :=
  { GlobalObjects :=
      { Tweets := [(ascii "1",
          { Id := 1, FullText := ascii "To Sherlock Holmes she is always the woman." })],
        Users := [] },
    Timeline :=
      { Instructions := [
          { AddEntries :=
              { Entries := [
                  { EntryId := ascii "sq-cursor-bottom",
                    Content :=
                      { Operation :=
                          { Cursor :=
                              { Value := ascii "scroll:deadbeef",
                                CursorType := ascii "Bottom" } } } }] } }] } }

/-- The address `url1` of `TestSearchAllWhenRestTweetsExist`. -/
def testUrl1 : GoString :=
  ascii ("https://twitter.com/i/api/2/search/adaptive.json?count=40" ++
    "&include_quote_count=true&include_reply_count=1&q=foo&query_source=typed_query" ++
    "&tweet_mode=extended&tweet_search_mode=live")

/-- The address `url2` of `TestSearchAllWhenRestTweetsExist`. -/
def testUrl2 : GoString :=
  ascii ("https://twitter.com/i/api/2/search/adaptive.json?count=40&cursor=scroll%3Adeadbeef" ++
    "&include_quote_count=true&include_reply_count=1&q=foo&query_source=typed_query" ++
    "&tweet_mode=extended&tweet_search_mode=live")

/-- The responders of `TestSearchAllWhenRestTweetsExist`: status 200 with `res1`
at `url1`, status 200 with the empty object at `url2`, no answer elsewhere. -/
def testBackend : Backend := fun requests =>
  match requests.getLast? with
  | none => none
  | some u =>
    if u = testUrl1 then some ⟨200, some testBody1⟩
    else if u = testUrl2 then some ⟨200, some (.obj [])⟩
    else none

end twitter

/-! ## Specification-side vocabulary for the timestamps `time.Parse` tolerates -/

namespace time

/-- A run of `n` spaces. -/
def spaces (n : Nat) : GoString := List.replicate n 32

/-- The number of a byte, a capital ASCII letter counting as its small letter. -/
def foldCase (c : Byte) : Nat := if 65 ≤ c.val ∧ c.val ≤ 90 then c.val + 32 else c.val

/-- The number that a string of decimal digits writes. -/
def decimal (s : GoString) : Nat := s.foldl (fun n c => n * 10 + (c.val - 48)) 0

/-- A fractional second, if any: a period or a comma followed by at least one
decimal digit. -/
def fractionOk : Option (Byte × GoString) → Bool
  | none => true
  | some (sep, ds) =>
    (sep.val == 46 || sep.val == 44) && !ds.isEmpty && ds.all (fun c => 48 ≤ c.val && c.val ≤ 57)

/-- The text of a fractional second. -/
def fractionText : Option (Byte × GoString) → GoString
  | none => []
  | some (sep, ds) => sep :: ds

/-- The nanoseconds of a fractional second: its first nine digits, read as
billionths. -/
def fractionNanos : Option (Byte × GoString) → Nat
  | none => 0
  | some (_, ds) => decimal (ds.take 9) * 10 ^ (9 - min ds.length 9)

/-- A timestamp in the layout `Mon Jan 02 15:04:05 -0700 2006` up to the
deviations listed here: the weekday and month names in any letter case, a run
of one or more spaces wherever the layout has a space (`gap` counts the spaces
beyond the first), an hour of one digit, and a fractional second after the
seconds. -/
structure Loose where
  stamp : Stamp
  weekdayText : GoString
  monthText : GoString
  gap1 : Nat
  gap2 : Nat
  gap3 : Nat
  gap4 : Nat
  gap5 : Nat
  shortHour : Bool
  fraction : Option (Byte × GoString)
  deriving DecidableEq, Repr

/-- The conditions on a timestamp with deviations: the names are the names of
the tables up to letter case, the day exists in its month, the time of day is
in range (an hour of one digit is below 10), the fractional second is well
formed, the zone offset has at most 24 hours and at most 60 minutes, and the
year has four digits. -/
def Loose.valid (l : Loose) : Prop :=
  l.weekdayText.map foldCase = (shortDayNames.getD l.stamp.weekday.val []).map foldCase ∧
  l.monthText.map foldCase = (shortMonthNames.getD l.stamp.month.val []).map foldCase ∧
  1 ≤ l.stamp.day ∧ l.stamp.day ≤ Stamp.monthLength l.stamp.month l.stamp.year ∧
  l.stamp.hour < 24 ∧ (l.shortHour = true → l.stamp.hour < 10) ∧
  l.stamp.min < 60 ∧ l.stamp.sec < 60 ∧ fractionOk l.fraction = true ∧
  l.stamp.zoneHour ≤ 24 ∧ l.stamp.zoneMin ≤ 60 ∧ l.stamp.year < 10000

instance (l : Loose) : Decidable l.valid := by
  unfold Loose.valid; infer_instance

/-- The text of a timestamp with deviations. -/
def Loose.text (l : Loose) : GoString :=
  l.weekdayText ++ (spaces (l.gap1 + 1) ++ (l.monthText ++ (spaces (l.gap2 + 1) ++
    (digits2 l.stamp.day ++ (spaces (l.gap3 + 1) ++
    ((if l.shortHour then [digit l.stamp.hour] else digits2 l.stamp.hour) ++ (ascii ":" ++
    (digits2 l.stamp.min ++ (ascii ":" ++ (digits2 l.stamp.sec ++ (fractionText l.fraction ++
    (spaces (l.gap4 + 1) ++ ((if l.stamp.east then ascii "+" else ascii "-") ++
    (digits2 l.stamp.zoneHour ++ (digits2 l.stamp.zoneMin ++
    (spaces (l.gap5 + 1) ++ digits4 l.stamp.year))))))))))))))))

/-- The instant a timestamp with deviations denotes. -/
def Loose.time (l : Loose) : Time :=
  { l.stamp.time with nsec := fractionNanos l.fraction }

/-- A timestamp written exactly in the layout, as one without deviations. -/
def Stamp.loose (s : Stamp) : Loose :=
  { stamp := s, weekdayText := shortDayNames.getD s.weekday.val [],
    monthText := shortMonthNames.getD s.month.val [],
    gap1 := 0, gap2 := 0, gap3 := 0, gap4 := 0, gap5 := 0, shortHour := false, fraction := none }

end time

namespace time

/-- The arm of a layout element runs on `value` without a range error and
without `errBad`, and leaves the fields `g` and the rest `r` of the value. -/
def armOk (std : Std) (f : Fields) (value : GoString) (g : Fields) (r : GoString) : Prop :=
  (parseArm std f value).rangeErrString = [] ∧ (parseArm std f value).err = false ∧
    (parseArm std f value).fields = g ∧ (parseArm std f value).value = r

end time

/-! ## Lemmas on `strings.Join` and `url.escape` -/

theorem strings.Join_eq_intercalate (l : List GoString) (sep : GoString) :
    strings.Join l sep = List.intercalate sep l := by
  induction l with
  | nil => rfl
  | cons e es ih =>
    cases es with
    | nil => simp [strings.Join, List.intercalate]
    | cons e2 es2 =>
      simp only [strings.Join, ih]
      simp [List.intercalate, List.intersperse]

theorem url.escapeLoop_of_counts_zero (s : GoString) (h : url.escapeCounts s = (0, 0)) :
    url.escapeLoop s = s := by
  induction s with
  | nil => rfl
  | cons c s ih =>
    simp only [url.escapeCounts] at h
    by_cases hc : url.shouldEscape c = true
    · simp only [hc, if_true] at h
      split at h <;> simp [Prod.ext_iff] at h
    · simp only [hc] at h
      have h32 : c.val ≠ 32 := by
        intro h32
        apply hc
        simp [url.shouldEscape, h32]
      simp [url.escapeLoop, url.escapeByte, hc, h32, ih h]

theorem url.escapeLoop_of_hex_zero (s : GoString) (h : (url.escapeCounts s).2 = 0) :
    url.escapeLoop s = s.map (fun c => if c.val = 32 then 43 else c) := by
  induction s with
  | nil => rfl
  | cons c s ih =>
    simp only [url.escapeCounts] at h
    by_cases hc : url.shouldEscape c = true
    · simp only [hc, if_true] at h
      by_cases h32 : c.val = 32
      · simp only [h32, if_true] at h
        simp [url.escapeLoop, url.escapeByte, h32, ih h]
      · simp [h32] at h
    · simp only [hc] at h
      have h32 : c.val ≠ 32 := by
        intro h32
        apply hc
        simp [url.shouldEscape, h32]
      simp [url.escapeLoop, url.escapeByte, hc, h32, ih h]

/-- The three paths of `escape` compute the same thing as its main loop. -/
theorem url.QueryEscape_eq_loop (s : GoString) : url.QueryEscape s = url.escapeLoop s := by
  unfold url.QueryEscape url.escape
  simp only
  split
  · rename_i h
    exact (url.escapeLoop_of_counts_zero s (Prod.ext h.1 h.2)).symm
  · split
    · rename_i h
      exact (url.escapeLoop_of_hex_zero s h).symm
    · rfl

theorem url.escapeByte_ne_nil (c : Byte) : url.escapeByte c ≠ [] := by
  unfold url.escapeByte
  split
  · simp
  · split <;> simp

theorem url.QueryEscape_eq_nil_iff (s : GoString) : url.QueryEscape s = [] ↔ s = [] := by
  rw [url.QueryEscape_eq_loop]
  cases s with
  | nil => simp [url.escapeLoop]
  | cons c s => simp [url.escapeLoop, url.escapeByte_ne_nil]

theorem url.QueryEscape_space : url.QueryEscape (ascii " ") = ascii "+" := by decide

/-- The three conditional appends of `Encode` build the filtered token list. -/
theorem twitter.Query.Encode_eq_Join (q : twitter.Query) :
    q.Encode = strings.Join (q.tokens url.QueryEscape) (ascii "+") := by
  obtain ⟨t, s, u⟩ := q
  unfold twitter.Query.Encode twitter.Query.tokens
  rw [url.QueryEscape_space]
  cases t <;> cases s <;> cases u <;> simp

/-! ## Theorems on `Query.Encode` and `Query.IsEmpty` -/

/-- C1: `Query.Encode` is the list of the escaped text, `since:` followed by
the verbatim `Since` and `until:` followed by the verbatim `Until`, restricted
to the non-empty fields, in that order, joined with `+`. -/
theorem twitter.Query.Encode_spec (q : twitter.Query) :
    q.Encode = List.intercalate (url.QueryEscape (ascii " "))
      (([(q.Text, url.QueryEscape q.Text), (q.Since, ascii "since:" ++ q.Since),
         (q.Until, ascii "until:" ++ q.Until)].filter (fun p => !p.1.isEmpty)).map Prod.snd) ∧
    url.QueryEscape (ascii " ") = ascii "+" := by
  refine ⟨?_, url.QueryEscape_space⟩
  rw [twitter.Query.Encode_eq_Join, strings.Join_eq_intercalate, url.QueryEscape_space]
  rfl

/-- C4: `Query.IsEmpty` is true exactly when `Query.Encode` is the empty string. -/
theorem twitter.Query.IsEmpty_iff_Encode_empty (q : twitter.Query) :
    q.IsEmpty = true ↔ q.Encode = [] := by
  simp [twitter.Query.IsEmpty, List.length_eq_zero]

/-- C5: `Query.Encode` is a total function whose result is the empty string
exactly when `Text`, `Since` and `Until` are all empty (and exactly then the
query is considered empty); as soon as one field is non-empty the encoded form
is non-empty. -/
theorem twitter.Query.Encode_empty_iff (q : twitter.Query) :
    (q.Encode = [] ↔ q.Text = [] ∧ q.Since = [] ∧ q.Until = []) ∧
    (q.IsEmpty = true ↔ q.Text = [] ∧ q.Since = [] ∧ q.Until = []) ∧
    ((q.Text ≠ [] ∨ q.Since ≠ [] ∨ q.Until ≠ []) → q.Encode ≠ []) ∧
    (∃ r : GoString, q.Encode = r) := by
  have key : q.Encode = [] ↔ q.Text = [] ∧ q.Since = [] ∧ q.Until = [] := by
    obtain ⟨t, s, u⟩ := q
    rw [twitter.Query.Encode_eq_Join]
    unfold twitter.Query.tokens
    have hs : ∀ x : GoString, ascii "since:" ++ x ≠ [] := by intro x; simp [ascii]
    have hu : ∀ x : GoString, ascii "until:" ++ x ≠ [] := by intro x; simp [ascii]
    cases t with
    | nil =>
      cases s <;> cases u <;> simp [strings.Join, hs, hu]
    | cons c t =>
      have ht : url.QueryEscape (c :: t) ≠ [] := by
        rw [Ne, url.QueryEscape_eq_nil_iff]; simp
      cases s <;> cases u <;> simp [strings.Join, ht]
  refine ⟨key, ?_, ?_, ⟨_, rfl⟩⟩
  · rw [← key]
    simp [twitter.Query.IsEmpty, List.length_eq_zero]
  · intro h hE
    rw [key] at hE
    rcases h with h | h | h
    · exact h hE.1
    · exact h hE.2.1
    · exact h hE.2.2

/-! ## The shape of the encoded value -/

/-- Induction along the way a scanner of `%XX` escapes walks a string: three
bytes at a `%` that has two bytes after it, one byte otherwise. -/
theorem url.escape_induction {P : GoString → Prop} (nil : P [])
    (pct : ∀ c a b rest, c.val = 37 → P rest → P (c :: a :: b :: rest))
    (pct1 : ∀ c : Byte, c.val = 37 → P [c])
    (pct2 : ∀ c a : Byte, c.val = 37 → P [c, a])
    (plain : ∀ c s, c.val ≠ 37 → P s → P (c :: s)) : ∀ s, P s := by
  intro s
  generalize h : s.length = n
  induction n using Nat.strong_induction_on generalizing s with
  | _ n ih =>
    match s, h with
    | [], _ => exact nil
    | c :: s, h =>
      by_cases hc : c.val = 37
      · match s, h with
        | [], _ => exact pct1 c hc
        | [a], _ => exact pct2 c a hc
        | a :: b :: rest, h =>
          simp only [List.length_cons] at h
          exact pct c a b rest hc (ih rest.length (by omega) rest rfl)
      · simp only [List.length_cons] at h
        exact plain c s hc (ih s.length (by omega) s rfl)

theorem twitter.wellEscaped_nil : twitter.wellEscaped [] = true := rfl

theorem twitter.wellEscaped_pct (c a b : Byte) (rest : GoString) (h : c.val = 37) :
    twitter.wellEscaped (c :: a :: b :: rest) =
      (twitter.isHexDigit a && twitter.isHexDigit b && twitter.wellEscaped rest) := by
  rw [twitter.wellEscaped.eq_def]; simp [h]

theorem twitter.wellEscaped_pct1 (c : Byte) (h : c.val = 37) :
    twitter.wellEscaped [c] = false := by
  rw [twitter.wellEscaped.eq_def]; simp [h]

theorem twitter.wellEscaped_pct2 (c a : Byte) (h : c.val = 37) :
    twitter.wellEscaped [c, a] = false := by
  rw [twitter.wellEscaped.eq_def]; simp [h]

theorem twitter.wellEscaped_plain (c : Byte) (s : GoString) (h : c.val ≠ 37) :
    twitter.wellEscaped (c :: s) = (twitter.isPlainChar c && twitter.wellEscaped s) := by
  rw [twitter.wellEscaped.eq_def]; simp [h]

theorem twitter.wellEscaped_append_left (x y : GoString) (h : twitter.wellEscaped x = true) :
    twitter.wellEscaped (x ++ y) = twitter.wellEscaped y := by
  induction x using url.escape_induction with
  | nil => rfl
  | pct c a b rest hc ih =>
    rw [twitter.wellEscaped_pct c a b rest hc] at h
    simp only [Bool.and_eq_true] at h
    simp only [List.cons_append]
    rw [twitter.wellEscaped_pct c a b _ hc, ih h.2, h.1.1, h.1.2]
    simp
  | pct1 c hc => rw [twitter.wellEscaped_pct1 c hc] at h; exact absurd h (by simp)
  | pct2 c a hc => rw [twitter.wellEscaped_pct2 c a hc] at h; exact absurd h (by simp)
  | plain c s hc ih =>
    rw [twitter.wellEscaped_plain c s hc] at h
    simp only [Bool.and_eq_true] at h
    simp only [List.cons_append]
    rw [twitter.wellEscaped_plain c _ hc, ih h.2, h.1]
    simp

theorem twitter.isHexDigit_plus : twitter.isHexDigit (43 : Byte) = false := by decide

theorem twitter.isPlainChar_plus : twitter.isPlainChar (43 : Byte) = true := by decide

/-- A `+` after a piece closes it: a dangling escape cannot be completed by
what follows. -/
theorem twitter.wellEscaped_append_plus (x y : GoString) :
    twitter.wellEscaped (x ++ (43 : Byte) :: y) =
      (twitter.wellEscaped x && twitter.wellEscaped y) := by
  induction x using url.escape_induction with
  | nil =>
    simp only [List.nil_append]
    rw [twitter.wellEscaped_plain _ _ (by decide), twitter.isPlainChar_plus,
      twitter.wellEscaped_nil]
  | pct c a b rest hc ih =>
    simp only [List.cons_append]
    rw [twitter.wellEscaped_pct c a b _ hc, twitter.wellEscaped_pct c a b _ hc, ih]
    simp [Bool.and_assoc]
  | pct1 c hc =>
    rw [twitter.wellEscaped_pct1 c hc]
    cases y with
    | nil => simp only [List.singleton_append]; rw [twitter.wellEscaped_pct2 c _ hc]; rfl
    | cons d y =>
      simp only [List.singleton_append]
      rw [twitter.wellEscaped_pct c _ _ _ hc, twitter.isHexDigit_plus]
      simp
  | pct2 c a hc =>
    rw [twitter.wellEscaped_pct2 c a hc]
    simp only [List.cons_append, List.nil_append]
    rw [twitter.wellEscaped_pct c _ _ _ hc, twitter.isHexDigit_plus]
    simp
  | plain c s hc ih =>
    simp only [List.cons_append]
    rw [twitter.wellEscaped_plain c _ hc, twitter.wellEscaped_plain c _ hc, ih]
    simp [Bool.and_assoc]

theorem twitter.wellEscaped_Join (l : List GoString) :
    twitter.wellEscaped (strings.Join l (ascii "+")) = l.all twitter.wellEscaped := by
  induction l with
  | nil => rfl
  | cons e es ih =>
    cases es with
    | nil => simp [strings.Join]
    | cons e2 es2 =>
      have h43 : ascii "+" = [(43 : Byte)] := by decide
      simp only [strings.Join, h43] at ih ⊢
      rw [List.append_assoc, List.singleton_append, twitter.wellEscaped_append_plus, ih]
      simp

theorem url.upperhex_isHexDigit (n : Fin 16) :
    twitter.isHexDigit (url.upperhex.getD n.val 0) = true := by
  revert n; decide

theorem url.wellEscaped_escapeByte (c : Byte) (s : GoString) :
    twitter.wellEscaped (url.escapeByte c ++ s) = twitter.wellEscaped s := by
  apply twitter.wellEscaped_append_left
  unfold url.escapeByte
  split
  · decide
  · split
    · have h1 := url.upperhex_isHexDigit ⟨c.val / 16, by omega⟩
      have h2 := url.upperhex_isHexDigit ⟨c.val % 16, by omega⟩
      rw [twitter.wellEscaped_pct _ _ _ _ (by decide), h1, h2]
      rfl
    · rename_i h32 hesc
      have hp : twitter.isPlainChar c = true ∧ c.val ≠ 37 := by
        simp only [url.shouldEscape, Bool.not_eq_true] at hesc
        simp only [twitter.isPlainChar]
        split at hesc
        · rename_i h; constructor
          · simp only [Bool.or_eq_true, Bool.and_eq_true, decide_eq_true_eq, beq_iff_eq]; omega
          · omega
        · split at hesc
          · rename_i h; constructor
            · simp only [Bool.or_eq_true, Bool.and_eq_true, decide_eq_true_eq, beq_iff_eq]; omega
            · omega
          · simp at hesc
      rw [twitter.wellEscaped_plain c _ hp.2, hp.1]
      rfl

theorem url.wellEscaped_QueryEscape (s : GoString) :
    twitter.wellEscaped (url.QueryEscape s) = true := by
  rw [url.QueryEscape_eq_loop]
  induction s with
  | nil => rfl
  | cons c s ih => rw [url.escapeLoop, url.wellEscaped_escapeByte, ih]

theorem twitter.wellEscaped_no_raw (s : GoString) (h : twitter.wellEscaped s = true) :
    ∀ c ∈ s, c.val ≠ 32 ∧ c.val ≠ 38 ∧ c.val ≠ 61 ∧ c.val ≠ 35 := by
  induction s using url.escape_induction with
  | nil => simp
  | pct c a b rest hc ih =>
    rw [twitter.wellEscaped_pct c a b rest hc] at h
    simp only [Bool.and_eq_true, twitter.isHexDigit,
      Bool.or_eq_true, decide_eq_true_eq] at h
    intro x hx
    simp only [List.mem_cons] at hx
    rcases hx with hx | hx | hx | hx
    · subst hx; omega
    · subst hx; omega
    · subst hx; omega
    · exact ih h.2 x hx
  | pct1 c hc => rw [twitter.wellEscaped_pct1 c hc] at h; exact absurd h (by simp)
  | pct2 c a hc => rw [twitter.wellEscaped_pct2 c a hc] at h; exact absurd h (by simp)
  | plain c s hc ih =>
    rw [twitter.wellEscaped_plain c s hc] at h
    simp only [Bool.and_eq_true, twitter.isPlainChar,
      Bool.or_eq_true, decide_eq_true_eq, beq_iff_eq] at h
    intro x hx
    simp only [List.mem_cons] at hx
    rcases hx with hx | hx
    · subst hx; omega
    · exact ih h.2 x hx

theorem twitter.wellEscaped_since (s : GoString) :
    twitter.wellEscaped (ascii "since:" ++ s) = twitter.wellEscaped s :=
  twitter.wellEscaped_append_left _ _ (by decide)

theorem twitter.wellEscaped_until (s : GoString) :
    twitter.wellEscaped (ascii "until:" ++ s) = twitter.wellEscaped s :=
  twitter.wellEscaped_append_left _ _ (by decide)

/-- C3 (amended): the encoded query is a single escaped query-parameter value
(plain characters and well-formed `%XX` escapes only) exactly when the verbatim
`Since` and `Until` values are; the escaped text, the `since:` and `until:`
markers and the `+` separators always are.  Whenever it is, it contains no raw
space, `&`, `=` or `#`. -/
theorem twitter.Query.Encode_wellEscaped_iff (q : twitter.Query) :
    (twitter.wellEscaped q.Encode = true ↔
      twitter.wellEscaped q.Since = true ∧ twitter.wellEscaped q.Until = true) ∧
    (twitter.wellEscaped q.Encode = true →
      ∀ c ∈ q.Encode, c.val ≠ 32 ∧ c.val ≠ 38 ∧ c.val ≠ 61 ∧ c.val ≠ 35) := by
  refine ⟨?_, twitter.wellEscaped_no_raw _⟩
  obtain ⟨t, s, u⟩ := q
  rw [twitter.Query.Encode_eq_Join, twitter.wellEscaped_Join]
  unfold twitter.Query.tokens
  cases t <;> cases s <;> cases u <;>
    simp [twitter.wellEscaped_since, twitter.wellEscaped_until, url.wellEscaped_QueryEscape,
      twitter.wellEscaped_nil]

/-- C3 (counterexample): with `Since = "a b"` the encoded value holds a raw
space, so it is not a single escaped query-parameter value. -/
theorem twitter.Query.Encode_raw_space :
    (32 : Byte) ∈ twitter.Query.Encode ⟨[], ascii "a b", []⟩ ∧
    twitter.wellEscaped (twitter.Query.Encode ⟨[], ascii "a b", []⟩) = false := by
  decide

/-! ## Unescaping the encoded value -/

theorem url.unescapeCheck_pct (c a b : Byte) (rest : GoString) (h : c.val = 37) :
    url.unescapeCheck (c :: a :: b :: rest) =
      if url.ishex a ∧ url.ishex b then
        match url.unescapeCheck rest with
        | .ok r => .ok (r.1 + 1, r.2)
        | .error e => .error e
      else .error (.EscapeError [c, a, b]) := by
  rw [url.unescapeCheck.eq_def]; simp [h]

theorem url.unescapeCheck_pct1 (c : Byte) (h : c.val = 37) :
    url.unescapeCheck [c] = .error (.EscapeError [c]) := by
  rw [url.unescapeCheck.eq_def]; simp [h]

theorem url.unescapeCheck_pct2 (c a : Byte) (h : c.val = 37) :
    url.unescapeCheck [c, a] = .error (.EscapeError [c, a]) := by
  rw [url.unescapeCheck.eq_def]; simp [h]

theorem url.unescapeCheck_plain (c : Byte) (s : GoString) (h : c.val ≠ 37) :
    url.unescapeCheck (c :: s) =
      if c.val = 43 then
        match url.unescapeCheck s with
        | .ok r => .ok (r.1, true)
        | .error e => .error e
      else url.unescapeCheck s := by
  rw [url.unescapeCheck.eq_def]; simp [h]

theorem url.unescapeLoop_pct (c a b : Byte) (rest : GoString) (h : c.val = 37) :
    url.unescapeLoop (c :: a :: b :: rest) =
      Fin.ofNat (url.unhex a * 16 + url.unhex b) :: url.unescapeLoop rest := by
  rw [url.unescapeLoop.eq_def]; simp [h]

theorem url.unescapeLoop_plain (c : Byte) (s : GoString) (h : c.val ≠ 37) :
    url.unescapeLoop (c :: s) =
      (if c.val = 43 then (32 : Byte) else c) :: url.unescapeLoop s := by
  rw [url.unescapeLoop.eq_def]; simp only [h, if_false]
  split <;> rfl

theorem url.CheckOk_nil : url.CheckOk [] := ⟨_, rfl⟩

theorem url.CheckOk_pct (c a b : Byte) (rest : GoString) (h : c.val = 37) :
    url.CheckOk (c :: a :: b :: rest) ↔
      (url.ishex a = true ∧ url.ishex b = true) ∧ url.CheckOk rest := by
  unfold url.CheckOk
  rw [url.unescapeCheck_pct c a b rest h]
  by_cases hh : url.ishex a = true ∧ url.ishex b = true
  · simp only [hh, and_self, if_true, true_and]
    cases url.unescapeCheck rest <;> simp
  · simp [hh]

theorem url.CheckOk_plain (c : Byte) (s : GoString) (h : c.val ≠ 37) :
    url.CheckOk (c :: s) ↔ url.CheckOk s := by
  unfold url.CheckOk
  rw [url.unescapeCheck_plain c s h]
  split
  · cases url.unescapeCheck s <;> simp
  · rfl

theorem url.not_CheckOk_pct1 (c : Byte) (h : c.val = 37) : ¬ url.CheckOk [c] := by
  unfold url.CheckOk
  rw [url.unescapeCheck_pct1 c h]; simp

theorem url.not_CheckOk_pct2 (c a : Byte) (h : c.val = 37) : ¬ url.CheckOk [c, a] := by
  unfold url.CheckOk
  rw [url.unescapeCheck_pct2 c a h]; simp

/-- When the check finds neither a `%` nor a `+`, the second loop is the identity,
so both return paths of `unescape` agree with the second loop. -/
theorem url.unescapeLoop_of_check_zero (s : GoString)
    (h : ∃ r, url.unescapeCheck s = .ok r ∧ r.1 = 0 ∧ r.2 = false) :
    url.unescapeLoop s = s := by
  induction s using url.escape_induction with
  | nil => rfl
  | pct c a b rest hc ih =>
    exfalso
    obtain ⟨r, hr, h1, h2⟩ := h
    rw [url.unescapeCheck_pct c a b rest hc] at hr
    split at hr
    · cases hrest : url.unescapeCheck rest with
      | error e => rw [hrest] at hr; simp at hr
      | ok r2 =>
        rw [hrest] at hr
        simp only [Except.ok.injEq] at hr
        rw [← hr] at h1
        simp at h1
    · simp at hr
  | pct1 c hc =>
    obtain ⟨r, hr, _⟩ := h
    rw [url.unescapeCheck_pct1 c hc] at hr; simp at hr
  | pct2 c a hc =>
    obtain ⟨r, hr, _⟩ := h
    rw [url.unescapeCheck_pct2 c a hc] at hr; simp at hr
  | plain c s hc ih =>
    obtain ⟨r, hr, h1, h2⟩ := h
    rw [url.unescapeCheck_plain c s hc] at hr
    split at hr
    · exfalso
      cases hrest : url.unescapeCheck s with
      | error e => rw [hrest] at hr; simp at hr
      | ok r2 =>
        rw [hrest] at hr
        simp only [Except.ok.injEq] at hr
        rw [← hr] at h2
        simp at h2
    · rename_i h43
      rw [url.unescapeLoop_plain c s hc, ih ⟨r, hr, h1, h2⟩]
      simp [h43]

theorem url.QueryUnescape_of_CheckOk (s : GoString) (h : url.CheckOk s) :
    url.QueryUnescape s = .ok (url.unescapeLoop s) := by
  obtain ⟨r, hr⟩ := h
  unfold url.QueryUnescape url.unescape
  rw [hr]
  simp only
  split
  · rename_i h0
    rw [url.unescapeLoop_of_check_zero s ⟨r, hr, h0.1, h0.2⟩]
  · rfl

theorem url.QueryUnescape_of_not_CheckOk (s : GoString) (h : ¬ url.CheckOk s) :
    ∃ e, url.QueryUnescape s = .error e := by
  unfold url.QueryUnescape url.unescape
  cases hr : url.unescapeCheck s with
  | error e => exact ⟨e, rfl⟩
  | ok r => exact absurd ⟨r, hr⟩ h

theorem url.CheckOk_append (x y : GoString) (hx : url.CheckOk x) :
    (url.CheckOk (x ++ y) ↔ url.CheckOk y) ∧
      url.unescapeLoop (x ++ y) = url.unescapeLoop x ++ url.unescapeLoop y := by
  induction x using url.escape_induction with
  | nil => exact ⟨Iff.rfl, rfl⟩
  | pct c a b rest hc ih =>
    rw [url.CheckOk_pct c a b rest hc] at hx
    simp only [List.cons_append]
    rw [url.CheckOk_pct c a b _ hc, url.unescapeLoop_pct c a b _ hc,
      url.unescapeLoop_pct c a b _ hc, (ih hx.2).2, (ih hx.2).1]
    simp [hx.1]
  | pct1 c hc => exact absurd hx (url.not_CheckOk_pct1 c hc)
  | pct2 c a hc => exact absurd hx (url.not_CheckOk_pct2 c a hc)
  | plain c s hc ih =>
    rw [url.CheckOk_plain c s hc] at hx
    simp only [List.cons_append]
    rw [url.CheckOk_plain c _ hc, url.unescapeLoop_plain c _ hc,
      url.unescapeLoop_plain c _ hc, (ih hx).2, (ih hx).1]
    simp

theorem url.unhex_upperhex (n : Fin 16) :
    url.ishex (url.upperhex.getD n.val 0) = true ∧
      url.unhex (url.upperhex.getD n.val 0) = n.val := by
  revert n; decide

theorem url.CheckOk_escapeByte (c : Byte) :
    url.CheckOk (url.escapeByte c) ∧ url.unescapeLoop (url.escapeByte c) = [c] := by
  unfold url.escapeByte
  split
  · rename_i h32
    have hc : c = 32 := Fin.ext h32
    subst hc
    exact ⟨⟨_, rfl⟩, rfl⟩
  · split
    · have h1 := url.unhex_upperhex ⟨c.val / 16, by omega⟩
      have h2 := url.unhex_upperhex ⟨c.val % 16, by omega⟩
      simp only at h1 h2
      constructor
      · rw [url.CheckOk_pct _ _ _ _ (by decide)]
        exact ⟨⟨h1.1, h2.1⟩, url.CheckOk_nil⟩
      · rw [url.unescapeLoop_pct _ _ _ _ (by decide), h1.2, h2.2]
        have : c.val / 16 * 16 + c.val % 16 = c.val := by omega
        rw [this]
        have hfin : (Fin.ofNat c.val : Byte) = c :=
          Fin.ext (by simp [Fin.ofNat, Nat.mod_eq_of_lt c.isLt])
        rw [hfin]
        simp [url.unescapeLoop]
    · rename_i h32 hesc
      have hp : c.val ≠ 37 ∧ c.val ≠ 43 := by
        simp only [url.shouldEscape, Bool.not_eq_true] at hesc
        split at hesc
        · omega
        · split at hesc
          · omega
          · simp at hesc
      constructor
      · rw [url.CheckOk_plain c _ hp.1]; exact url.CheckOk_nil
      · rw [url.unescapeLoop_plain c _ hp.1]
        simp [hp.2, url.unescapeLoop]

/-- Unescaping undoes escaping: the round trip of `url.QueryEscape`. -/
theorem url.CheckOk_QueryEscape (s : GoString) :
    url.CheckOk (url.QueryEscape s) ∧ url.unescapeLoop (url.QueryEscape s) = s := by
  rw [url.QueryEscape_eq_loop]
  induction s with
  | nil => exact ⟨url.CheckOk_nil, rfl⟩
  | cons c s ih =>
    rw [url.escapeLoop]
    have hb := url.CheckOk_escapeByte c
    have ha := url.CheckOk_append (url.escapeByte c) (url.escapeLoop s) hb.1
    exact ⟨ha.1.2 ih.1, by rw [ha.2, hb.2, ih.2]; rfl⟩

/-- A string with neither `%` nor `+` is left alone by unescaping. -/
theorem url.CheckOk_of_verbatim (s : GoString) (h : ∀ c ∈ s, c.val ≠ 37 ∧ c.val ≠ 43) :
    url.CheckOk s ∧ url.unescapeLoop s = s := by
  induction s with
  | nil => exact ⟨url.CheckOk_nil, rfl⟩
  | cons c s ih =>
    have hc := h c (List.mem_cons_self c s)
    have hs := ih (fun d hd => h d (List.mem_cons_of_mem c hd))
    rw [url.CheckOk_plain c s hc.1, url.unescapeLoop_plain c s hc.1, hs.2]
    exact ⟨hs.1, by simp [hc.2]⟩

theorem url.unescape_Join (l : List GoString) (h : ∀ e ∈ l, url.CheckOk e) :
    url.CheckOk (strings.Join l (ascii "+")) ∧
      url.unescapeLoop (strings.Join l (ascii "+")) =
        strings.Join (l.map url.unescapeLoop) (ascii " ") := by
  induction l with
  | nil => exact ⟨url.CheckOk_nil, rfl⟩
  | cons e es ih =>
    cases es with
    | nil => simpa [strings.Join] using h
    | cons e2 es2 =>
      have he := h e (List.mem_cons_self _ _)
      have ih2 := ih (fun d hd => h d (List.mem_cons_of_mem _ hd))
      have hplus : url.CheckOk (ascii "+") ∧ url.unescapeLoop (ascii "+") = ascii " " :=
        ⟨⟨_, rfl⟩, rfl⟩
      simp only [strings.Join, List.map_cons, List.append_assoc] at ih2 ⊢
      have h1 := url.CheckOk_append e (ascii "+" ++ strings.Join (e2 :: es2) (ascii "+")) he
      have h2 := url.CheckOk_append (ascii "+") (strings.Join (e2 :: es2) (ascii "+")) hplus.1
      simp only [strings.Join, List.map_cons, List.append_assoc] at h1 h2
      refine ⟨h1.1.2 (h2.1.2 ih2.1), ?_⟩
      rw [h1.2, h2.2, hplus.2, ih2.2]

theorem url.ishex_plus : url.ishex (43 : Byte) = false := by decide

/-- A `+` after a piece closes it for the check of `unescape` as well. -/
theorem url.CheckOk_append_plus (x y : GoString) :
    url.CheckOk (x ++ (43 : Byte) :: y) ↔ url.CheckOk x ∧ url.CheckOk y := by
  induction x using url.escape_induction with
  | nil =>
    simp only [List.nil_append]
    rw [url.CheckOk_plain _ _ (by decide)]
    simp [url.CheckOk_nil]
  | pct c a b rest hc ih =>
    simp only [List.cons_append]
    rw [url.CheckOk_pct c a b _ hc, url.CheckOk_pct c a b _ hc, ih]
    tauto
  | pct1 c hc =>
    have hn := url.not_CheckOk_pct1 c hc
    cases y with
    | nil =>
      simp only [List.singleton_append]
      have := url.not_CheckOk_pct2 c 43 hc
      tauto
    | cons d y =>
      simp only [List.singleton_append]
      rw [url.CheckOk_pct c _ _ _ hc, url.ishex_plus]
      simp [hn]
  | pct2 c a hc =>
    have hn := url.not_CheckOk_pct2 c a hc
    simp only [List.cons_append, List.nil_append]
    rw [url.CheckOk_pct c _ _ _ hc, url.ishex_plus]
    simp [hn]
  | plain c s hc ih =>
    simp only [List.cons_append]
    rw [url.CheckOk_plain c _ hc, url.CheckOk_plain c _ hc, ih]

theorem url.CheckOk_Join (l : List GoString) (h : url.CheckOk (strings.Join l (ascii "+"))) :
    ∀ e ∈ l, url.CheckOk e := by
  induction l with
  | nil => simp
  | cons e es ih =>
    cases es with
    | nil => simpa [strings.Join] using h
    | cons e2 es2 =>
      have h43 : ascii "+" = [(43 : Byte)] := by decide
      simp only [strings.Join, h43, List.append_assoc, List.singleton_append] at h ih
      rw [url.CheckOk_append_plus] at h
      intro d hd
      rcases List.mem_cons.1 hd with hd | hd
      · subst hd; exact h.1
      · exact ih h.2 d hd

theorem url.unescapeLoop_length_le (s : GoString) :
    (url.unescapeLoop s).length ≤ s.length := by
  induction s using url.escape_induction with
  | nil => simp [url.unescapeLoop]
  | pct c a b rest hc ih =>
    rw [url.unescapeLoop_pct c a b rest hc]
    simp only [List.length_cons]; omega
  | pct1 c hc => rw [url.unescapeLoop.eq_def]; simp [hc]
  | pct2 c a hc => rw [url.unescapeLoop.eq_def]; simp [hc]
  | plain c s hc ih =>
    rw [url.unescapeLoop_plain c s hc]
    simp only [List.length_cons]; omega

/-- A string that unescaping accepts and leaves alone has neither `%` nor `+`. -/
theorem url.verbatim_of_fixed (s : GoString) (hok : url.CheckOk s)
    (h : url.unescapeLoop s = s) : ∀ c ∈ s, c.val ≠ 37 ∧ c.val ≠ 43 := by
  induction s using url.escape_induction with
  | nil => simp
  | pct c a b rest hc ih =>
    exfalso
    rw [url.unescapeLoop_pct c a b rest hc] at h
    have hl := congrArg List.length h
    have := url.unescapeLoop_length_le rest
    simp only [List.length_cons] at hl
    omega
  | pct1 c hc => exact absurd hok (url.not_CheckOk_pct1 c hc)
  | pct2 c a hc => exact absurd hok (url.not_CheckOk_pct2 c a hc)
  | plain c s hc ih =>
    rw [url.CheckOk_plain c s hc] at hok
    rw [url.unescapeLoop_plain c s hc] at h
    simp only [List.cons.injEq] at h
    have h43 : c.val ≠ 43 := by
      intro h43
      rw [if_pos h43] at h
      have := congrArg Fin.val h.1
      rw [h43] at this
      exact absurd this (by decide)
    intro d hd
    rcases List.mem_cons.1 hd with hd | hd
    · subst hd; exact ⟨hc, h43⟩
    · exact ih hok h.2 d hd

theorem url.unescape_since (s : GoString) :
    (url.CheckOk (ascii "since:" ++ s) ↔ url.CheckOk s) ∧
      url.unescapeLoop (ascii "since:" ++ s) = ascii "since:" ++ url.unescapeLoop s :=
  url.CheckOk_append (ascii "since:") s ⟨_, rfl⟩

theorem url.unescape_until (s : GoString) :
    (url.CheckOk (ascii "until:" ++ s) ↔ url.CheckOk s) ∧
      url.unescapeLoop (ascii "until:" ++ s) = ascii "until:" ++ url.unescapeLoop s :=
  url.CheckOk_append (ascii "until:") s ⟨_, rfl⟩

theorem List.cancel_two {α : Type} (A B S S2 U U2 : List α)
    (h : A ++ (S2 ++ (B ++ U2)) = A ++ (S ++ (B ++ U)))
    (hS : S2.length ≤ S.length) (hU : U2.length ≤ U.length) : S2 = S ∧ U2 = U := by
  have h1 := List.append_cancel_left h
  have hl := congrArg List.length h1
  simp only [List.length_append] at hl
  have h2 := List.append_inj h1 (by omega)
  exact ⟨h2.1, List.append_cancel_left h2.2⟩

/-- The round trip for queries whose dates hold neither `%` nor `+`. -/
theorem twitter.Query.unescape_of_verbatim (q : twitter.Query)
    (hs : ∀ c ∈ q.Since, c.val ≠ 37 ∧ c.val ≠ 43)
    (hu : ∀ c ∈ q.Until, c.val ≠ 37 ∧ c.val ≠ 43) :
    url.QueryUnescape q.Encode = .ok (List.intercalate (ascii " ") (q.tokens id)) := by
  have hS := url.CheckOk_of_verbatim _ hs
  have hU := url.CheckOk_of_verbatim _ hu
  have hT := url.CheckOk_QueryEscape q.Text
  have hck : ∀ e ∈ q.tokens url.QueryEscape, url.CheckOk e := by
    intro e he
    simp only [twitter.Query.tokens, List.mem_map, List.mem_filter, List.mem_cons,
      List.mem_singleton, List.not_mem_nil, or_false] at he
    obtain ⟨p, ⟨hp | hp | hp, _⟩, rfl⟩ := he
    · subst hp; exact hT.1
    · subst hp; exact (url.unescape_since _).1.2 hS.1
    · subst hp; exact (url.unescape_until _).1.2 hU.1
  have hj := url.unescape_Join _ hck
  rw [twitter.Query.Encode_eq_Join, url.QueryUnescape_of_CheckOk _ hj.1, hj.2,
    strings.Join_eq_intercalate]
  have hmap : (q.tokens url.QueryEscape).map url.unescapeLoop = q.tokens id := by
    obtain ⟨t, s, u⟩ := q
    simp only [twitter.Query.tokens] at *
    cases t <;> cases s <;> cases u <;>
      simp_all [(url.unescape_since _).2, (url.unescape_until _).2]
  rw [hmap]

/-- The converse: when the round trip holds, the dates hold neither `%` nor `+`. -/
theorem twitter.Query.verbatim_of_unescape (q : twitter.Query)
    (h : url.QueryUnescape q.Encode = .ok (List.intercalate (ascii " ") (q.tokens id))) :
    (∀ c ∈ q.Since, c.val ≠ 37 ∧ c.val ≠ 43) ∧ (∀ c ∈ q.Until, c.val ≠ 37 ∧ c.val ≠ 43) := by
  have hok : url.CheckOk q.Encode := by
    by_contra hn
    obtain ⟨e, he⟩ := url.QueryUnescape_of_not_CheckOk _ hn
    rw [he] at h
    exact absurd h (by simp)
  rw [url.QueryUnescape_of_CheckOk _ hok] at h
  simp only [Except.ok.injEq] at h
  rw [twitter.Query.Encode_eq_Join] at hok h
  have hck := url.CheckOk_Join _ hok
  rw [(url.unescape_Join _ hck).2, ← strings.Join_eq_intercalate] at h
  have hfix : (url.CheckOk q.Since ∧ url.unescapeLoop q.Since = q.Since) ∧
      (url.CheckOk q.Until ∧ url.unescapeLoop q.Until = q.Until) := by
    obtain ⟨t, s, u⟩ := q
    have hT := (url.CheckOk_QueryEscape t).2
    have lS := url.unescapeLoop_length_le s
    have lU := url.unescapeLoop_length_le u
    simp only [twitter.Query.tokens] at hck h ⊢
    cases t with
    | nil =>
      cases s with
      | nil =>
        cases u with
        | nil => exact ⟨⟨url.CheckOk_nil, rfl⟩, ⟨url.CheckOk_nil, rfl⟩⟩
        | cons u0 u =>
          simp [strings.Join, (url.unescape_until _).2, (url.unescape_until _).1] at hck h
          exact ⟨⟨url.CheckOk_nil, rfl⟩, ⟨hck, h⟩⟩
      | cons s0 s =>
        cases u with
        | nil =>
          simp [strings.Join, (url.unescape_since _).2, (url.unescape_since _).1] at hck h
          exact ⟨⟨hck, h⟩, ⟨url.CheckOk_nil, rfl⟩⟩
        | cons u0 u =>
          simp [strings.Join, (url.unescape_since _).2, (url.unescape_since _).1,
            (url.unescape_until _).2, (url.unescape_until _).1] at hck h
          have := List.cancel_two [] (ascii " " ++ ascii "until:") (s0 :: s) _ (u0 :: u) _
            (by simpa using h) lS lU
          exact ⟨⟨hck.1, this.1⟩, ⟨hck.2, this.2⟩⟩
    | cons t0 t =>
      cases s with
      | nil =>
        cases u with
        | nil => exact ⟨⟨url.CheckOk_nil, rfl⟩, ⟨url.CheckOk_nil, rfl⟩⟩
        | cons u0 u =>
          simp [strings.Join, (url.unescape_until _).2, (url.unescape_until _).1, hT] at hck h
          exact ⟨⟨url.CheckOk_nil, rfl⟩, ⟨hck.2, h⟩⟩
      | cons s0 s =>
        cases u with
        | nil =>
          simp [strings.Join, (url.unescape_since _).2, (url.unescape_since _).1, hT] at hck h
          exact ⟨⟨hck.2, h⟩, ⟨url.CheckOk_nil, rfl⟩⟩
        | cons u0 u =>
          simp [strings.Join, (url.unescape_since _).2, (url.unescape_since _).1,
            (url.unescape_until _).2, (url.unescape_until _).1, hT] at hck h
          have := List.cancel_two [] (ascii " " ++ ascii "until:") (s0 :: s) _ (u0 :: u) _
            (by simpa using h) lS lU
          exact ⟨⟨hck.2.1, this.1⟩, ⟨hck.2.2, this.2⟩⟩
  exact ⟨url.verbatim_of_fixed _ hfix.1.1 hfix.1.2, url.verbatim_of_fixed _ hfix.2.1 hfix.2.2⟩

/-- C2 (amended): URL-unescaping `Query.Encode(q)` succeeds and yields the
ordered token list of `q` (the non-empty ones among `Text`, `since:` ++ `Since`
and `until:` ++ `Until`, separated by single spaces) exactly when `Since` and
`Until` contain neither `%` nor `+`; the text may be any string. -/
theorem twitter.Query.Encode_roundtrip_iff (q : twitter.Query) :
    url.QueryUnescape q.Encode = .ok (List.intercalate (ascii " ") (q.tokens id)) ↔
      (∀ c ∈ q.Since, c.val ≠ 37 ∧ c.val ≠ 43) ∧ (∀ c ∈ q.Until, c.val ≠ 37 ∧ c.val ≠ 43) :=
  ⟨twitter.Query.verbatim_of_unescape q, fun h => twitter.Query.unescape_of_verbatim q h.1 h.2⟩

/-- C2 (counterexample): with `Since = "%"` unescaping the encoded query fails,
and with `Since = "1+1"` it succeeds with `since:1 1`, which is not the token
`since:1+1`. -/
theorem twitter.Query.Encode_roundtrip_fails :
    url.QueryUnescape (twitter.Query.Encode ⟨[], ascii "%", []⟩) =
      .error (.EscapeError (ascii "%")) ∧
    url.QueryUnescape (twitter.Query.Encode ⟨[], ascii "1+1", []⟩) = .ok (ascii "since:1 1") ∧
    ascii "since:1 1" ≠
      List.intercalate (ascii " ") (twitter.Query.tokens id ⟨[], ascii "1+1", []⟩) := by
  refine ⟨rfl, rfl, ?_⟩
  decide

/-! ## `time.Parse` on well-formed timestamps -/

/-- The chunks of the layout, put back together, are the layout. -/
theorem time.RubyDateChunks_layout :
    (time.RubyDateChunks.map (fun c => c.1 ++ c.2.2)).flatten = time.RubyDate := by
  decide

theorem time.digit_val (n : Nat) : (time.digit n).val = 48 + n % 10 := by
  simp only [time.digit, Fin.ofNat, Fin.val_mk]
  omega

theorem time.ascii_space : ascii " " = [(32 : Byte)] := by decide

theorem time.cutspace_cons (c : Byte) (r : GoString) (h : c.val ≠ 32) :
    time.cutspace (c :: r) = c :: r := by
  simp [time.cutspace, h]

theorem time.skip_space (r : GoString) :
    time.skip ((32 : Byte) :: r) [32] = .ok (time.cutspace r) := by
  rfl

theorem time.skip_colon (r : GoString) :
    time.skip ((58 : Byte) :: r) [58] = .ok r := by
  rfl

theorem time.skip_nil (v : GoString) : time.skip v (ascii "") = .ok v := by
  cases v <;> rfl

theorem time.lookupFrom_append (p r : GoString) (tab : List GoString) (i : Nat)
    (h : ∀ v ∈ tab, v.length = p.length) :
    time.lookupFrom i tab (p ++ r) =
      ((time.lookupFrom i tab p).1, (time.lookupFrom i tab p).2.1 ++ r,
        (time.lookupFrom i tab p).2.2) := by
  induction tab generalizing i with
  | nil => simp [time.lookupFrom]
  | cons v tab ih =>
    have hv := h v (List.mem_cons_self _ _)
    have ht := ih (i + 1) (fun w hw => h w (List.mem_cons_of_mem _ hw))
    simp only [time.lookupFrom, hv, List.length_append, List.take_left, List.drop_left,
      List.take_length, List.drop_length, ge_iff_le, le_refl, Nat.le_add_right, true_and]
    split
    · simp
    · exact ht

theorem time.lookup_day (i : Fin 7) (r : GoString) :
    time.lookup time.shortDayNames (time.shortDayNames.getD i.val [] ++ r) =
      ((i.val : Int), r, false) := by
  unfold time.lookup
  rw [time.lookupFrom_append]
  · revert i; intro i
    have : time.lookupFrom 0 time.shortDayNames (time.shortDayNames.getD i.val []) =
        ((i.val : Int), [], false) := by
      revert i; decide
    rw [this]; rfl
  · intro v hv
    have : ∀ j : Fin 7, ∀ v ∈ time.shortDayNames,
        v.length = (time.shortDayNames.getD j.val []).length := by decide
    exact this i v hv

theorem time.lookup_month (i : Fin 12) (r : GoString) :
    time.lookup time.shortMonthNames (time.shortMonthNames.getD i.val [] ++ r) =
      ((i.val : Int), r, false) := by
  unfold time.lookup
  rw [time.lookupFrom_append]
  · have : time.lookupFrom 0 time.shortMonthNames (time.shortMonthNames.getD i.val []) =
        ((i.val : Int), [], false) := by
      revert i; decide
    rw [this]; rfl
  · intro v hv
    have : ∀ j : Fin 12, ∀ v ∈ time.shortMonthNames,
        v.length = (time.shortMonthNames.getD j.val []).length := by decide
    exact this i v hv

theorem time.cutspace_name (tab : List GoString) (h : ∀ v ∈ tab, time.cutspace v = v ∧ v ≠ [])
    (i : Nat) (hi : i < tab.length) (r : GoString) :
    time.cutspace (tab.getD i [] ++ r) = tab.getD i [] ++ r := by
  have hm : tab.getD i [] ∈ tab := by
    rw [List.getD_eq_getElem _ _ hi]; exact List.getElem_mem hi
  obtain ⟨h1, h2⟩ := h _ hm
  cases hv : tab.getD i [] with
  | nil => exact absurd hv h2
  | cons c v =>
    rw [hv] at h1
    simp only [time.cutspace] at h1 ⊢
    simp only [List.cons_append, time.cutspace]
    split
    · rename_i h32
      rw [if_pos h32] at h1
      exfalso
      have hl := congrArg List.length h1
      have : ∀ s : GoString, (time.cutspace s).length ≤ s.length := by
        intro s
        induction s with
        | nil => simp [time.cutspace]
        | cons a s ih =>
          simp only [time.cutspace]
          split
          · simp only [List.length_cons]; omega
          · exact le_refl _
      have := this v
      simp only [List.length_cons] at hl
      omega
    · rfl

theorem time.getnum_two (a b : Byte) (r : GoString) ( fixed : Bool)
    (ha : 48 ≤ a.val ∧ a.val ≤ 57) (hb : 48 ≤ b.val ∧ b.val ≤ 57) :
    time.getnum (a :: b :: r) fixed =
      (((a.val - 48 : Nat) : Int) * 10 + ((b.val - 48 : Nat) : Int), r, false) := by
  simp [time.getnum, time.isDigit, ha, hb]

theorem time.getnum_digits2 (n : Nat) (hn : n < 100) (r : GoString) ( fixed : Bool) :
    time.getnum (time.digits2 n ++ r) fixed = ((n : Int), r, false) := by
  have h1 := time.digit_val (n / 10)
  have h2 := time.digit_val n
  simp only [time.digits2, List.cons_append, List.nil_append]
  rw [time.getnum_two _ _ _ _ (by omega) (by omega)]
  simp only [Prod.mk.injEq, and_true]
  omega

theorem time.parseLoop_step (pfx stdstr value v : GoString) (std : time.Std)
    (chunks : List (GoString × time.Std × GoString)) (f : time.Fields)
    (hskip : time.skip value pfx = .ok v)
    (hr : (time.parseArm std f v).rangeErrString = [])
    (he : (time.parseArm std f v).err = false) :
    time.parseLoop ((pfx, std, stdstr) :: chunks) f value =
      time.parseLoop chunks (time.parseArm std f v).fields (time.parseArm std f v).value := by
  simp [time.parseLoop, hskip, hr, he]

theorem time.arm_weekday (f : time.Fields) (i : Fin 7) (r : GoString) :
    time.parseArm .stdWeekDay f (time.shortDayNames.getD i.val [] ++ r) = ⟨f, r, [], false⟩ := by
  simp only [time.parseArm, time.lookup_day]

theorem time.arm_month (f : time.Fields) (i : Fin 12) (r : GoString) :
    time.parseArm .stdMonth f (time.shortMonthNames.getD i.val [] ++ r) =
      ⟨{ f with month := (i.val : Int) + 1 }, r, [], false⟩ := by
  simp only [time.parseArm, time.lookup_month]

theorem time.arm_day (f : time.Fields) (n : Nat) (hn : n < 100) (r : GoString) :
    time.parseArm .stdZeroDay f (time.digits2 n ++ r) =
      ⟨{ f with day := (n : Int) }, r, [], false⟩ := by
  simp only [time.parseArm, time.getnum_digits2 n hn]

theorem time.arm_hour (f : time.Fields) (n : Nat) (hn : n < 24) (r : GoString) :
    time.parseArm .stdHour f (time.digits2 n ++ r) =
      ⟨{ f with hour := (n : Int) }, r, [], false⟩ := by
  simp only [time.parseArm, time.getnum_digits2 n (by omega)]
  have : ¬ ((n : Int) < 0 ∨ 24 ≤ (n : Int)) := by omega
  rw [if_neg this]

theorem time.arm_minute (f : time.Fields) (n : Nat) (hn : n < 60) (r : GoString) :
    time.parseArm .stdZeroMinute f (time.digits2 n ++ r) =
      ⟨{ f with min := (n : Int) }, r, [], false⟩ := by
  simp only [time.parseArm, time.getnum_digits2 n (by omega)]
  have : ¬ ((n : Int) < 0 ∨ 60 ≤ (n : Int)) := by omega
  rw [if_neg this]

theorem time.arm_second (f : time.Fields) (n : Nat) (hn : n < 60) (r : GoString) :
    time.parseArm .stdZeroSecond f (time.digits2 n ++ (32 : Byte) :: r) =
      ⟨{ f with sec := (n : Int) }, (32 : Byte) :: r, [], false⟩ := by
  simp only [time.parseArm, time.getnum_digits2 n (by omega), Bool.false_eq_true, if_false]
  have : ¬ ((n : Int) < 0 ∨ 60 ≤ (n : Int)) := by omega
  rw [if_neg this]
  have h2 : ¬ (((32 : Byte) :: r).length ≥ 2 ∧
      time.commaOrPeriod ((((32 : Byte) :: r)).getD 0 0) = true ∧
      time.isDigit ((32 : Byte) :: r) 1 = true) := by
    have hc : ¬ (time.commaOrPeriod (32 : Byte) = true) := by decide
    intro h
    exact hc h.2.1
  rw [if_neg h2]

theorem time.arm_zone (f : time.Fields) ( east : Bool) (zh zm : Nat) (hh : zh < 24) (hm : zm < 60)
    (r : GoString) :
    time.parseArm .stdNumTZ f
        ((if east then ascii "+" else ascii "-") ++ (time.digits2 zh ++ (time.digits2 zm ++ r))) =
      ⟨{ f with zoneOffset := if east then ((zh * 60 + zm) * 60 : Int)
          else -((zh * 60 + zm) * 60 : Int) }, r, [], false⟩ := by
  have hp : ascii "+" = [(43 : Byte)] := by decide
  have hm : ascii "-" = [(45 : Byte)] := by decide
  have g1 := time.getnum_digits2 zh (by omega) [] true
  have g2 := time.getnum_digits2 zm (by omega) [] true
  have g3 : time.getnum (ascii "00") true = (0, [], false) := by decide
  simp only [List.append_nil] at g1 g2
  have hz1 : ¬ ((zh : Int) > 24) := by omega
  have hz2 : ¬ ((zm : Int) > 60) := by omega
  cases east <;>
    simp [time.parseArm, hp, hm, time.digits2, g3] <;>
    simp [time.digits2] at g1 g2 <;>
    simp [g1, g2, hz1, hz2]

theorem time.leadingIntLoop_digit (x : Nat) (c : Byte) (s : GoString)
    (hc : 48 ≤ c.val ∧ c.val ≤ 57) (hx : x < 1000000) :
    time.leadingIntLoop x (c :: s) = time.leadingIntLoop (x * 10 + c.val - 48) s := by
  have e1 : ¬ (c.val < 48 ∨ c.val > 57) := by omega
  have e2 : ¬ (x > 2 ^ 63 / 10) := by
    have : (2 : Nat) ^ 63 / 10 = 922337203685477580 := by norm_num
    omega
  have e3 : ¬ (x * 10 + c.val - 48 > 2 ^ 63) := by
    have : (2 : Nat) ^ 63 = 9223372036854775808 := by norm_num
    omega
  rw [time.leadingIntLoop]
  simp only [e1, e2, e3, if_false]

theorem time.atoi_digits4 (n : Nat) (hn : n < 10000) :
    time.atoi (time.digits4 n) = some (n : Int) := by
  have h1 := time.digit_val (n / 1000)
  have h2 := time.digit_val (n / 100)
  have h3 := time.digit_val (n / 10)
  have h4 := time.digit_val n
  have hl : time.leadingInt (time.digits4 n) = (n, [], false) := by
    simp only [time.leadingInt, time.digits4]
    rw [time.leadingIntLoop_digit _ _ _ (by omega) (by omega),
      time.leadingIntLoop_digit _ _ _ (by omega) (by omega),
      time.leadingIntLoop_digit _ _ _ (by omega) (by omega),
      time.leadingIntLoop_digit _ _ _ (by omega) (by omega)]
    simp only [time.leadingIntLoop, Prod.mk.injEq, and_true]
    omega
  have hs : ¬ ((time.digit (n / 1000)).val = 45 ∨ (time.digit (n / 1000)).val = 43) := by omega
  have hd : time.digits4 n =
      [time.digit (n / 1000), time.digit (n / 100), time.digit (n / 10), time.digit n] := rfl
  have hu : time.atoiUnsigned false (time.digits4 n) = some (n : Int) := by
    have : (n : Nat) < 9223372036854775808 := by omega
    simp [time.atoiUnsigned, hl, this]
  rw [hd] at hu ⊢
  rw [time.atoi, if_neg hs, hu]

theorem time.arm_year (f : time.Fields) (n : Nat) (hn : n < 10000) :
    time.parseArm .stdLongYear f (time.digits4 n) =
      ⟨{ f with year := (n : Int) }, [], [], false⟩ := by
  have ha := time.atoi_digits4 n hn
  have h1 := time.digit_val (n / 1000)
  have hd : time.isDigit (time.digits4 n) 0 = true := by
    simp only [time.isDigit, time.digits4, List.get?_cons_zero, h1, decide_eq_true_eq]
    omega
  have hl : (time.digits4 n).length = 4 := rfl
  have ht : (time.digits4 n).take 4 = time.digits4 n := by
    rw [← hl, List.take_length]
  have hdrop : (time.digits4 n).drop 4 = [] := by
    rw [← hl, List.drop_length]
  simp only [time.parseArm, hl, hd, ht, hdrop, ha]
  simp

theorem time.daysIn_eq (m : Fin 12) (y : Nat) :
    time.daysIn ((m.val : Int) + 1) (y : Int) = (time.Stamp.monthLength m y : Int) := by
  have hleap : time.isLeap (y : Int) = true ↔ (y % 4 = 0 ∧ (y % 100 ≠ 0 ∨ y % 400 = 0)) := by
    simp only [time.isLeap, decide_eq_true_eq]
    omega
  by_cases hl : y % 4 = 0 ∧ (y % 100 ≠ 0 ∨ y % 400 = 0)
  · have hl2 := hleap.2 hl
    fin_cases m <;> simp [time.daysIn, time.Stamp.monthLength, hl, hl2, time.daysBefore]
  · have hl2 : time.isLeap (y : Int) = false := by
      rw [← Bool.not_eq_true, hleap]; exact hl
    fin_cases m <;> simp [time.daysIn, time.Stamp.monthLength, hl, hl2, time.daysBefore]

theorem time.parseLoop_text (s : time.Stamp) (h : s.valid) :
    time.parseLoop time.RubyDateChunks {} s.text =
      .ok ({ year := s.year, month := s.month.val + 1, day := s.day, hour := s.hour,
             min := s.min, sec := s.sec, nsec := 0,
             zoneOffset := if s.east then ((s.zoneHour * 60 + s.zoneMin) * 60 : Int)
               else -((s.zoneHour * 60 + s.zoneMin) * 60 : Int) }, []) := by
  obtain ⟨hd1, hd2, hh, hm, hs, hzh, hzm, hy⟩ := h
  have hday : s.day < 100 := by
    have : time.Stamp.monthLength s.month s.year ≤ 31 := by
      unfold time.Stamp.monthLength; split <;> split <;> omega
    omega
  have hcolon : ascii ":" = [(58 : Byte)] := by decide
  have hdig : ∀ n r, time.cutspace (time.digits2 n ++ r) = time.digits2 n ++ r := by
    intro n r
    have := time.digit_val (n / 10)
    exact time.cutspace_cons _ _ (by omega)
  have hdig4 : ∀ n, time.cutspace (time.digits4 n) = time.digits4 n := by
    intro n
    have := time.digit_val (n / 1000)
    exact time.cutspace_cons _ _ (by omega)
  have hsign : ∀ r, time.cutspace ((if s.east then ascii "+" else ascii "-") ++ r) =
      (if s.east then ascii "+" else ascii "-") ++ r := by
    intro r; cases s.east <;> rfl
  have hmon : ∀ r, time.cutspace (time.shortMonthNames.getD s.month.val [] ++ r) =
      time.shortMonthNames.getD s.month.val [] ++ r := by
    intro r
    exact time.cutspace_name _ (by decide) _ (by simp [time.shortMonthNames]) r
  unfold time.Stamp.text time.RubyDateChunks
  rw [time.parseLoop_step _ _ _ _ _ _ _ (time.skip_nil _)
    (by rw [time.arm_weekday]) (by rw [time.arm_weekday]), time.arm_weekday]
  simp only [time.ascii_space, hcolon, List.singleton_append]
  rw [time.parseLoop_step _ _ _ _ _ _ _ (time.skip_space _)
    (by rw [hmon, time.arm_month]) (by rw [hmon, time.arm_month]), hmon, time.arm_month]
  simp only
  rw [time.parseLoop_step _ _ _ _ _ _ _ (time.skip_space _)
    (by rw [hdig, time.arm_day _ _ hday]) (by rw [hdig, time.arm_day _ _ hday]), hdig,
    time.arm_day _ _ hday]
  simp only
  rw [time.parseLoop_step _ _ _ _ _ _ _ (time.skip_space _)
    (by rw [hdig, time.arm_hour _ _ hh]) (by rw [hdig, time.arm_hour _ _ hh]), hdig,
    time.arm_hour _ _ hh]
  simp only
  rw [time.parseLoop_step _ _ _ _ _ _ _ (time.skip_colon _)
    (by rw [time.arm_minute _ _ hm]) (by rw [time.arm_minute _ _ hm]), time.arm_minute _ _ hm]
  simp only
  rw [time.parseLoop_step _ _ _ _ _ _ _ (time.skip_colon _)
    (by rw [time.arm_second _ _ hs]) (by rw [time.arm_second _ _ hs]), time.arm_second _ _ hs]
  simp only
  rw [time.parseLoop_step _ _ _ _ _ _ _ (time.skip_space _)
    (by rw [hsign, time.arm_zone _ _ _ _ hzh hzm]) (by rw [hsign, time.arm_zone _ _ _ _ hzh hzm]),
    hsign, time.arm_zone _ _ _ _ hzh hzm]
  simp only
  rw [time.parseLoop_step _ _ _ _ _ _ _ (time.skip_space _)
    (by rw [hdig4, time.arm_year _ _ hy]) (by rw [hdig4, time.arm_year _ _ hy]), hdig4,
    time.arm_year _ _ hy]
  rfl

theorem time.Parse_text (s : time.Stamp) (h : s.valid) :
    time.Parse s.text = .ok s.time := by
  unfold time.Parse
  rw [time.parseLoop_text s h]
  obtain ⟨hd1, hd2, hh, hm, hs, hzh, hzm, hy⟩ := h
  have hmonth : ¬ ((s.month.val : Int) + 1 < 0) := by omega
  have hdayneg : ¬ ((s.day : Int) < 0) := by omega
  have hdays := time.daysIn_eq s.month s.year
  have hrange : ¬ ((s.day : Int) < 1 ∨ (s.day : Int) > time.daysIn ((s.month.val : Int) + 1) s.year) := by
    rw [hdays]; omega
  have hz : (if s.east then ((s.zoneHour * 60 + s.zoneMin) * 60 : Int)
      else -((s.zoneHour * 60 + s.zoneMin) * 60 : Int)) ≠ -1 := by
    split <;> omega
  simp only [List.length_nil, ne_eq, not_true_eq_false, if_false, hmonth, hdayneg, hrange, hz,
    not_false_eq_true, if_true]
  rfl

theorem bytes.trimRightByte_append_other (x : GoString) (d c : Byte) (h : d ≠ c) :
    bytes.trimRightByte (x ++ [d]) c = x ++ [d] := by
  induction x with
  | nil => simp [bytes.trimRightByte, h]
  | cons b x ih =>
    rw [List.cons_append, bytes.trimRightByte, ih]
    cases hx : x ++ [d] with
    | nil => simp at hx
    | cons a y => rfl

theorem bytes.trimRightByte_append_same (x : GoString) (c : Byte) :
    bytes.trimRightByte (x ++ [c]) c = bytes.trimRightByte x c := by
  induction x with
  | nil => simp [bytes.trimRightByte]
  | cons b x ih =>
    rw [List.cons_append, bytes.trimRightByte, ih]
    conv_rhs => rw [bytes.trimRightByte]

/-- Trimming removes one pair of quotes around a text that neither starts nor
ends with a quote. -/
theorem bytes.Trim_quoted (a d : Byte) (x : GoString) (c : Byte) (ha : a ≠ c) (hd : d ≠ c) :
    bytes.Trim (c :: (a :: x ++ [d]) ++ [c]) c = a :: x ++ [d] := by
  unfold bytes.Trim
  rw [bytes.trimRightByte_append_same]
  have : c :: (a :: x ++ [d]) = (c :: a :: x) ++ [d] := by simp
  rw [this, bytes.trimRightByte_append_other _ _ _ hd]
  simp [bytes.trimLeftByte, ha]

theorem time.Stamp.text_shape (s : time.Stamp) :
    ∃ a x d, s.text = a :: x ++ [d] ∧ a ≠ (34 : Byte) ∧ d ≠ (34 : Byte) ∧ x.length = 28 := by
  have three : ∀ l : GoString, l.length = 3 → ∃ a b c, l = [a, b, c] := by
    intro l hl
    match l, hl with
    | [a, b, c], _ => exact ⟨a, b, c, rfl⟩
  have hday : ∀ i : Fin 7, (time.shortDayNames.getD i.val []).length = 3 ∧
      (34 : Byte) ∉ time.shortDayNames.getD i.val [] := by decide
  have hmon : ∀ i : Fin 12, (time.shortMonthNames.getD i.val []).length = 3 := by decide
  obtain ⟨a, b, c, hd⟩ := three _ (hday s.weekday).1
  have ha : a ≠ (34 : Byte) := by
    intro h
    apply (hday s.weekday).2
    rw [hd, h]; simp
  obtain ⟨m1, m2, m3, hm⟩ := three _ (hmon s.month)
  have hsign : ∃ g, (if s.east then ascii "+" else ascii "-") = [g] := by
    cases s.east
    · exact ⟨45, by decide⟩
    · exact ⟨43, by decide⟩
  obtain ⟨g, hg⟩ := hsign
  have hsp : ascii " " = [(32 : Byte)] := by decide
  have hcolon : ascii ":" = [(58 : Byte)] := by decide
  refine ⟨a, [b, c, 32, m1, m2, m3, 32, time.digit (s.day / 10), time.digit s.day, 32,
    time.digit (s.hour / 10), time.digit s.hour, 58, time.digit (s.min / 10), time.digit s.min,
    58, time.digit (s.sec / 10), time.digit s.sec, 32, g, time.digit (s.zoneHour / 10),
    time.digit s.zoneHour, time.digit (s.zoneMin / 10), time.digit s.zoneMin, 32,
    time.digit (s.year / 1000), time.digit (s.year / 100), time.digit (s.year / 10)],
    time.digit s.year, ?_, ha, ?_, ?_⟩
  · simp only [time.Stamp.text, hd, hm, hg, hsp, hcolon, time.digits2, time.digits4,
      List.cons_append, List.nil_append]
  · intro h
    have := time.digit_val s.year
    rw [h] at this
    have h34 : ((34 : Byte) : Fin 256).val = 34 := rfl
    omega
  · rfl

theorem time.Stamp.text_length (s : time.Stamp) : s.text.length = 30 := by
  obtain ⟨a, x, d, h, _, _, hl⟩ := s.text_shape
  rw [h]; simp [hl]

theorem twitter.RubyDate.UnmarshalJSON_text (s : time.Stamp) (h : s.valid) (t : time.Time) :
    twitter.RubyDate.UnmarshalJSON t (twitter.quoted s.text) = (s.time, none) := by
  obtain ⟨a, x, d, hs, ha, hd, _⟩ := s.text_shape
  unfold twitter.RubyDate.UnmarshalJSON twitter.RubyDate.UnmarshalJSONWith twitter.quoted
  have ht : bytes.Trim ((34 : Byte) :: s.text ++ [34]) 34 = s.text := by
    rw [hs]; exact bytes.Trim_quoted a d x 34 ha hd
  simp only [ht, time.Parse_text s h]

theorem twitter.RubyDate.UnmarshalJSON_cases (t : time.Time) (buf : GoString) :
    (∃ p, time.Parse (bytes.Trim buf 34) = .ok p ∧
        twitter.RubyDate.UnmarshalJSON t buf = (p, none)) ∨
      (∃ e, time.Parse (bytes.Trim buf 34) = .error e ∧
        twitter.RubyDate.UnmarshalJSON t buf = (t, some e)) := by
  unfold twitter.RubyDate.UnmarshalJSON twitter.RubyDate.UnmarshalJSONWith
  dsimp only
  cases time.Parse (bytes.Trim buf 34) with
  | error e => exact Or.inr ⟨e, rfl, rfl⟩
  | ok p => exact Or.inl ⟨p, rfl, rfl⟩

theorem twitter.RubyDate.UnmarshalJSON_error (t : time.Time) (buf : GoString) (e : time.ParseError)
    (h : time.Parse (bytes.Trim buf 34) = .error e) :
    (twitter.RubyDate.UnmarshalJSON t buf).2 ≠ none := by
  unfold twitter.RubyDate.UnmarshalJSON twitter.RubyDate.UnmarshalJSONWith
  simp [h]

/-- C10: when `RubyDate.UnmarshalJSON` returns a non-nil error the receiver
keeps the value it had before the call; this holds whatever the parser of the
layout does. -/
theorem twitter.RubyDate.UnmarshalJSON_frame {E T : Type} (parse : GoString → Except E T)
    (t : T) (buf : GoString)
    (h : (twitter.RubyDate.UnmarshalJSONWith parse t buf).2 ≠ none) :
    (twitter.RubyDate.UnmarshalJSONWith parse t buf).1 = t := by
  unfold twitter.RubyDate.UnmarshalJSONWith at h ⊢
  dsimp only at h ⊢
  cases hp : parse (bytes.Trim buf 34) with
  | error e => rfl
  | ok p => rw [hp] at h; exact absurd rfl h

/-- C10 (witness): decoding JSON null into a receiver that holds a time fails
and leaves that time in place. -/
theorem twitter.RubyDate.UnmarshalJSON_frame_witness :
    (twitter.RubyDate.UnmarshalJSON ⟨2006, 1, 2, 15, 4, 5, 0, -25200⟩ (ascii "null")).2 ≠ none ∧
    (twitter.RubyDate.UnmarshalJSON ⟨2006, 1, 2, 15, 4, 5, 0, -25200⟩ (ascii "null")).1 =
      ⟨2006, 1, 2, 15, 4, 5, 0, -25200⟩ :=
  ⟨by decide,
    twitter.RubyDate.UnmarshalJSON_frame time.Parse ⟨2006, 1, 2, 15, 4, 5, 0, -25200⟩
      (ascii "null") (by decide)⟩

/-! ## The request of a page -/

theorem twitter.sortParams_pageParams (q : twitter.Query) (cursor : GoString) :
    twitter.sortParams (twitter.pageParams q cursor) =
      (ascii "count", ascii "40") ::
        ((if cursor = [] then [] else [(ascii "cursor", url.QueryEscape cursor)]) ++
        [(ascii "include_quote_count", ascii "true"), (ascii "include_reply_count", ascii "1"),
         (ascii "q", q.Encode), (ascii "query_source", ascii "typed_query"),
         (ascii "tweet_mode", ascii "extended"), (ascii "tweet_search_mode", ascii "live")]) := by
  cases cursor with
  | nil => rfl
  | cons c cs => rfl

theorem twitter.serialize_pageParams (q : twitter.Query) (cursor : GoString) :
    twitter.serialize (twitter.pageParams q cursor) =
      ascii "count=40&" ++
        ((if cursor = [] then [] else ascii "cursor=" ++ url.QueryEscape cursor ++ ascii "&") ++
        (ascii "include_quote_count=true&include_reply_count=1&q=" ++
        (q.Encode ++
        ascii "&query_source=typed_query&tweet_mode=extended&tweet_search_mode=live"))) := by
  unfold twitter.serialize
  rw [twitter.sortParams_pageParams]
  cases cursor with
  | nil =>
    simp only [if_true, List.nil_append, List.map_cons, List.map_nil, strings.Join]
    simp [ascii]
  | cons c cs =>
    simp only [List.cons_ne_nil, if_false, List.singleton_append, List.map_cons, List.map_nil,
      strings.Join, reduceCtorEq]
    simp [ascii]

theorem twitter.Client.Search_log (backend : twitter.Backend) (log : List GoString)
    (q : twitter.Query) (cursor : GoString) :
    (twitter.Client.Search backend log q cursor).requests = log ++ [twitter.requestURL q cursor] := by
  unfold twitter.Client.Search
  dsimp only
  split
  · rfl
  · split <;> split <;> rfl

/-- C7: the request of `Search(q, "", c)` goes to the search endpoint with
exactly the parameters count=40, include_quote_count=true,
include_reply_count=1, q=Encode(q), query_source=typed_query,
tweet_mode=extended, tweet_search_mode=live in lexicographic key order, and
the URL-escaped parameter cursor=c exactly when c is non-empty, nothing else
changing between the two cases; the value of q in the URL is `Encode(q)` as it
stands, also for a query with dates, and for the text `foo` the two query
strings are the ones of the tests. -/
theorem twitter.Client.Search_request (backend : twitter.Backend) (log : List GoString)
    (q : twitter.Query) (c : GoString) :
    (twitter.Client.Search backend log q c).requests =
      log ++ [twitter.endpoint ++ ascii "?" ++ twitter.serialize (twitter.pageParams q c)] ∧
    twitter.sortParams (twitter.pageParams q c) =
      (ascii "count", ascii "40") ::
        ((if c = [] then [] else [(ascii "cursor", url.QueryEscape c)]) ++
        [(ascii "include_quote_count", ascii "true"), (ascii "include_reply_count", ascii "1"),
         (ascii "q", q.Encode), (ascii "query_source", ascii "typed_query"),
         (ascii "tweet_mode", ascii "extended"), (ascii "tweet_search_mode", ascii "live")]) ∧
    twitter.serialize (twitter.pageParams q c) =
      ascii "count=40&" ++
        ((if c = [] then [] else ascii "cursor=" ++ url.QueryEscape c ++ ascii "&") ++
        (ascii "include_quote_count=true&include_reply_count=1&q=" ++
        (q.Encode ++
        ascii "&query_source=typed_query&tweet_mode=extended&tweet_search_mode=live"))) ∧
    twitter.serialize (twitter.pageParams ⟨ascii "foo", [], []⟩ (ascii "scroll:deadbeef")) =
      ascii ("count=40&cursor=scroll%3Adeadbeef&include_quote_count=true&include_reply_count=1" ++
        "&q=foo&query_source=typed_query&tweet_mode=extended&tweet_search_mode=live") ∧
    twitter.serialize (twitter.pageParams ⟨ascii "foo", [], []⟩ []) =
      ascii ("count=40&include_quote_count=true&include_reply_count=1" ++
        "&q=foo&query_source=typed_query&tweet_mode=extended&tweet_search_mode=live") ∧
    twitter.serialize (twitter.pageParams ⟨ascii "foo", ascii "2020-01-01", []⟩ []) =
      ascii ("count=40&include_quote_count=true&include_reply_count=1" ++
        "&q=foo+since:2020-01-01&query_source=typed_query&tweet_mode=extended" ++
        "&tweet_search_mode=live") := by
  refine ⟨twitter.Client.Search_log backend log q c, twitter.sortParams_pageParams q c,
    twitter.serialize_pageParams q c, ?_, ?_, ?_⟩
  · decide
  · decide
  · decide

/-! ## The error response -/

/-- C9: when the status of the response is outside the 2xx range and its body
decodes as an error response, `Search` returns a nil result and the decoded
list of `{code, message}` entries as its error, after exactly one request (no
retry); for status 403 and the body `{"errors":[{"code":200,"message":
"forbidden"}]}` the error is the list with the single entry of code 200 and
message `forbidden`. -/
theorem twitter.Client.Search_error :
    (∀ (backend : twitter.Backend) (log : List GoString) (q : twitter.Query) (c : GoString)
        (resp : twitter.Response) (body : json.Value) (e : json.ErrorResponse),
      backend (log ++ [twitter.requestURL q c]) = some resp →
      ¬ (200 ≤ resp.status ∧ resp.status < 300) →
      resp.body = some body → json.decodeErrorResponse body = some e →
      twitter.Client.Search backend log q c =
        ⟨none, some (.api e), log ++ [twitter.requestURL q c]⟩ ∧
      (twitter.Client.Search backend log q c).requests.length = log.length + 1) ∧
    twitter.Client.Search
        (fun _ => some ⟨403, some (.obj [(ascii "errors",
          .arr [.obj [(ascii "code", .num 200), (ascii "message", .str (ascii "forbidden"))]])])⟩)
        [] ⟨ascii "foo", [], []⟩ [] =
      ⟨none, some (.api ⟨[⟨200, ascii "forbidden"⟩]⟩),
        [twitter.requestURL ⟨ascii "foo", [], []⟩ []]⟩ := by
  constructor
  · intro backend log q c resp body e hb hs hbody hdec
    constructor
    · unfold twitter.Client.Search
      simp [hb, hs, hbody, hdec]
    · rw [twitter.Client.Search_log]; simp
  · decide

/-- C9 (witness): a backend that answers 500 with an empty error list. -/
theorem twitter.Client.Search_error_witness :
    twitter.Client.Search (fun _ => some ⟨500, some (.obj [])⟩) [] ⟨ascii "bar", [], []⟩ [] =
        ⟨none, some (.api ⟨[]⟩), [] ++ [twitter.requestURL ⟨ascii "bar", [], []⟩ []]⟩ ∧
      (twitter.Client.Search (fun _ => some ⟨500, some (.obj [])⟩) [] ⟨ascii "bar", [], []⟩
        []).requests.length = ([] : List GoString).length + 1 :=
  twitter.Client.Search_error.1 (fun _ => some ⟨500, some (.obj [])⟩) [] ⟨ascii "bar", [], []⟩ []
    ⟨500, some (.obj [])⟩ (.obj []) ⟨[]⟩ rfl (by decide) rfl rfl

/-! ## The pagination -/

theorem json.foldl_entries (es : List json.Entry) (found : Option GoString) :
    es.foldl
        (fun found e =>
          if e.Content.Operation.Cursor.CursorType = ascii "Bottom" then
            some e.Content.Operation.Cursor.Value
          else found)
        found =
      (((es.filter (fun e => e.Content.Operation.Cursor.CursorType = ascii "Bottom")).map
        (fun e => e.Content.Operation.Cursor.Value)).getLast?).or found := by
  induction es using List.reverseRecOn with
  | nil => simp
  | append_singleton es e ih =>
    rw [List.foldl_append, ih]
    by_cases h : e.Content.Operation.Cursor.CursorType = ascii "Bottom"
    · simp [List.filter_append, h, List.getLast?_append]
    · simp [List.filter_append, h]

theorem json.Adaptive.FindCursor_eq (a : json.Adaptive) :
    a.FindCursor = (twitter.bottomCursors a).getLast? := by
  unfold json.Adaptive.FindCursor twitter.bottomCursors
  generalize a.Timeline.Instructions = ins
  induction ins using List.reverseRecOn with
  | nil => simp
  | append_singleton ins i ih =>
    rw [List.foldl_append]
    simp only [List.foldl_cons, List.foldl_nil]
    rw [json.foldl_entries, ih]
    simp [List.flatMap_append, List.filter_append, List.getLast?_append]

theorem twitter.Client.SearchAllLoop_pages (backend : twitter.Backend) (q : twitter.Query)
    (pages : List json.Adaptive) :
    ∀ (log : List GoString) (cursor : GoString) (fuel : Nat), pages ≠ [] →
      twitter.Answers backend q log cursor pages →
      (∀ p ∈ pages.dropLast, twitter.bottomCursors p ≠ []) →
      (∀ p ∈ pages.getLast?, twitter.bottomCursors p = []) →
      pages.length ≤ fuel →
      twitter.Client.SearchAllLoop backend q fuel cursor log =
        ⟨pages.map some ++ [none],
          log ++ (twitter.requestCursors cursor pages).map (twitter.requestURL q)⟩ := by
  induction pages with
  | nil => intro _ _ _ h; exact absurd rfl h
  | cons p ps ih =>
    intro log cursor fuel _ hans hmid hlast hfuel
    obtain ⟨hp, hrest⟩ := hans
    cases fuel with
    | zero => simp at hfuel
    | succ fuel =>
      have hreq := twitter.Client.Search_log backend log q cursor
      cases ps with
      | nil =>
        have hb : twitter.bottomCursors p = [] := hlast p (by simp)
        have hf : p.FindCursor = none := by rw [json.Adaptive.FindCursor_eq, hb]; rfl
        simp only [twitter.Client.SearchAllLoop, hp, hf, hreq, twitter.requestCursors]
        simp
      | cons p2 ps2 =>
        have hb : twitter.bottomCursors p ≠ [] := hmid p (by simp [List.dropLast])
        obtain ⟨c, hc⟩ : ∃ c, (twitter.bottomCursors p).getLast? = some c := by
          cases hl : (twitter.bottomCursors p).getLast? with
          | none => exact absurd (List.getLast?_eq_none_iff.1 hl) hb
          | some c => exact ⟨c, rfl⟩
        have hf : p.FindCursor = some c := by rw [json.Adaptive.FindCursor_eq, hc]
        have hd : (twitter.bottomCursors p).getLastD [] = c := by
          rw [List.getLastD_eq_getLast?, hc]; rfl
        rw [hd] at hrest
        have hih := ih (log ++ [twitter.requestURL q cursor]) c fuel (by simp) hrest
          (fun x hx => hmid x (by simp [List.dropLast]; exact Or.inr (by simpa using hx)))
          (fun x hx => hlast x (by simpa using hx))
          (by simp only [List.length_cons] at hfuel ⊢; omega)
        simp only [twitter.Client.SearchAllLoop, hp, hf, hreq, hih]
        simp [twitter.requestCursors, hc]

/-- C8: `SearchAll` starts with the empty cursor, fetches each next page with the
last Bottom cursor of the page just delivered (Top entries are ignored, a later
Bottom entry overwrites an earlier one), delivers the pages in request order
and, after the first page without a Bottom cursor (a page without a timeline
is one), delivers the nil end marker and makes no further request: when the
backend answers with n pages that have a Bottom cursor and then one that has
none, exactly these n+1 pages and then nil are delivered, with exactly n+1
requests, whatever the number of page fetches the loop is allowed beyond n+1. -/
theorem twitter.Client.SearchAll_pages :
    (∀ a : json.Adaptive, a.FindCursor = (twitter.bottomCursors a).getLast?) ∧
    (∀ g : json.GlobalObjects, (⟨g, {}⟩ : json.Adaptive).FindCursor = none) ∧
    (∀ (backend : twitter.Backend) (q : twitter.Query) (pages : List json.Adaptive)
        (fuel : Nat), pages ≠ [] →
      twitter.Answers backend q [] [] pages →
      (∀ p ∈ pages.dropLast, twitter.bottomCursors p ≠ []) →
      (∀ p ∈ pages.getLast?, twitter.bottomCursors p = []) →
      pages.length ≤ fuel →
      twitter.Client.SearchAll backend q fuel =
          ⟨pages.map some ++ [none],
            (twitter.requestCursors [] pages).map (twitter.requestURL q)⟩ ∧
        (twitter.Client.SearchAll backend q fuel).delivered.length = pages.length + 1 ∧
        (twitter.Client.SearchAll backend q fuel).requests.length = pages.length) := by
  refine ⟨json.Adaptive.FindCursor_eq, fun g => rfl, ?_⟩
  intro backend q pages fuel hne hans hmid hlast hfuel
  have h := twitter.Client.SearchAllLoop_pages backend q pages [] [] fuel hne hans hmid hlast hfuel
  have hlen : ∀ (c : GoString) (ps : List json.Adaptive),
      (twitter.requestCursors c ps).length = ps.length := by
    intro c ps
    induction ps generalizing c with
    | nil => rfl
    | cons p ps ih => simp [twitter.requestCursors, ih]
  simp only [List.nil_append] at h
  unfold twitter.Client.SearchAll
  rw [h]
  simp [hlen]

/-- C8 (witness): the run of `TestSearchAllWhenRestTweetsExist`: the page with
the tweet and the Bottom cursor, then the empty page fetched with that cursor,
then nil, with two requests. -/
theorem twitter.Client.SearchAll_pages_witness :
    twitter.Client.SearchAll twitter.testBackend ⟨ascii "foo", [], []⟩ 2 =
        ⟨[some twitter.testPage1, some {}, none], [twitter.testUrl1, twitter.testUrl2]⟩ ∧
      (twitter.Client.SearchAll twitter.testBackend ⟨ascii "foo", [], []⟩ 2).delivered.length
        = 3 ∧
      (twitter.Client.SearchAll twitter.testBackend ⟨ascii "foo", [], []⟩ 2).requests.length
        = 2 :=
  twitter.Client.SearchAll_pages.2.2 twitter.testBackend ⟨ascii "foo", [], []⟩
    [twitter.testPage1, {}] 2 (by simp) ⟨by decide, by decide, trivial⟩
    (by decide) (by decide) (by decide)

/-! ## What `time.Parse` accepts -/

theorem time.cutspace_spaces (n : Nat) (r : GoString) :
    time.cutspace (time.spaces n ++ r) = time.cutspace r := by
  induction n with
  | zero => rfl
  | succ n ih =>
    have h32 : ((32 : Byte)).val = 32 := rfl
    simp only [time.spaces, List.replicate_succ, List.cons_append, time.cutspace, h32, if_true]
    exact ih

theorem time.cutspace_decomp (r : GoString) :
    ∃ n, r = time.spaces n ++ time.cutspace r := by
  induction r with
  | nil => exact ⟨0, rfl⟩
  | cons c r ih =>
    by_cases h : c.val = 32
    · obtain ⟨n, hn⟩ := ih
      refine ⟨n + 1, ?_⟩
      have hc : c = 32 := Fin.ext h
      subst hc
      simp only [time.cutspace, if_true, time.spaces, List.replicate_succ, List.cons_append]
      have h32 : ((32 : Byte)).val = 32 := rfl
      simp only [h32, if_true]
      exact congrArg _ hn
    · exact ⟨0, by simp [time.cutspace, h, time.spaces]⟩

theorem time.skip_space_iff (value v : GoString) :
    time.skip value [32] = .ok v ↔
      (value = [] ∧ v = []) ∨ ∃ r, value = (32 : Byte) :: r ∧ v = time.cutspace r := by
  have h32 : ((32 : Byte)).val = 32 := rfl
  cases value with
  | nil =>
    simp [time.skip, time.skipLoop, h32, time.cutspace]
  | cons c r =>
    by_cases hc : c.val = 32
    · have hc2 : c = 32 := Fin.ext hc
      subst hc2
      simp [time.skip, time.skipLoop, h32, time.cutspace]
      exact eq_comm
    · have hc2 : c ≠ 32 := fun h => hc (by subst h; rfl)
      simp [time.skip, time.skipLoop, h32, hc, hc2]

theorem time.skip_colon_iff (value v : GoString) :
    time.skip value [58] = .ok v ↔ value = (58 : Byte) :: v := by
  have h58 : ¬ ((58 : Byte)).val = 32 := by decide
  cases value with
  | nil => simp [time.skip, time.skipLoop, h58]
  | cons c r =>
    by_cases hc : c = 58
    · subst hc
      simp [time.skip, time.skipLoop, h58]
    · simp [time.skip, time.skipLoop, h58, hc]

theorem time.skip_spaces (n : Nat) (r : GoString) (h : time.cutspace r = r) :
    time.skip (time.spaces (n + 1) ++ r) [32] = .ok r := by
  rw [time.skip_space_iff]
  refine Or.inr ⟨time.spaces n ++ r, ?_, ?_⟩
  · simp [time.spaces, List.replicate_succ]
  · rw [time.cutspace_spaces, h]

theorem time.lor32 (c : Byte) :
    c.val ||| 32 = if c.val / 32 % 2 = 1 then c.val else c.val + 32 := by
  revert c; decide

theorem time.matchFold_byte (c1 c2 : Byte) :
    (c1 = c2 ∨ ¬ (c1.val ||| 32 ≠ c2.val ||| 32 ∨ c1.val ||| 32 < 97 ∨ c1.val ||| 32 > 122)) ↔
      time.foldCase c1 = time.foldCase c2 := by
  rw [time.lor32 c1, time.lor32 c2, Fin.ext_iff]
  unfold time.foldCase
  have := c1.isLt
  have := c2.isLt
  split <;> split <;> split <;> split <;> omega

theorem time.matchFold_iff (w v : GoString) (hl : w.length = v.length) :
    time.matchFold w v = true ↔ w.map time.foldCase = v.map time.foldCase := by
  induction w generalizing v with
  | nil =>
    cases v with
    | nil => simp [time.matchFold]
    | cons => simp at hl
  | cons c1 w ih =>
    cases v with
    | nil => simp at hl
    | cons c2 v =>
      have hb := time.matchFold_byte c1 c2
      have ih2 := ih v (by simpa using hl)
      simp only [List.map_cons, List.cons.injEq, ← hb, ← ih2]
      rw [time.matchFold]
      by_cases he : c1 = c2
      · simp [he]
      · simp only [ne_eq, he, not_false_eq_true, if_true, false_or]
        split
        · rename_i hcond; simp [hcond]
        · rename_i hcond; simp [hcond]

theorem time.lookupFrom_inv (tab : List GoString) (i : Nat) (val rest : GoString) (k : Int)
    (h : time.lookupFrom i tab val = (k, rest, false)) :
    ∃ j, j < tab.length ∧ k = ((i + j : Nat) : Int) ∧
      (tab.getD j []).length ≤ val.length ∧
      time.matchFold (val.take (tab.getD j []).length) (tab.getD j []) = true ∧
      rest = val.drop (tab.getD j []).length := by
  induction tab generalizing i with
  | nil => simp [time.lookupFrom] at h
  | cons v tab ih =>
    rw [time.lookupFrom] at h
    split at h
    · rename_i hm
      simp only [Prod.mk.injEq, and_true] at h
      exact ⟨0, by simp, by simp [h.1], hm.1, hm.2, h.2.symm⟩
    · obtain ⟨j, hj, hk, hlen, hm, hr⟩ := ih (i + 1) h
      exact ⟨j + 1, by simpa using hj, by rw [hk]; congr 1; omega, by simpa using hlen,
        by simpa using hm, by simpa using hr⟩

theorem time.lookupFrom_first (tab : List GoString) (i j : Nat) (val : GoString)
    (hj : j < tab.length) (hlen : (tab.getD j []).length ≤ val.length)
    (hm : time.matchFold (val.take (tab.getD j []).length) (tab.getD j []) = true)
    (hfirst : ∀ j2, j2 < j → ¬ ((tab.getD j2 []).length ≤ val.length ∧
      time.matchFold (val.take (tab.getD j2 []).length) (tab.getD j2 []) = true)) :
    time.lookupFrom i tab val = (((i + j : Nat) : Int), val.drop (tab.getD j []).length, false) := by
  induction tab generalizing i j with
  | nil => simp at hj
  | cons v tab ih =>
    rw [time.lookupFrom]
    cases j with
    | zero =>
      simp only [List.getD_cons_zero] at hlen hm
      simp [hlen, hm]
    | succ j =>
      have h0 := hfirst 0 (by omega)
      simp only [List.getD_cons_zero] at h0
      rw [if_neg (by simpa using h0)]
      simp only [List.getD_cons_succ] at hlen hm ⊢
      rw [ih (i + 1) j (by simpa using hj) hlen hm
        (fun j2 hj2 => by simpa using hfirst (j2 + 1) (by omega))]
      congr 2
      omega

/-- What `lookup` accepts in a table of names of one length that differ from
each other beyond letter case: a name of the table in any letter case. -/
theorem time.lookup_iff (tab : List GoString) (len : Nat)
    (hlen : ∀ j, j < tab.length → (tab.getD j []).length = len)
    (hdist : ∀ j1 j2, j1 < tab.length → j2 < tab.length →
      (tab.getD j1 []).map time.foldCase = (tab.getD j2 []).map time.foldCase → j1 = j2)
    (val rest : GoString) (k : Int) :
    time.lookup tab val = (k, rest, false) ↔
      ∃ j w, j < tab.length ∧ k = (j : Int) ∧ val = w ++ rest ∧
        w.map time.foldCase = (tab.getD j []).map time.foldCase := by
  unfold time.lookup
  constructor
  · intro h
    obtain ⟨j, hj, hk, hl, hm, hr⟩ := time.lookupFrom_inv tab 0 val rest k h
    refine ⟨j, val.take (tab.getD j []).length, hj, by simpa using hk, ?_, ?_⟩
    · rw [hr, List.take_append_drop]
    · exact (time.matchFold_iff _ _ (by rw [List.length_take]; exact Nat.min_eq_left hl)).1 hm
  · rintro ⟨j, w, hj, hk, hv, hw⟩
    have hwl : w.length = len := by
      have := congrArg List.length hw
      rw [List.length_map, List.length_map, hlen j hj] at this
      exact this
    have hfold : ∀ j2, j2 < tab.length → (val.take (tab.getD j2 []).length) = w := by
      intro j2 hj2
      rw [hlen j2 hj2, hv, ← hwl, List.take_left]
    have h := time.lookupFrom_first tab 0 j val hj
      (by rw [hlen j hj, hv, List.length_append, hwl]; omega)
      (by rw [hfold j hj]; exact (time.matchFold_iff _ _ (by rw [hwl, hlen j hj])).2 hw)
      (by
        intro j2 hj2 hc
        have hj2l : j2 < tab.length := by omega
        rw [hfold j2 hj2l] at hc
        have := (time.matchFold_iff _ _ (by rw [hwl, hlen j2 hj2l])).1 hc.2
        have := hdist j2 j hj2l hj (this.symm.trans hw)
        omega)
    rw [h, hlen j hj, hv, ← hwl, List.drop_left, hk]
    simp

theorem time.lookup_day_iff (val rest : GoString) (k : Int) :
    time.lookup time.shortDayNames val = (k, rest, false) ↔
      ∃ (i : Fin 7) (w : GoString), k = (i.val : Int) ∧ val = w ++ rest ∧
        w.map time.foldCase = (time.shortDayNames.getD i.val []).map time.foldCase := by
  have hlen : ∀ j, j < time.shortDayNames.length → (time.shortDayNames.getD j []).length = 3 := by
    decide
  have hfin : ∀ i1 i2 : Fin 7,
      (time.shortDayNames.getD i1.val []).map time.foldCase =
        (time.shortDayNames.getD i2.val []).map time.foldCase → i1 = i2 := by
    decide
  have hdist : ∀ j1 j2, j1 < time.shortDayNames.length → j2 < time.shortDayNames.length →
      (time.shortDayNames.getD j1 []).map time.foldCase =
        (time.shortDayNames.getD j2 []).map time.foldCase → j1 = j2 := by
    intro j1 j2 h1 h2 h
    exact congrArg Fin.val (hfin ⟨j1, h1⟩ ⟨j2, h2⟩ h)
  rw [time.lookup_iff _ 3 hlen hdist]
  constructor
  · rintro ⟨j, w, hj, h⟩
    exact ⟨⟨j, hj⟩, w, h⟩
  · rintro ⟨i, w, h⟩
    exact ⟨i.val, w, i.isLt, h⟩

theorem time.lookup_month_iff (val rest : GoString) (k : Int) :
    time.lookup time.shortMonthNames val = (k, rest, false) ↔
      ∃ (i : Fin 12) (w : GoString), k = (i.val : Int) ∧ val = w ++ rest ∧
        w.map time.foldCase = (time.shortMonthNames.getD i.val []).map time.foldCase := by
  have hlen : ∀ j, j < time.shortMonthNames.length →
      (time.shortMonthNames.getD j []).length = 3 := by
    decide
  have hfin : ∀ i1 i2 : Fin 12,
      (time.shortMonthNames.getD i1.val []).map time.foldCase =
        (time.shortMonthNames.getD i2.val []).map time.foldCase → i1 = i2 := by
    decide
  have hdist : ∀ j1 j2, j1 < time.shortMonthNames.length → j2 < time.shortMonthNames.length →
      (time.shortMonthNames.getD j1 []).map time.foldCase =
        (time.shortMonthNames.getD j2 []).map time.foldCase → j1 = j2 := by
    intro j1 j2 h1 h2 h
    exact congrArg Fin.val (hfin ⟨j1, h1⟩ ⟨j2, h2⟩ h)
  rw [time.lookup_iff _ 3 hlen hdist]
  constructor
  · rintro ⟨j, w, hj, h⟩
    exact ⟨⟨j, hj⟩, w, h⟩
  · rintro ⟨i, w, h⟩
    exact ⟨i.val, w, i.isLt, h⟩

theorem time.isDigit_zero_cons (a : Byte) (r : GoString) :
    time.isDigit (a :: r) 0 = decide (48 ≤ a.val ∧ a.val ≤ 57) := by
  simp [time.isDigit]

theorem time.isDigit_one_cons (a b : Byte) (r : GoString) :
    time.isDigit (a :: b :: r) 1 = decide (48 ≤ b.val ∧ b.val ≤ 57) := by
  simp [time.isDigit]

theorem time.digits2_of_bytes (a b : Byte) (ha : 48 ≤ a.val ∧ a.val ≤ 57)
    (hb : 48 ≤ b.val ∧ b.val ≤ 57) :
    time.digits2 ((a.val - 48) * 10 + (b.val - 48)) = [a, b] ∧
      (a.val - 48) * 10 + (b.val - 48) < 100 := by
  have h1 := time.digit_val (((a.val - 48) * 10 + (b.val - 48)) / 10)
  have h2 := time.digit_val ((a.val - 48) * 10 + (b.val - 48))
  refine ⟨?_, by omega⟩
  simp only [time.digits2, List.cons.injEq, and_true]
  exact ⟨Fin.ext (by omega), Fin.ext (by omega)⟩

theorem time.digit_of_byte (a : Byte) (ha : 48 ≤ a.val ∧ a.val ≤ 57) :
    time.digit (a.val - 48) = a := by
  have h1 := time.digit_val (a.val - 48)
  exact Fin.ext (by omega)

theorem time.getnum_fixed_iff (v rest : GoString) (n : Int) :
    time.getnum v true = (n, rest, false) ↔
      ∃ m : Nat, m < 100 ∧ v = time.digits2 m ++ rest ∧ n = (m : Int) := by
  constructor
  · intro h
    match v, h with
    | [], h => simp [time.getnum, time.isDigit] at h
    | [a], h => simp [time.getnum, time.isDigit] at h
    | a :: b :: r, h =>
      by_cases ha : 48 ≤ a.val ∧ a.val ≤ 57
      · by_cases hb : 48 ≤ b.val ∧ b.val ≤ 57
        · rw [time.getnum_two a b r true ha hb] at h
          simp only [Prod.mk.injEq, and_true] at h
          obtain ⟨hd, hlt⟩ := time.digits2_of_bytes a b ha hb
          refine ⟨_, hlt, ?_, ?_⟩
          · rw [hd, ← h.2]; rfl
          · rw [← h.1]; push_cast; rfl
        · simp [time.getnum, time.isDigit, ha, hb] at h
      · simp [time.getnum, time.isDigit, ha] at h
  · rintro ⟨m, hm, rfl, rfl⟩
    exact time.getnum_digits2 m hm rest true

theorem time.getnum_free_iff (v rest : GoString) (n : Int) :
    time.getnum v false = (n, rest, false) ↔
      (∃ m : Nat, m < 100 ∧ v = time.digits2 m ++ rest ∧ n = (m : Int)) ∨
      (∃ m : Nat, m < 10 ∧ v = time.digit m :: rest ∧ time.isDigit rest 0 = false ∧
        n = (m : Int)) := by
  constructor
  · intro h
    match v, h with
    | [], h => simp [time.getnum, time.isDigit] at h
    | [a], h =>
      by_cases ha : 48 ≤ a.val ∧ a.val ≤ 57
      · simp [time.getnum, time.isDigit, ha] at h
        refine Or.inr ⟨a.val - 48, by omega, ?_, ?_, ?_⟩
        · rw [time.digit_of_byte a ha, ← h.2]
        · rw [h.2]; rfl
        · rw [← h.1]; omega
      · simp [time.getnum, time.isDigit, ha] at h
    | a :: b :: r, h =>
      by_cases ha : 48 ≤ a.val ∧ a.val ≤ 57
      · by_cases hb : 48 ≤ b.val ∧ b.val ≤ 57
        · rw [time.getnum_two a b r false ha hb] at h
          simp only [Prod.mk.injEq, and_true] at h
          obtain ⟨hd, hlt⟩ := time.digits2_of_bytes a b ha hb
          refine Or.inl ⟨_, hlt, ?_, ?_⟩
          · rw [hd, ← h.2]; rfl
          · rw [← h.1]; push_cast; rfl
        · simp [time.getnum, time.isDigit, ha, hb] at h
          refine Or.inr ⟨a.val - 48, by omega, ?_, ?_, ?_⟩
          · rw [time.digit_of_byte a ha, ← h.2]
          · rw [← h.2, time.isDigit_zero_cons]; simpa using hb
          · rw [← h.1]; omega
      · simp [time.getnum, time.isDigit, ha] at h
  · rintro (⟨m, hm, rfl, rfl⟩ | ⟨m, hm, rfl, hd, rfl⟩)
    · exact time.getnum_digits2 m hm rest false
    · have hv := time.digit_val m
      rw [Nat.mod_eq_of_lt hm] at hv
      cases rest with
      | nil =>
        simp [time.getnum, time.isDigit, hv]
        omega
      | cons b r =>
        rw [time.isDigit_zero_cons] at hd
        have hb : ¬ (48 ≤ b.val ∧ b.val ≤ 57) := by simpa using hd
        simp [time.getnum, time.isDigit, hv, hb]
        omega

theorem time.leadingIntLoop_digits (s : GoString) (x : Nat)
    (hs : ∀ c ∈ s, 48 ≤ c.val ∧ c.val ≤ 57) (hx : (x + 1) * 10 ^ s.length ≤ 10 ^ 18) :
    time.leadingIntLoop x s = (s.foldl (fun n c => n * 10 + (c.val - 48)) x, [], false) := by
  induction s generalizing x with
  | nil => rfl
  | cons c s ih =>
    have hc := hs c (List.mem_cons_self _ _)
    have hpos : 1 ≤ 10 ^ s.length := Nat.one_le_pow _ _ (by norm_num)
    have hx10 : (x + 1) * 10 ≤ 10 ^ 18 := by
      rw [List.length_cons, Nat.pow_succ] at hx
      calc (x + 1) * 10 = (x + 1) * 10 * 1 := by ring
        _ ≤ (x + 1) * 10 * 10 ^ s.length := Nat.mul_le_mul_left _ hpos
        _ = (x + 1) * (10 ^ s.length * 10) := by ring
        _ ≤ 10 ^ 18 := hx
    have e1 : ¬ (c.val < 48 ∨ c.val > 57) := by omega
    have e2 : ¬ (x > 2 ^ 63 / 10) := by
      have : (2 : Nat) ^ 63 / 10 = 922337203685477580 := by norm_num
      have : (10 : Nat) ^ 18 = 1000000000000000000 := by norm_num
      omega
    have e3 : ¬ (x * 10 + c.val - 48 > 2 ^ 63) := by
      have : (2 : Nat) ^ 63 = 9223372036854775808 := by norm_num
      have : (10 : Nat) ^ 18 = 1000000000000000000 := by norm_num
      omega
    rw [time.leadingIntLoop]
    simp only [e1, e2, e3, if_false]
    have hy : x * 10 + c.val - 48 = x * 10 + (c.val - 48) := by omega
    rw [hy, List.foldl_cons]
    apply ih _ (fun d hd => hs d (List.mem_cons_of_mem _ hd))
    rw [List.length_cons, Nat.pow_succ] at hx
    calc (x * 10 + (c.val - 48) + 1) * 10 ^ s.length
        ≤ ((x + 1) * 10) * 10 ^ s.length := Nat.mul_le_mul_right _ (by omega)
      _ = (x + 1) * (10 ^ s.length * 10) := by ring
      _ ≤ 10 ^ 18 := hx

theorem time.leadingIntLoop_inv (s : GoString) (x n : Nat)
    (h : time.leadingIntLoop x s = (n, [], false)) : ∀ c ∈ s, 48 ≤ c.val ∧ c.val ≤ 57 := by
  induction s generalizing x with
  | nil => simp
  | cons c s ih =>
    rw [time.leadingIntLoop] at h
    split at h
    · simp at h
    · rename_i hc
      split at h
      · simp at h
      · simp only at h
        split at h
        · simp at h
        · intro d hd
          rcases List.mem_cons.1 hd with hd | hd
          · subst hd; omega
          · exact ih _ h d hd

theorem time.decimal_lt (s : GoString) (hs : ∀ c ∈ s, 48 ≤ c.val ∧ c.val ≤ 57) :
    ∀ x, s.foldl (fun n c => n * 10 + (c.val - 48)) x + 1 ≤ (x + 1) * 10 ^ s.length := by
  induction s with
  | nil => intro x; simp
  | cons c s ih =>
    intro x
    have hc := hs c (List.mem_cons_self _ _)
    rw [List.foldl_cons, List.length_cons, Nat.pow_succ]
    calc _ ≤ (x * 10 + (c.val - 48) + 1) * 10 ^ s.length :=
          ih (fun d hd => hs d (List.mem_cons_of_mem _ hd)) _
      _ ≤ ((x + 1) * 10) * 10 ^ s.length := Nat.mul_le_mul_right _ (by omega)
      _ = (x + 1) * (10 ^ s.length * 10) := by ring

/-- On a string of at most 17 decimal digits that does not start with a sign,
`atoi` succeeds exactly when all bytes are digits, with the number they write. -/
theorem time.atoi_digits (s : GoString) (hl : s.length ≤ 17)
    (h0 : ∀ c, s.head? = some c → 48 ≤ c.val ∧ c.val ≤ 57) (y : Int) :
    time.atoi s = some y ↔
      (∀ c ∈ s, 48 ≤ c.val ∧ c.val ≤ 57) ∧ y = (time.decimal s : Int) := by
  have hpow : (10 : Nat) ^ s.length ≤ 10 ^ 17 := Nat.pow_le_pow_right (by norm_num) hl
  have h18 : (0 + 1) * 10 ^ s.length ≤ 10 ^ 18 := by
    have : (10 : Nat) ^ 17 ≤ 10 ^ 18 := by norm_num
    omega
  have hun : time.atoi s = time.atoiUnsigned false s := by
    cases s with
    | nil => rfl
    | cons c r =>
      have := h0 c rfl
      have hs : ¬ (c.val = 45 ∨ c.val = 43) := by omega
      rw [time.atoi, if_neg hs]
  rw [hun]
  unfold time.atoiUnsigned time.leadingInt
  constructor
  · intro h
    simp only at h
    split at h
    · simp at h
    · rename_i hc
      simp only [not_or, Bool.not_eq_true, gt_iff_lt, Nat.not_lt, Nat.le_zero,
        List.length_eq_zero] at hc
      have hinv := time.leadingIntLoop_inv s 0 (time.leadingIntLoop 0 s).1
        (by rw [← hc.1, ← hc.2])
      refine ⟨hinv, ?_⟩
      have hf := time.leadingIntLoop_digits s 0 hinv h18
      have hlt := time.decimal_lt s hinv 0
      rw [hf] at h
      simp only [Bool.false_eq_true, if_false, Option.some.injEq] at h
      have h63 : s.foldl (fun n c => n * 10 + (c.val - 48)) 0 < 2 ^ 63 := by
        have : (2 : Nat) ^ 63 = 9223372036854775808 := by norm_num
        have : (10 : Nat) ^ 18 = 1000000000000000000 := by norm_num
        omega
      rw [if_pos h63] at h
      rw [← h]; rfl
  · rintro ⟨hs, rfl⟩
    have hf := time.leadingIntLoop_digits s 0 hs h18
    have hlt := time.decimal_lt s hs 0
    have h63 : s.foldl (fun n c => n * 10 + (c.val - 48)) 0 < 2 ^ 63 := by
      have : (2 : Nat) ^ 63 = 9223372036854775808 := by norm_num
      have : (10 : Nat) ^ 18 = 1000000000000000000 := by norm_num
      omega
    rw [hf]
    simp only [List.length_nil, gt_iff_lt, Nat.lt_irrefl, or_self, Bool.false_eq_true, if_false,
      if_pos h63]
    rfl

theorem time.digits4_of_bytes (a b c d : Byte) (ha : 48 ≤ a.val ∧ a.val ≤ 57)
    (hb : 48 ≤ b.val ∧ b.val ≤ 57) (hc : 48 ≤ c.val ∧ c.val ≤ 57)
    (hd : 48 ≤ d.val ∧ d.val ≤ 57) :
    time.digits4 (time.decimal [a, b, c, d]) = [a, b, c, d] ∧
      time.decimal [a, b, c, d] < 10000 := by
  have e : time.decimal [a, b, c, d] =
      (((0 * 10 + (a.val - 48)) * 10 + (b.val - 48)) * 10 + (c.val - 48)) * 10 + (d.val - 48) := rfl
  have h1 := time.digit_val (time.decimal [a, b, c, d] / 1000)
  have h2 := time.digit_val (time.decimal [a, b, c, d] / 100)
  have h3 := time.digit_val (time.decimal [a, b, c, d] / 10)
  have h4 := time.digit_val (time.decimal [a, b, c, d])
  refine ⟨?_, by omega⟩
  simp only [time.digits4, List.cons.injEq, and_true]
  exact ⟨Fin.ext (by omega), Fin.ext (by omega), Fin.ext (by omega), Fin.ext (by omega)⟩

theorem time.decimal_digits4 (n : Nat) (hn : n < 10000) :
    (∀ c ∈ time.digits4 n, 48 ≤ c.val ∧ c.val ≤ 57) ∧ time.decimal (time.digits4 n) = n := by
  have h1 := time.digit_val (n / 1000)
  have h2 := time.digit_val (n / 100)
  have h3 := time.digit_val (n / 10)
  have h4 := time.digit_val n
  constructor
  · intro c hc
    simp only [time.digits4, List.mem_cons, List.mem_singleton, List.not_mem_nil, or_false] at hc
    rcases hc with rfl | rfl | rfl | rfl <;> omega
  · have e : time.decimal (time.digits4 n) =
        (((0 * 10 + ((time.digit (n / 1000)).val - 48)) * 10 + ((time.digit (n / 100)).val - 48))
          * 10 + ((time.digit (n / 10)).val - 48)) * 10 + ((time.digit n).val - 48) := rfl
    rw [e]; omega

theorem time.triple_iff (x : Int × GoString × Bool) (r : GoString) (P : Int → Prop) :
    (x.2.2 = false ∧ x.2.1 = r ∧ P x.1) ↔ ∃ k, x = (k, r, false) ∧ P k := by
  obtain ⟨k, r2, e⟩ := x
  constructor
  · rintro ⟨h1, h2, h3⟩
    simp only at h1 h2 h3
    subst h1 h2
    exact ⟨k, rfl, h3⟩
  · rintro ⟨k2, h, hp⟩
    simp only [Prod.mk.injEq] at h
    obtain ⟨rfl, rfl, rfl⟩ := h
    exact ⟨rfl, rfl, hp⟩

theorem time.parseLoop_cons_iff (pfx stdstr value : GoString) (std : time.Std)
    (chunks : List (GoString × time.Std × GoString)) (f : time.Fields)
    (res : time.Fields × GoString) :
    time.parseLoop ((pfx, std, stdstr) :: chunks) f value = .ok res ↔
      ∃ v g r, time.skip value pfx = .ok v ∧ time.armOk std f v g r ∧
        time.parseLoop chunks g r = .ok res := by
  rw [time.parseLoop]
  unfold time.armOk
  cases hs : time.skip value pfx with
  | error e => simp
  | ok v =>
    simp only [Except.ok.injEq]
    constructor
    · intro h
      split at h
      · simp at h
      · rename_i hr
        split at h
        · simp at h
        · rename_i he
          exact ⟨v, _, _, rfl, ⟨by simpa using hr, by simpa using he, rfl, rfl⟩, h⟩
    · rintro ⟨v2, g, r, rfl, ⟨hr, he, rfl, rfl⟩, h⟩
      simp [hr, he, h]

theorem time.arm_weekday_iff (f g : time.Fields) (v r : GoString) :
    time.armOk .stdWeekDay f v g r ↔
      ∃ (i : Fin 7) (w : GoString), v = w ++ r ∧
        w.map time.foldCase = (time.shortDayNames.getD i.val []).map time.foldCase ∧ g = f := by
  unfold time.armOk
  simp only [time.parseArm, true_and]
  have := time.triple_iff (time.lookup time.shortDayNames v) r (fun _ => f = g)
  constructor
  · rintro ⟨h1, h2, h3⟩
    obtain ⟨k, hk, _⟩ := this.1 ⟨h1, h3, h2⟩
    obtain ⟨i, w, _, hv, hw⟩ := (time.lookup_day_iff v r k).1 hk
    exact ⟨i, w, hv, hw, h2.symm⟩
  · rintro ⟨i, w, hv, hw, hg⟩
    have hk := (time.lookup_day_iff v r i.val).2 ⟨i, w, rfl, hv, hw⟩
    obtain ⟨h1, h3, h2⟩ := this.2 ⟨_, hk, hg.symm⟩
    exact ⟨h1, h2, h3⟩

theorem time.arm_month_iff (f g : time.Fields) (v r : GoString) :
    time.armOk .stdMonth f v g r ↔
      ∃ (i : Fin 12) (w : GoString), v = w ++ r ∧
        w.map time.foldCase = (time.shortMonthNames.getD i.val []).map time.foldCase ∧
        g = { f with month := (i.val : Int) + 1 } := by
  unfold time.armOk
  simp only [time.parseArm, true_and]
  have := time.triple_iff (time.lookup time.shortMonthNames v) r
    (fun k => { f with month := k + 1 } = g)
  constructor
  · rintro ⟨h1, h2, h3⟩
    obtain ⟨k, hk, hg⟩ := this.1 ⟨h1, h3, h2⟩
    obtain ⟨i, w, hki, hv, hw⟩ := (time.lookup_month_iff v r k).1 hk
    subst hki
    exact ⟨i, w, hv, hw, hg.symm⟩
  · rintro ⟨i, w, hv, hw, hg⟩
    have hk := (time.lookup_month_iff v r i.val).2 ⟨i, w, rfl, hv, hw⟩
    obtain ⟨h1, h3, h2⟩ := this.2 ⟨_, hk, hg.symm⟩
    exact ⟨h1, h2, h3⟩

theorem time.arm_day_iff (f g : time.Fields) (v r : GoString) :
    time.armOk .stdZeroDay f v g r ↔
      ∃ m : Nat, m < 100 ∧ v = time.digits2 m ++ r ∧ g = { f with day := (m : Int) } := by
  unfold time.armOk
  simp only [time.parseArm, true_and]
  have := time.triple_iff (time.getnum v true) r (fun k => { f with day := k } = g)
  constructor
  · rintro ⟨h1, h2, h3⟩
    obtain ⟨k, hk, hg⟩ := this.1 ⟨h1, h3, h2⟩
    obtain ⟨m, hm, hv, rfl⟩ := (time.getnum_fixed_iff v r k).1 hk
    exact ⟨m, hm, hv, hg.symm⟩
  · rintro ⟨m, hm, hv, hg⟩
    have hk := (time.getnum_fixed_iff v r m).2 ⟨m, hm, hv, rfl⟩
    obtain ⟨h1, h3, h2⟩ := this.2 ⟨_, hk, hg.symm⟩
    exact ⟨h1, h2, h3⟩

theorem time.arm_minute_iff (f g : time.Fields) (v r : GoString) :
    time.armOk .stdZeroMinute f v g r ↔
      ∃ m : Nat, m < 60 ∧ v = time.digits2 m ++ r ∧ g = { f with min := (m : Int) } := by
  unfold time.armOk
  simp only [time.parseArm]
  have := time.triple_iff (time.getnum v true) r
    (fun k => { f with min := k } = g ∧ ¬ (k < 0 ∨ 60 ≤ k))
  constructor
  · rintro ⟨h0, h1, h2, h3⟩
    have hr : ¬ ((time.getnum v true).1 < 0 ∨ 60 ≤ (time.getnum v true).1) := by
      intro hc; rw [if_pos hc] at h0; exact absurd h0 (by decide)
    obtain ⟨k, hk, hg, hkr⟩ := this.1 ⟨h1, h3, h2, hr⟩
    obtain ⟨m, hm, hv, rfl⟩ := (time.getnum_fixed_iff v r k).1 hk
    exact ⟨m, by omega, hv, hg.symm⟩
  · rintro ⟨m, hm, hv, hg⟩
    have hk := (time.getnum_fixed_iff v r m).2 ⟨m, by omega, hv, rfl⟩
    obtain ⟨h1, h3, h2, hr⟩ := this.2 ⟨_, hk, hg.symm, by omega⟩
    exact ⟨by rw [if_neg hr], h1, h2, h3⟩

theorem time.arm_hour_iff (f g : time.Fields) (v r : GoString)
    (hr : time.isDigit r 0 = false) :
    time.armOk .stdHour f v g r ↔
      ∃ (m : Nat) ( short : Bool), m < 24 ∧ (short = true → m < 10) ∧
        v = (if short then [time.digit m] else time.digits2 m) ++ r ∧
        g = { f with hour := (m : Int) } := by
  unfold time.armOk
  simp only [time.parseArm]
  have := time.triple_iff (time.getnum v false) r
    (fun k => { f with hour := k } = g ∧ ¬ (k < 0 ∨ 24 ≤ k))
  constructor
  · rintro ⟨h0, h1, h2, h3⟩
    have hrg : ¬ ((time.getnum v false).1 < 0 ∨ 24 ≤ (time.getnum v false).1) := by
      intro hc; rw [if_pos hc] at h0; exact absurd h0 (by decide)
    obtain ⟨k, hk, hg, hkr⟩ := this.1 ⟨h1, h3, h2, hrg⟩
    rcases (time.getnum_free_iff v r k).1 hk with ⟨m, hm, hv, rfl⟩ | ⟨m, hm, hv, _, rfl⟩
    · exact ⟨m, false, by omega, by simp, by simpa using hv, hg.symm⟩
    · exact ⟨m, true, by omega, fun _ => hm, by simpa using hv, hg.symm⟩
  · rintro ⟨m, short, hm, hsh, hv, hg⟩
    have hk : time.getnum v false = ((m : Int), r, false) := by
      rw [time.getnum_free_iff]
      cases short with
      | false => exact Or.inl ⟨m, by omega, by simpa using hv, rfl⟩
      | true => exact Or.inr ⟨m, hsh rfl, by simpa using hv, hr, rfl⟩
    obtain ⟨h1, h3, h2, hrg⟩ := this.2 ⟨_, hk, hg.symm, by omega⟩
    exact ⟨by rw [if_neg hrg], h1, h2, h3⟩

theorem time.arm_year_iff (f g : time.Fields) (v r : GoString) :
    time.armOk .stdLongYear f v g r ↔
      ∃ y : Nat, y < 10000 ∧ v = time.digits4 y ++ r ∧ g = { f with year := (y : Int) } := by
  unfold time.armOk
  constructor
  · intro h
    match v, h with
    | a :: b :: c :: d :: rest, h =>
      by_cases ha : 48 ≤ a.val ∧ a.val ≤ 57
      · have hd0 : time.isDigit (a :: b :: c :: d :: rest) 0 = true := by
          rw [time.isDigit_zero_cons]; simpa using ha
        have htake : (a :: b :: c :: d :: rest).take 4 = [a, b, c, d] := by simp
        have hdrop : (a :: b :: c :: d :: rest).drop 4 = rest := by simp
        have hlen : ¬ ((a :: b :: c :: d :: rest).length < 4) := by simp
        simp only [time.parseArm, hlen, hd0, Bool.not_true, Bool.false_eq_true, or_self,
          if_false, htake, hdrop] at h
        cases hat : time.atoi [a, b, c, d] with
        | none => rw [hat] at h; simp at h
        | some y =>
          rw [hat] at h
          simp only [true_and] at h
          obtain ⟨hs, hy⟩ := (time.atoi_digits [a, b, c, d] (by simp)
            (by intro x hx; simp at hx; subst hx; exact ha) y).1 hat
          have hb := hs b (by simp)
          have hc := hs c (by simp)
          have hd := hs d (by simp)
          obtain ⟨h4, hlt⟩ := time.digits4_of_bytes a b c d ha hb hc hd
          refine ⟨_, hlt, ?_, ?_⟩
          · rw [h4, ← h.2]; rfl
          · rw [← h.1, hy]
      · have hd0 : time.isDigit (a :: b :: c :: d :: rest) 0 = false := by
          rw [time.isDigit_zero_cons]; simpa using ha
        simp [time.parseArm, hd0] at h
    | [], h => simp [time.parseArm] at h
    | [_], h => simp [time.parseArm] at h
    | [_, _], h => simp [time.parseArm] at h
    | [_, _, _], h => simp [time.parseArm] at h
  · rintro ⟨y, hy, rfl, rfl⟩
    obtain ⟨hs, hdec⟩ := time.decimal_digits4 y hy
    have hat := (time.atoi_digits (time.digits4 y) (by simp [time.digits4])
      (by intro x hx; exact hs x (by simp [time.digits4] at hx ⊢; exact Or.inl hx.symm)) y).2
      ⟨hs, by rw [hdec]⟩
    have hd0 : time.isDigit (time.digits4 y ++ r) 0 = true := by
      have := hs (time.digit (y / 1000)) (by simp [time.digits4])
      simp only [time.digits4, List.cons_append, time.isDigit_zero_cons]
      simpa using this
    have htake : (time.digits4 y ++ r).take 4 = time.digits4 y := by simp [time.digits4]
    have hdrop : (time.digits4 y ++ r).drop 4 = r := by simp [time.digits4]
    have hlen : ¬ ((time.digits4 y ++ r).length < 4) := by simp [time.digits4]
    simp only [time.parseArm, hlen, hd0, Bool.not_true, Bool.false_eq_true, or_self,
      if_false, htake, hdrop, hat, and_self]

theorem time.isDigit_zero_append (ds r : GoString) (h : time.isDigit r 0 = false) :
    ∀ n, (∀ c ∈ ds, 48 ≤ c.val ∧ c.val ≤ 57) → time.fracEnd (ds ++ r) n = n + ds.length := by
  induction ds with
  | nil =>
    intro n _
    cases r with
    | nil => rfl
    | cons c r =>
      rw [time.isDigit_zero_cons] at h
      have hc : ¬ (48 ≤ c.val ∧ c.val ≤ 57) := by simpa using h
      simp [time.fracEnd, hc]
  | cons d ds ih =>
    intro n hds
    have hd := hds d (List.mem_cons_self _ _)
    rw [List.cons_append, time.fracEnd, if_pos hd,
      ih (n + 1) (fun c hc => hds c (List.mem_cons_of_mem _ hc)), List.length_cons]
    omega

theorem time.fracEnd_decomp (s : GoString) :
    ∃ ds tail, s = ds ++ tail ∧ (∀ c ∈ ds, 48 ≤ c.val ∧ c.val ≤ 57) ∧
      time.isDigit tail 0 = false := by
  induction s with
  | nil => exact ⟨[], [], rfl, by simp, rfl⟩
  | cons c s ih =>
    by_cases hc : 48 ≤ c.val ∧ c.val ≤ 57
    · obtain ⟨ds, tail, hs, hds, ht⟩ := ih
      refine ⟨c :: ds, tail, by rw [hs]; rfl, ?_, ht⟩
      intro x hx
      rcases List.mem_cons.1 hx with hx | hx
      · subst hx; exact hc
      · exact hds x hx
    · refine ⟨[], c :: s, rfl, by simp, ?_⟩
      rw [time.isDigit_zero_cons]; simpa using hc

theorem time.parseNanoseconds_frac (sep : Byte) (ds tail : GoString)
    (hsep : sep.val = 46 ∨ sep.val = 44)
    (hds : ∀ c ∈ ds, 48 ≤ c.val ∧ c.val ≤ 57) :
    time.parseNanoseconds (sep :: ds ++ tail) (1 + ds.length) =
      (((time.fractionNanos (some (sep, ds)) : Nat) : Int), ([] : GoString), false) := by
  have hcp : time.commaOrPeriod sep = true := by simpa [time.commaOrPeriod] using hsep
  have htake : ((if 1 + ds.length > 10 then (sep :: ds ++ tail).take 10
      else (sep :: ds ++ tail)).take (if 1 + ds.length > 10 then 10 else 1 + ds.length)).drop 1 =
      ds.take 9 := by
    by_cases h : 1 + ds.length > 10
    · simp only [h, if_true, List.cons_append, List.take_succ_cons, List.take_take,
        List.drop_succ_cons, List.drop_zero]
      simp only [List.take_succ_cons, List.take_take, Nat.min_self, List.drop_succ_cons,
        List.drop_zero]
      rw [List.take_append_of_le_length (by omega)]
    · simp only [h, if_false, List.cons_append]
      rw [Nat.add_comm 1, List.take_succ_cons, List.drop_succ_cons, List.drop_zero,
        List.take_left]
      rw [List.take_of_length_le (by omega)]
  have h9 : ∀ c ∈ ds.take 9, 48 ≤ c.val ∧ c.val ≤ 57 :=
    fun c hc => hds c (List.mem_of_mem_take hc)
  have hat := (time.atoi_digits (ds.take 9) (by rw [List.length_take]; omega)
    (fun c hc => h9 c (List.mem_of_mem_head? hc)) (time.decimal (ds.take 9))).2 ⟨h9, rfl⟩
  unfold time.parseNanoseconds
  simp only [List.cons_append, hcp, Bool.not_true, Bool.false_eq_true, if_false]
  simp only [List.cons_append] at htake
  rw [htake, hat]
  have hnn : ¬ ((time.decimal (ds.take 9) : Int) < 0) := by omega
  simp only [hnn, if_false, time.fractionNanos, Prod.mk.injEq, and_true]
  have hexp : 10 - (if 1 + ds.length > 10 then 10 else 1 + ds.length) = 9 - min ds.length 9 := by
    split <;> omega
  rw [hexp]
  push_cast
  rfl

theorem time.arm_second_head (f g : time.Fields) (v r : GoString)
    (h : time.armOk .stdZeroSecond f v g r) :
    ∃ (m : Nat) (v1 : GoString), m < 60 ∧ v = time.digits2 m ++ v1 := by
  unfold time.armOk at h
  rcases hx : time.getnum v true with ⟨k, v1, e⟩
  cases e with
  | true => simp [time.parseArm, hx] at h
  | false =>
    obtain ⟨m, hm, hv, rfl⟩ := (time.getnum_fixed_iff v v1 k).1 hx
    refine ⟨m, v1, ?_, hv⟩
    by_contra hge
    have hc : ((m : Int) < 0 ∨ 60 ≤ (m : Int)) := by omega
    simp only [time.parseArm, hx, Bool.false_eq_true, if_false, if_pos hc] at h
    exact absurd h.1 (by decide)

theorem time.arm_second_plain (f : time.Fields) (m : Nat) (hm : m < 60) (v1 : GoString)
    (hc : ¬ (v1.length ≥ 2 ∧ time.commaOrPeriod (v1.getD 0 0) = true ∧
      time.isDigit v1 1 = true)) :
    time.parseArm .stdZeroSecond f (time.digits2 m ++ v1) =
      ⟨{ f with sec := (m : Int) }, v1, [], false⟩ := by
  simp only [time.parseArm, time.getnum_digits2 m (by omega), Bool.false_eq_true, if_false]
  have : ¬ ((m : Int) < 0 ∨ 60 ≤ (m : Int)) := by omega
  rw [if_neg this, if_neg hc]

theorem time.arm_second_frac (f : time.Fields) (m : Nat) (hm : m < 60) (sep : Byte)
    (ds tail : GoString) (hsep : sep.val = 46 ∨ sep.val = 44) (hne : ds ≠ [])
    (hds : ∀ c ∈ ds, 48 ≤ c.val ∧ c.val ≤ 57) (ht : time.isDigit tail 0 = false) :
    time.parseArm .stdZeroSecond f (time.digits2 m ++ (sep :: ds ++ tail)) =
      ⟨{ f with sec := (m : Int), nsec := (time.fractionNanos (some (sep, ds)) : Nat) },
        tail, [], false⟩ := by
  simp only [time.parseArm, time.getnum_digits2 m (by omega), Bool.false_eq_true, if_false]
  have : ¬ ((m : Int) < 0 ∨ 60 ≤ (m : Int)) := by omega
  rw [if_neg this]
  obtain ⟨d, ds2, rfl⟩ := List.exists_cons_of_ne_nil hne
  have hd := hds d (List.mem_cons_self _ _)
  have hds2 : ∀ c ∈ ds2, 48 ≤ c.val ∧ c.val ≤ 57 :=
    fun c hc => hds c (List.mem_cons_of_mem _ hc)
  have hcp : time.commaOrPeriod sep = true := by simpa [time.commaOrPeriod] using hsep
  have hcond : (sep :: (d :: ds2) ++ tail).length ≥ 2 ∧
      time.commaOrPeriod ((sep :: (d :: ds2) ++ tail).getD 0 0) = true ∧
      time.isDigit (sep :: (d :: ds2) ++ tail) 1 = true := by
    refine ⟨by simp, by simpa using hcp, ?_⟩
    simp only [List.cons_append, time.isDigit_one_cons]
    simpa using hd
  rw [if_pos hcond]
  have hfe : time.fracEnd ((sep :: (d :: ds2) ++ tail).drop 2) 2 = 1 + (d :: ds2).length := by
    simp only [List.cons_append, List.drop_succ_cons, List.drop_zero, List.length_cons]
    rw [time.isDigit_zero_append ds2 tail ht 2 hds2]
    omega
  simp only [hfe]
  rw [time.parseNanoseconds_frac sep (d :: ds2) tail hsep hds]
  have hdrop : (sep :: (d :: ds2) ++ tail).drop (1 + (d :: ds2).length) = tail := by
    rw [Nat.add_comm 1, List.cons_append, List.drop_succ_cons, List.drop_left]
  rw [hdrop]

theorem time.arm_second_iff (f g : time.Fields) (v r : GoString)
    (hr : ∀ c, r.head? = some c → c.val = 32) :
    time.armOk .stdZeroSecond f v g r ↔
      ∃ (m : Nat) (fr : Option (Byte × GoString)), m < 60 ∧ time.fractionOk fr = true ∧
        v = time.digits2 m ++ (time.fractionText fr ++ r) ∧
        g = { f with sec := (m : Int),
                     nsec := match fr with
                       | none => f.nsec
                       | some _ => (time.fractionNanos fr : Nat) } := by
  have hrd : time.isDigit r 0 = false := by
    cases r with
    | nil => rfl
    | cons c r =>
      have := hr c rfl
      rw [time.isDigit_zero_cons]; simp; omega
  have hrc : ¬ (r.length ≥ 2 ∧ time.commaOrPeriod (r.getD 0 0) = true ∧
      time.isDigit r 1 = true) := by
    cases r with
    | nil => simp
    | cons c r =>
      have := hr c rfl
      have hcp : time.commaOrPeriod c = false := by
        simp [time.commaOrPeriod]; omega
      simp [hcp]
  constructor
  · intro h
    obtain ⟨m, v1, hm, rfl⟩ := time.arm_second_head f g v r h
    unfold time.armOk at h
    by_cases hc : v1.length ≥ 2 ∧ time.commaOrPeriod (v1.getD 0 0) = true ∧
        time.isDigit v1 1 = true
    · match v1, hc with
      | sep :: d :: rest, hc =>
        obtain ⟨_, hcp, hd⟩ := hc
        simp only [List.getD_cons_zero] at hcp
        rw [time.isDigit_one_cons] at hd
        have hsep : sep.val = 46 ∨ sep.val = 44 := by simpa [time.commaOrPeriod] using hcp
        have hd2 : 48 ≤ d.val ∧ d.val ≤ 57 := by simpa using hd
        obtain ⟨ds2, tail, rfl, hds2, ht⟩ := time.fracEnd_decomp rest
        have hds : ∀ c ∈ d :: ds2, 48 ≤ c.val ∧ c.val ≤ 57 := by
          intro x hx
          rcases List.mem_cons.1 hx with hx | hx
          · subst hx; exact hd2
          · exact hds2 x hx
        have harm := time.arm_second_frac f m hm sep (d :: ds2) tail hsep (by simp) hds ht
        simp only [List.cons_append] at harm h
        rw [harm] at h
        obtain ⟨_, _, hg, hv⟩ := h
        simp only at hg hv
        refine ⟨m, some (sep, d :: ds2), hm, ?_, ?_, ?_⟩
        · simp only [time.fractionOk, Bool.and_eq_true, Bool.or_eq_true, beq_iff_eq,
            Bool.not_eq_true', List.isEmpty_cons, List.all_eq_true, decide_eq_true_eq, and_true]
          exact ⟨hsep, fun x hx => by simpa using hds x hx⟩
        · rw [← hv]; simp [time.fractionText]
        · rw [← hg]
    · rw [time.arm_second_plain f m hm v1 hc] at h
      obtain ⟨_, _, hg, hv⟩ := h
      simp only at hg hv
      exact ⟨m, none, hm, rfl, by rw [← hv]; rfl, by rw [← hg]⟩
  · rintro ⟨m, fr, hm, hfr, rfl, rfl⟩
    unfold time.armOk
    cases fr with
    | none =>
      simp only [time.fractionText, List.nil_append]
      rw [time.arm_second_plain f m hm r hrc]
      exact ⟨rfl, rfl, rfl, rfl⟩
    | some p =>
      obtain ⟨sep, ds⟩ := p
      simp only [time.fractionOk, Bool.and_eq_true, Bool.or_eq_true, beq_iff_eq,
        Bool.not_eq_true', List.all_eq_true, decide_eq_true_eq] at hfr
      obtain ⟨⟨hsep, hne⟩, hds⟩ := hfr
      have hne2 : ds ≠ [] := by
        intro h; subst h; simp at hne
      have hds2 : ∀ c ∈ ds, 48 ≤ c.val ∧ c.val ≤ 57 := fun c hc => by simpa using hds c hc
      have harm := time.arm_second_frac f m hm sep ds r hsep hne2 hds2 hrd
      simp only [time.fractionText, List.cons_append] at harm ⊢
      rw [harm]
      exact ⟨rfl, rfl, rfl, rfl⟩

theorem time.arm_zone_le (f : time.Fields) ( east : Bool) (zh zm : Nat) (hh : zh ≤ 24)
    (hm : zm ≤ 60) (r : GoString) :
    time.parseArm .stdNumTZ f
        ((if east then ascii "+" else ascii "-") ++ (time.digits2 zh ++ (time.digits2 zm ++ r))) =
      ⟨{ f with zoneOffset := if east then ((zh * 60 + zm) * 60 : Int)
          else -((zh * 60 + zm) * 60 : Int) }, r, [], false⟩ := by
  have hp : ascii "+" = [(43 : Byte)] := by decide
  have hm : ascii "-" = [(45 : Byte)] := by decide
  have g1 := time.getnum_digits2 zh (by omega) [] true
  have g2 := time.getnum_digits2 zm (by omega) [] true
  have g3 : time.getnum (ascii "00") true = (0, [], false) := by decide
  simp only [List.append_nil] at g1 g2
  have hz1 : ¬ ((zh : Int) > 24) := by omega
  have hz2 : ¬ ((zm : Int) > 60) := by omega
  cases east <;>
    simp [time.parseArm, hp, hm, time.digits2, g3] <;>
    simp [time.digits2] at g1 g2 <;>
    simp [g1, g2, hz1, hz2]

theorem time.arm_zone_iff (f g : time.Fields) (v r : GoString) :
    time.armOk .stdNumTZ f v g r ↔
      ∃ ( east : Bool) (zh zm : Nat), zh ≤ 24 ∧ zm ≤ 60 ∧
        v = (if east then ascii "+" else ascii "-") ++
          (time.digits2 zh ++ (time.digits2 zm ++ r)) ∧
        g = { f with zoneOffset := if east then ((zh * 60 + zm) * 60 : Int)
                else -((zh * 60 + zm) * 60 : Int) } := by
  have hp : ascii "+" = [(43 : Byte)] := by decide
  have hmi : ascii "-" = [(45 : Byte)] := by decide
  have g3 : time.getnum (ascii "00") true = (0, [], false) := by decide
  constructor
  · intro h
    unfold time.armOk at h
    match v, h with
    | [], h => simp [time.parseArm] at h
    | [_], h => simp [time.parseArm] at h
    | [_, _], h => simp [time.parseArm] at h
    | [_, _, _], h => simp [time.parseArm] at h
    | [_, _, _, _], h => simp [time.parseArm] at h
    | sg :: a :: b :: c :: d :: rest, h =>
      rcases hx : time.getnum [a, b] true with ⟨k1, r1, e1⟩
      rcases hy : time.getnum [c, d] true with ⟨k2, r2, e2⟩
      have hlen : ¬ ((sg :: a :: b :: c :: d :: rest).length < 5) := by simp
      simp only [time.parseArm, hlen, if_false, List.take_succ_cons, List.take_zero,
        List.drop_succ_cons, List.drop_zero, hx, hy, g3] at h
      cases e1 with
      | true =>
        exfalso
        obtain ⟨_, he, _, _⟩ := h
        split at he <;> [skip; split at he] <;> simp at he
      | false =>
        cases e2 with
        | true =>
          exfalso
          obtain ⟨_, he, _, _⟩ := h
          split at he <;> [skip; split at he] <;> simp at he
        | false =>
          obtain ⟨m1, hm1, hv1, rfl⟩ := (time.getnum_fixed_iff [a, b] r1 k1).1 hx
          obtain ⟨m2, hm2, hv2, rfl⟩ := (time.getnum_fixed_iff [c, d] r2 k2).1 hy
          have hr1 : r1 = [] := by
            have := congrArg List.length hv1
            simp only [List.length_cons, List.length_nil, List.length_append,
              time.digits2] at this
            exact List.length_eq_zero.1 (by omega)
          have hr2 : r2 = [] := by
            have := congrArg List.length hv2
            simp only [List.length_cons, List.length_nil, List.length_append,
              time.digits2] at this
            exact List.length_eq_zero.1 (by omega)
          subst hr1 hr2
          simp only [List.append_nil] at hv1 hv2
          simp only [Bool.false_eq_true, if_false] at h
          have hrange : (m1 : Int) ≤ 24 ∧ (m2 : Int) ≤ 60 := by
            by_contra hc
            obtain ⟨hrg, _, _, _⟩ := h
            by_cases h2 : (m2 : Int) > 60
            · split at hrg <;> [skip; split at hrg] <;> simp [h2] at hrg <;>
                exact absurd hrg (by decide)
            · have h1 : (m1 : Int) > 24 := by omega
              split at hrg <;> [skip; split at hrg] <;> simp [h1, h2] at hrg <;>
                exact absurd hrg (by decide)
          by_cases hs1 : [sg] = ascii "+"
          · rw [if_pos hs1] at h
            obtain ⟨_, _, hg, hv⟩ := h
            simp only at hg hv
            refine ⟨true, m1, m2, by omega, by omega, ?_, ?_⟩
            · rw [hp] at hs1
              simp only [List.cons.injEq, and_true] at hs1
              subst hs1
              rw [hp, ← hv1, ← hv2, ← hv]; rfl
            · rw [← hg]; simp
          · rw [if_neg hs1] at h
            by_cases hs2 : [sg] = ascii "-"
            · rw [if_pos hs2] at h
              obtain ⟨_, _, hg, hv⟩ := h
              simp only at hg hv
              refine ⟨false, m1, m2, by omega, by omega, ?_, ?_⟩
              · rw [hmi] at hs2
                simp only [List.cons.injEq, and_true] at hs2
                subst hs2
                simp only [Bool.false_eq_true, if_false]
                rw [hmi, ← hv1, ← hv2, ← hv]; rfl
              · rw [← hg]; simp
            · rw [if_neg hs2] at h
              exact absurd h.2.1 (by simp)
  · rintro ⟨east, zh, zm, hh, hm, rfl, rfl⟩
    unfold time.armOk
    rw [time.arm_zone_le f east zh zm hh hm r]
    exact ⟨rfl, rfl, rfl, rfl⟩

theorem time.skip_gap_iff (v v2 : GoString) (h : ∃ c r, v2 = c :: r ∧ c.val ≠ 32) :
    time.skip v [32] = .ok v2 ↔ ∃ n, v = time.spaces (n + 1) ++ v2 := by
  obtain ⟨c, r, rfl, hc⟩ := h
  constructor
  · intro hs
    rcases (time.skip_space_iff v (c :: r)).1 hs with ⟨_, h2⟩ | ⟨r2, rfl, h2⟩
    · simp at h2
    · obtain ⟨n, hn⟩ := time.cutspace_decomp r2
      refine ⟨n, ?_⟩
      rw [h2]
      simp only [time.spaces, List.replicate_succ, List.cons_append, List.cons.injEq, true_and]
      exact hn
  · rintro ⟨n, rfl⟩
    exact time.skip_spaces n (c :: r) (time.cutspace_cons c r hc)

theorem time.foldCase_ne_space (c : Byte) (h : time.foldCase c ≠ 32) : c.val ≠ 32 := by
  intro h32
  apply h
  simp [time.foldCase, h32]

theorem time.name_head (tab : List GoString) (i : Nat) (w rest : GoString)
    (hw : w.map time.foldCase = (tab.getD i []).map time.foldCase)
    (htab : ((tab.getD i []).map time.foldCase).head? ≠ none ∧
      ((tab.getD i []).map time.foldCase).head? ≠ some 32) :
    ∃ c r, w ++ rest = c :: r ∧ c.val ≠ 32 := by
  rw [← hw] at htab
  cases w with
  | nil => simp at htab
  | cons c w =>
    refine ⟨c, w ++ rest, rfl, time.foldCase_ne_space c ?_⟩
    intro h
    apply htab.2
    simp [h]

theorem time.month_head (i : Fin 12) (w rest : GoString)
    (hw : w.map time.foldCase = (time.shortMonthNames.getD i.val []).map time.foldCase) :
    ∃ c r, w ++ rest = c :: r ∧ c.val ≠ 32 := by
  have h : ∀ j : Fin 12,
      ((time.shortMonthNames.getD j.val []).map time.foldCase).head? ≠ none ∧
        ((time.shortMonthNames.getD j.val []).map time.foldCase).head? ≠ some 32 := by
    decide
  exact time.name_head time.shortMonthNames i.val w rest hw (h i)

theorem time.digits2_head (n : Nat) (rest : GoString) :
    ∃ c r, time.digits2 n ++ rest = c :: r ∧ c.val ≠ 32 := by
  have := time.digit_val (n / 10)
  exact ⟨_, _, rfl, by omega⟩

theorem time.digits4_head (n : Nat) (rest : GoString) :
    ∃ c r, time.digits4 n ++ rest = c :: r ∧ c.val ≠ 32 := by
  have := time.digit_val (n / 1000)
  exact ⟨_, _, rfl, by omega⟩

theorem time.hour_head (n : Nat) ( short : Bool) (rest : GoString) :
    ∃ c r, (if short then [time.digit n] else time.digits2 n) ++ rest = c :: r ∧ c.val ≠ 32 := by
  have := time.digit_val (n / 10)
  have := time.digit_val n
  cases short
  · exact ⟨_, _, rfl, by omega⟩
  · exact ⟨_, _, rfl, by omega⟩

theorem time.sign_head ( east : Bool) (rest : GoString) :
    ∃ c r, (if east then ascii "+" else ascii "-") ++ rest = c :: r ∧ c.val ≠ 32 := by
  cases east
  · exact ⟨45, rest, rfl, by decide⟩
  · exact ⟨43, rest, rfl, by decide⟩

theorem time.spaces_head (n : Nat) (rest : GoString) :
    ∀ c, (time.spaces (n + 1) ++ rest).head? = some c → c.val = 32 := by
  intro c hc
  simp [time.spaces, List.replicate_succ] at hc
  rw [← hc]; rfl

theorem time.Loose.text_append (l : time.Loose) (rest : GoString) :
    l.text ++ rest =
      l.weekdayText ++ (time.spaces (l.gap1 + 1) ++ (l.monthText ++ (time.spaces (l.gap2 + 1) ++
        (time.digits2 l.stamp.day ++ (time.spaces (l.gap3 + 1) ++
        ((if l.shortHour then [time.digit l.stamp.hour] else time.digits2 l.stamp.hour) ++
        ((58 : Byte) :: (time.digits2 l.stamp.min ++ ((58 : Byte) :: (time.digits2 l.stamp.sec ++
        (time.fractionText l.fraction ++ (time.spaces (l.gap4 + 1) ++
        ((if l.stamp.east then ascii "+" else ascii "-") ++
        (time.digits2 l.stamp.zoneHour ++ (time.digits2 l.stamp.zoneMin ++
        (time.spaces (l.gap5 + 1) ++ (time.digits4 l.stamp.year ++ rest))))))))))))))))) := by
  have hcolon : ascii ":" = [(58 : Byte)] := by decide
  simp only [time.Loose.text, hcolon, List.append_assoc, List.cons_append, List.nil_append]

/-- The loop of `parse` over the layout `time.RubyDate` succeeds exactly on a
timestamp with deviations followed by a rest, with the fields of the
timestamp. -/
theorem time.parseLoop_iff (text rest : GoString) (f : time.Fields) :
    time.parseLoop time.RubyDateChunks {} text = .ok (f, rest) ↔
      ∃ l : time.Loose,
        l.weekdayText.map time.foldCase =
          (time.shortDayNames.getD l.stamp.weekday.val []).map time.foldCase ∧
        l.monthText.map time.foldCase =
          (time.shortMonthNames.getD l.stamp.month.val []).map time.foldCase ∧
        l.stamp.day < 100 ∧ l.stamp.hour < 24 ∧ (l.shortHour = true → l.stamp.hour < 10) ∧
        l.stamp.min < 60 ∧ l.stamp.sec < 60 ∧ time.fractionOk l.fraction = true ∧
        l.stamp.zoneHour ≤ 24 ∧ l.stamp.zoneMin ≤ 60 ∧ l.stamp.year < 10000 ∧
        text = l.text ++ rest ∧
        f = { year := l.stamp.year, month := (l.stamp.month.val : Int) + 1, day := l.stamp.day,
              hour := l.stamp.hour, min := l.stamp.min, sec := l.stamp.sec,
              nsec := time.fractionNanos l.fraction,
              zoneOffset := if l.stamp.east
                then ((l.stamp.zoneHour * 60 + l.stamp.zoneMin) * 60 : Int)
                else -((l.stamp.zoneHour * 60 + l.stamp.zoneMin) * 60 : Int) } := by
  have hcolon : ascii ":" = [(58 : Byte)] := by decide
  have hempty : ascii "" = ([] : GoString) := by decide
  have hskipnil : ∀ v v2 : GoString, time.skip v [] = .ok v2 ↔ v2 = v := by
    intro v v2
    have := time.skip_nil v
    rw [hempty] at this
    rw [this]
    simp [eq_comm]
  have hd58 : ∀ r : GoString, time.isDigit ((58 : Byte) :: r) 0 = false := by
    intro r; rfl
  have hnil : ∀ (g : time.Fields) (v : GoString) (res : time.Fields × GoString),
      time.parseLoop [] g v = .ok res ↔ g = res.1 ∧ v = res.2 := by
    intro g v res
    rw [time.parseLoop]
    simp [Prod.ext_iff]
  simp only [time.RubyDateChunks, time.parseLoop_cons_iff, time.ascii_space, hcolon, hempty,
    hnil, hskipnil, time.skip_colon_iff]
  constructor
  · rintro ⟨v0, g0, r0, rfl, ha0, v1, g1, r1, hs1, ha1, v2, g2, r2, hs2, ha2, v3, g3, r3, hs3,
      ha3, v4, g4, r4, rfl, ha4, v5, g5, r5, rfl, ha5, v6, g6, r6, hs6, ha6, v7, g7, r7, hs7,
      ha7, hf, rfl⟩
    obtain ⟨wd, w, rfl, hw, hg⟩ := (time.arm_weekday_iff _ _ _ _).1 ha0
    clear ha0; subst hg
    obtain ⟨mo, mt, rfl, hmt, hg⟩ := (time.arm_month_iff _ _ _ _).1 ha1
    clear ha1; dsimp only at hg; subst hg
    obtain ⟨n1, rfl⟩ := (time.skip_gap_iff _ _ (time.month_head mo mt _ hmt)).1 hs1
    obtain ⟨d, hd, rfl, hg⟩ := (time.arm_day_iff _ _ _ _).1 ha2
    clear ha2; dsimp only at hg; subst hg
    obtain ⟨n2, rfl⟩ := (time.skip_gap_iff _ _ (time.digits2_head d _)).1 hs2
    obtain ⟨h, short, hh, hsh, rfl, hg⟩ := (time.arm_hour_iff _ _ _ _ (hd58 _)).1 ha3
    clear ha3; dsimp only at hg; subst hg
    obtain ⟨n3, rfl⟩ := (time.skip_gap_iff _ _ (time.hour_head h short _)).1 hs3
    obtain ⟨mi, hmi, rfl, hg⟩ := (time.arm_minute_iff _ _ _ _).1 ha4
    clear ha4; dsimp only at hg; subst hg
    obtain ⟨east, zh, zm, hzh, hzm, rfl, hg6⟩ := (time.arm_zone_iff _ _ _ _).1 ha6
    clear ha6
    obtain ⟨n4, rfl⟩ := (time.skip_gap_iff _ _ (time.sign_head east _)).1 hs6
    obtain ⟨s, fr, hs, hfr, rfl, hg⟩ :=
      (time.arm_second_iff _ _ _ _ (time.spaces_head n4 _)).1 ha5
    clear ha5; dsimp only at hg; subst hg
    dsimp only at hg6; subst hg6
    obtain ⟨y, hy, rfl, hg⟩ := (time.arm_year_iff _ _ _ _).1 ha7
    clear ha7; dsimp only at hg; subst hg
    obtain ⟨n5, rfl⟩ := (time.skip_gap_iff _ _ (time.digits4_head y _)).1 hs7
    refine ⟨⟨⟨wd, mo, d, h, mi, s, east, zh, zm, y⟩, w, mt, n1, n2, n3, n4, n5, short, fr⟩,
      hw, hmt, hd, hh, hsh, hmi, hs, hfr, hzh, hzm, hy, ?_, ?_⟩
    · rw [time.Loose.text_append]
    · rw [← hf]
      cases fr <;> simp [time.fractionNanos]
  · rintro ⟨⟨⟨wd, mo, d, h, mi, s, east, zh, zm, y⟩, w, mt, n1, n2, n3, n4, n5, short, fr⟩,
      hw, hmt, hd, hh, hsh, hmi, hs, hfr, hzh, hzm, hy, rfl, rfl⟩
    simp only at hw hmt hd hh hsh hmi hs hfr hzh hzm hy
    rw [time.Loose.text_append]
    dsimp only
    refine ⟨_, {}, _, rfl, (time.arm_weekday_iff _ _ _ _).2 ⟨wd, w, rfl, hw, rfl⟩, ?_⟩
    refine ⟨_, { month := (mo.val : Int) + 1 }, _,
      (time.skip_gap_iff _ _ (time.month_head mo mt _ hmt)).2 ⟨n1, rfl⟩,
      (time.arm_month_iff _ _ _ _).2 ⟨mo, mt, rfl, hmt, rfl⟩, ?_⟩
    refine ⟨_, { month := (mo.val : Int) + 1, day := d }, _,
      (time.skip_gap_iff _ _ (time.digits2_head d _)).2 ⟨n2, rfl⟩,
      (time.arm_day_iff _ _ _ _).2 ⟨d, hd, rfl, rfl⟩, ?_⟩
    refine ⟨_, { month := (mo.val : Int) + 1, day := d, hour := h }, _,
      (time.skip_gap_iff _ _ (time.hour_head h short _)).2 ⟨n3, rfl⟩,
      (time.arm_hour_iff _ _ _ _ (hd58 _)).2 ⟨h, short, hh, hsh, rfl, rfl⟩, ?_⟩
    refine ⟨_, { month := (mo.val : Int) + 1, day := d, hour := h, min := mi }, _, rfl,
      (time.arm_minute_iff _ _ _ _).2 ⟨mi, hmi, rfl, rfl⟩, ?_⟩
    refine ⟨_,
      { month := (mo.val : Int) + 1, day := d, hour := h, min := mi, sec := s,
        nsec := time.fractionNanos fr }, _, rfl,
      (time.arm_second_iff _ _ _ _ (time.spaces_head n4 _)).2 ⟨s, fr, hs, hfr, rfl, ?_⟩, ?_⟩
    · cases fr <;> simp [time.fractionNanos]
    refine ⟨_,
      { month := (mo.val : Int) + 1, day := d, hour := h, min := mi, sec := s,
        nsec := time.fractionNanos fr,
        zoneOffset := if east then ((zh * 60 + zm) * 60 : Int) else -((zh * 60 + zm) * 60 : Int) },
      _, (time.skip_gap_iff _ _ (time.sign_head east _)).2 ⟨n4, rfl⟩,
      (time.arm_zone_iff _ _ _ _).2 ⟨east, zh, zm, hzh, hzm, rfl, rfl⟩, ?_⟩
    exact ⟨_, _, _, (time.skip_gap_iff _ _ (time.digits4_head y _)).2 ⟨n5, rfl⟩,
      (time.arm_year_iff _ _ _ _).2 ⟨y, hy, rfl, rfl⟩, rfl, rfl⟩

/-- What `time.Parse` accepts for the layout `time.RubyDate`: exactly the
timestamps with the deviations of `time.Loose`, each parsed to the instant it
denotes. -/
theorem time.Parse_iff (text : GoString) (t : time.Time) :
    time.Parse text = .ok t ↔ ∃ l : time.Loose, l.valid ∧ l.text = text ∧ l.time = t := by
  have hml : ∀ (m : Fin 12) (y : Nat), time.Stamp.monthLength m y ≤ 31 := by
    intro m y; unfold time.Stamp.monthLength; split <;> split <;> omega
  constructor
  · intro h
    unfold time.Parse at h
    cases hpl : time.parseLoop time.RubyDateChunks {} text with
    | error e => rw [hpl] at h; simp at h
    | ok res =>
      obtain ⟨f, value⟩ := res
      rw [hpl] at h
      obtain ⟨l, hw, hmt, hd, hh, hsh, hmi, hs, hfr, hzh, hzm, hy, htext, hf⟩ :=
        (time.parseLoop_iff text value f).1 hpl
      simp only at h
      by_cases hv : value.length ≠ 0
      · rw [if_pos hv] at h; simp at h
      · rw [if_neg hv] at h
        have hnil : value = [] := List.length_eq_zero.1 (by simpa using hv)
        subst hnil
        subst hf
        have hmonth : ¬ ((l.stamp.month.val : Int) + 1 < 0) := by omega
        have hdayneg : ¬ ((l.stamp.day : Int) < 0) := by omega
        have hdays := time.daysIn_eq l.stamp.month l.stamp.year
        have hz : (if l.stamp.east then ((l.stamp.zoneHour * 60 + l.stamp.zoneMin) * 60 : Int)
            else -((l.stamp.zoneHour * 60 + l.stamp.zoneMin) * 60 : Int)) ≠ -1 := by
          split <;> omega
        simp only [hmonth, hdayneg, if_false, hdays] at h
        by_cases hrange : (l.stamp.day : Int) < 1 ∨
            (l.stamp.day : Int) > (time.Stamp.monthLength l.stamp.month l.stamp.year : Int)
        · rw [if_pos hrange] at h; simp at h
        · rw [if_neg hrange, if_pos hz] at h
          simp only [Except.ok.injEq] at h
          refine ⟨l, ⟨hw, hmt, by omega, by omega, hh, hsh, hmi, hs, hfr, hzh, hzm, hy⟩, ?_, ?_⟩
          · rw [htext, List.append_nil]
          · rw [← h]; rfl
  · rintro ⟨l, ⟨hw, hmt, hd1, hd2, hh, hsh, hmi, hs, hfr, hzh, hzm, hy⟩, rfl, rfl⟩
    have hml2 := hml l.stamp.month l.stamp.year
    have hpl := (time.parseLoop_iff l.text [] _).2
      ⟨l, hw, hmt, by omega, hh, hsh, hmi, hs, hfr, hzh, hzm, hy, by rw [List.append_nil], rfl⟩
    unfold time.Parse
    rw [hpl]
    have hmonth : ¬ ((l.stamp.month.val : Int) + 1 < 0) := by omega
    have hdayneg : ¬ ((l.stamp.day : Int) < 0) := by omega
    have hdays := time.daysIn_eq l.stamp.month l.stamp.year
    have hrange : ¬ ((l.stamp.day : Int) < 1 ∨
        (l.stamp.day : Int) > (time.Stamp.monthLength l.stamp.month l.stamp.year : Int)) := by
      omega
    have hz : (if l.stamp.east then ((l.stamp.zoneHour * 60 + l.stamp.zoneMin) * 60 : Int)
        else -((l.stamp.zoneHour * 60 + l.stamp.zoneMin) * 60 : Int)) ≠ -1 := by
      split <;> omega
    simp only [List.length_nil, ne_eq, not_true_eq_false, if_false, hmonth, hdayneg, hdays,
      hrange, hz, not_false_eq_true, if_true]
    rfl

theorem bytes.trimRightByte_decomp (s : GoString) (c : Byte) :
    ∃ n, s = bytes.trimRightByte s c ++ List.replicate n c := by
  induction s with
  | nil => exact ⟨0, rfl⟩
  | cons b s ih =>
    obtain ⟨n, hn⟩ := ih
    rw [bytes.trimRightByte]
    cases hr : bytes.trimRightByte s c with
    | nil =>
      rw [hr] at hn
      by_cases hb : b = c
      · refine ⟨n + 1, ?_⟩
        simp only [hb, if_true, List.nil_append] at hn ⊢
        rw [hn]; rfl
      · refine ⟨n, ?_⟩
        simp only [hb, if_false, List.nil_append] at hn ⊢
        rw [hn]; rfl
    | cons a r =>
      rw [hr] at hn
      refine ⟨n, ?_⟩
      dsimp only
      rw [hn]; rfl

theorem bytes.trimLeftByte_decomp (s : GoString) (c : Byte) :
    ∃ m, s = List.replicate m c ++ bytes.trimLeftByte s c := by
  induction s with
  | nil => exact ⟨0, rfl⟩
  | cons b s ih =>
    obtain ⟨m, hm⟩ := ih
    rw [bytes.trimLeftByte]
    by_cases hb : b = c
    · refine ⟨m + 1, ?_⟩
      rw [if_pos hb, hb, List.replicate_succ, List.cons_append, ← hm]
    · exact ⟨0, by rw [if_neg hb]; rfl⟩

theorem bytes.trimRightByte_run (x : GoString) (d c : Byte) (h : d ≠ c) (n : Nat) :
    bytes.trimRightByte (x ++ [d] ++ List.replicate n c) c = x ++ [d] := by
  induction n with
  | zero => rw [List.replicate_zero, List.append_nil, bytes.trimRightByte_append_other _ _ _ h]
  | succ n ih =>
    rw [List.replicate_succ', ← List.append_assoc, bytes.trimRightByte_append_same, ih]

theorem bytes.trimLeftByte_run (a : Byte) (x : GoString) (c : Byte) (h : a ≠ c) (m : Nat) :
    bytes.trimLeftByte (List.replicate m c ++ a :: x) c = a :: x := by
  induction m with
  | zero => simp [bytes.trimLeftByte, h]
  | succ m ih =>
    rw [List.replicate_succ, List.cons_append, bytes.trimLeftByte, if_pos rfl, ih]

/-- Every buffer is its trimmed text between two runs of the trimmed byte. -/
theorem bytes.Trim_decomp (buf : GoString) (c : Byte) :
    ∃ m n, buf = List.replicate m c ++ bytes.Trim buf c ++ List.replicate n c := by
  obtain ⟨n, hn⟩ := bytes.trimRightByte_decomp buf c
  obtain ⟨m, hm⟩ := bytes.trimLeftByte_decomp (bytes.trimRightByte buf c) c
  refine ⟨m, n, ?_⟩
  unfold bytes.Trim
  rw [← hm, ← hn]

/-- The buffers that trim to a text which neither starts nor ends with the
trimmed byte: the text between two runs of that byte. -/
theorem bytes.Trim_iff (a d : Byte) (x buf : GoString) (c : Byte) (ha : a ≠ c) (hd : d ≠ c) :
    bytes.Trim buf c = a :: x ++ [d] ↔
      ∃ m n, buf = List.replicate m c ++ (a :: x ++ [d]) ++ List.replicate n c := by
  constructor
  · intro h
    obtain ⟨m, n, hb⟩ := bytes.Trim_decomp buf c
    rw [h] at hb
    exact ⟨m, n, hb⟩
  · rintro ⟨m, n, rfl⟩
    unfold bytes.Trim
    have e : List.replicate m c ++ (a :: x ++ [d]) ++ List.replicate n c =
        (List.replicate m c ++ a :: x) ++ [d] ++ List.replicate n c := by
      simp only [List.append_assoc, List.cons_append]
    rw [e, bytes.trimRightByte_run _ _ _ hd]
    have e2 : List.replicate m c ++ a :: x ++ [d] = List.replicate m c ++ a :: (x ++ [d]) := by
      simp only [List.append_assoc, List.cons_append]
    rw [e2, bytes.trimLeftByte_run _ _ _ ha]
    rfl

/-- The text of a valid timestamp with deviations neither starts nor ends with
a double quote. -/
theorem time.Loose.text_ends (l : time.Loose) (h : l.valid) :
    ∃ a x d, l.text = a :: x ++ [d] ∧ a ≠ (34 : Byte) ∧ d ≠ (34 : Byte) := by
  have hday : ∀ j : Fin 7,
      ((time.shortDayNames.getD j.val []).map time.foldCase).head? ≠ none ∧
        ((time.shortDayNames.getD j.val []).map time.foldCase).head? ≠ some 34 := by
    decide
  have hw := h.1
  have hj := hday l.stamp.weekday
  rw [← hw] at hj
  cases hwt : l.weekdayText with
  | nil => rw [hwt] at hj; simp at hj
  | cons a w =>
    rw [hwt] at hj
    have ha : a ≠ (34 : Byte) := by
      intro e
      apply hj.2
      rw [e]
      rfl
    have hd : time.digit l.stamp.year ≠ (34 : Byte) := by
      intro e
      have := congrArg Fin.val e
      rw [time.digit_val] at this
      have h34 : ((34 : Byte)).val = 34 := rfl
      omega
    refine ⟨a, w ++ (time.spaces (l.gap1 + 1) ++ (l.monthText ++ (time.spaces (l.gap2 + 1) ++
      (time.digits2 l.stamp.day ++ (time.spaces (l.gap3 + 1) ++
      ((if l.shortHour then [time.digit l.stamp.hour] else time.digits2 l.stamp.hour) ++
      (ascii ":" ++ (time.digits2 l.stamp.min ++ (ascii ":" ++ (time.digits2 l.stamp.sec ++
      (time.fractionText l.fraction ++ (time.spaces (l.gap4 + 1) ++
      ((if l.stamp.east then ascii "+" else ascii "-") ++
      (time.digits2 l.stamp.zoneHour ++ (time.digits2 l.stamp.zoneMin ++
      (time.spaces (l.gap5 + 1) ++ [time.digit (l.stamp.year / 1000),
        time.digit (l.stamp.year / 100), time.digit (l.stamp.year / 10)])))))))))))))))),
      time.digit l.stamp.year, ?_, ha, hd⟩
    unfold time.Loose.text
    rw [hwt]
    simp only [time.digits4, List.append_assoc, List.cons_append, List.nil_append]

/-- The buffers `RubyDate.UnmarshalJSON` accepts, and what it stores for them:
the valid timestamps with deviations between two runs of double quotes. -/
theorem twitter.RubyDate.UnmarshalJSON_iff (t : time.Time) (buf : GoString) (p : time.Time) :
    twitter.RubyDate.UnmarshalJSON t buf = (p, none) ↔
      ∃ (l : time.Loose) (m n : Nat), l.valid ∧
        buf = twitter.quotes m ++ l.text ++ twitter.quotes n ∧ l.time = p := by
  have hparse : twitter.RubyDate.UnmarshalJSON t buf = (p, none) ↔
      time.Parse (bytes.Trim buf 34) = .ok p := by
    unfold twitter.RubyDate.UnmarshalJSON twitter.RubyDate.UnmarshalJSONWith
    dsimp only
    cases time.Parse (bytes.Trim buf 34) with
    | error e => simp
    | ok q => simp
  rw [hparse, time.Parse_iff]
  constructor
  · rintro ⟨l, hv, htext, htime⟩
    obtain ⟨a, x, d, hs, ha, hd⟩ := time.Loose.text_ends l hv
    rw [hs] at htext
    obtain ⟨m, n, hb⟩ := (bytes.Trim_iff a d x buf 34 ha hd).1 htext.symm
    exact ⟨l, m, n, hv, by rw [hs]; exact hb, htime⟩
  · rintro ⟨l, m, n, hv, hb, htime⟩
    obtain ⟨a, x, d, hs, ha, hd⟩ := time.Loose.text_ends l hv
    refine ⟨l, hv, ?_, htime⟩
    rw [hs] at hb ⊢
    exact ((bytes.Trim_iff a d x buf 34 ha hd).2 ⟨m, n, hb⟩).symm

/-- A buffer that is not a valid timestamp with deviations between two runs of
double quotes is rejected, and the receiver keeps its value. -/
theorem twitter.RubyDate.UnmarshalJSON_reject (t : time.Time) (buf : GoString)
    (h : ¬ ∃ (l : time.Loose) (m n : Nat), l.valid ∧
        buf = twitter.quotes m ++ l.text ++ twitter.quotes n) :
    ∃ e, twitter.RubyDate.UnmarshalJSON t buf = (t, some e) := by
  rcases twitter.RubyDate.UnmarshalJSON_cases t buf with ⟨p, _, hp⟩ | ⟨e, _, he⟩
  · obtain ⟨l, m, n, hv, hb, _⟩ := (twitter.RubyDate.UnmarshalJSON_iff t buf p).1 hp
    exact absurd ⟨l, m, n, hv, hb⟩ h
  · exact ⟨e, he⟩

/-- A timestamp written exactly in the layout is one without deviations. -/
theorem time.Stamp.loose_spec (s : time.Stamp) :
    (s.valid → s.loose.valid) ∧ s.loose.text = s.text ∧ s.loose.time = s.time := by
  refine ⟨?_, ?_, rfl⟩
  · rintro ⟨h1, h2, h3, h4, h5, h6, h7, h8⟩
    exact ⟨rfl, rfl, h1, h2, h3, (fun h => Bool.noConfusion h), h4, h5, rfl,
      Nat.le_of_lt h6, Nat.le_of_lt h7, h8⟩
  · unfold time.Stamp.loose time.Loose.text time.Stamp.text
    simp [time.spaces, time.fractionText]
    rfl

/-- C6 (amended): `RubyDate.UnmarshalJSON` accepts a well-formed timestamp
written exactly in the layout `Mon Jan 02 15:04:05 -0700 2006`, between one pair
of double quotes, and stores the instant it denotes.  In general it returns nil
and stores an instant exactly for the buffers that consist of a run of double
quotes, a valid timestamp with deviations and a run of double quotes, where the
deviations from the layout are: the letter case of the weekday and month
names, longer runs of spaces at each space of the layout, a one-digit hour, a
fractional second (a point or a comma and digits) after the seconds, and a zone
offset of up to 24 hours and 60 minutes; the instant stored is the one that
timestamp denotes.  Every other buffer is rejected with a non-nil error and
the receiver keeps its value: so are an ISO-8601 timestamp, an empty string, an
empty buffer, JSON null, a day that does not exist in its month and a text
that is no timestamp at all. -/
theorem twitter.RubyDate.UnmarshalJSON_spec :
    (∀ (s : time.Stamp) (t : time.Time), s.valid →
      twitter.RubyDate.UnmarshalJSON t (twitter.quoted s.text) = (s.time, none)) ∧
    (∀ (t : time.Time) (buf : GoString) (p : time.Time),
      twitter.RubyDate.UnmarshalJSON t buf = (p, none) ↔
        ∃ (l : time.Loose) (m n : Nat), l.valid ∧
          buf = twitter.quotes m ++ l.text ++ twitter.quotes n ∧ l.time = p) ∧
    (∀ (t : time.Time) (buf : GoString),
      (¬ ∃ (l : time.Loose) (m n : Nat), l.valid ∧
          buf = twitter.quotes m ++ l.text ++ twitter.quotes n) →
        ∃ e, twitter.RubyDate.UnmarshalJSON t buf = (t, some e)) ∧
    (∀ s : time.Stamp,
      (s.valid → s.loose.valid) ∧ s.loose.text = s.text ∧ s.loose.time = s.time) ∧
    (∀ t : time.Time,
      (twitter.RubyDate.UnmarshalJSON t
        (twitter.quoted (ascii "2006-01-02T15:04:05Z"))).2 ≠ none ∧
      (twitter.RubyDate.UnmarshalJSON t (twitter.quoted [])).2 ≠ none ∧
      (twitter.RubyDate.UnmarshalJSON t []).2 ≠ none ∧
      (twitter.RubyDate.UnmarshalJSON t (ascii "null")).2 ≠ none ∧
      (twitter.RubyDate.UnmarshalJSON t
        (twitter.quoted (ascii "Mon Feb 31 15:04:05 -0700 2006"))).2 ≠ none ∧
      (twitter.RubyDate.UnmarshalJSON t
        (twitter.quoted (ascii "Mon Jan 2 15:04:05 -0700 2006"))).2 ≠ none ∧
      (twitter.RubyDate.UnmarshalJSON t
        (twitter.quoted (ascii "Mon Jan 02 15:04:05 -0700 2006 "))).2 ≠ none ∧
      (twitter.RubyDate.UnmarshalJSON t (twitter.quoted (ascii "hello world"))).2 ≠ none) := by
  refine ⟨fun s t h => twitter.RubyDate.UnmarshalJSON_text s h t,
    twitter.RubyDate.UnmarshalJSON_iff, twitter.RubyDate.UnmarshalJSON_reject,
    time.Stamp.loose_spec, fun t => ⟨?_, ?_, ?_, ?_, ?_, ?_, ?_, ?_⟩⟩
  · exact twitter.RubyDate.UnmarshalJSON_error t _
      (.bad (ascii "Mon") (ascii "2006-01-02T15:04:05Z")) (by rfl)
  · exact twitter.RubyDate.UnmarshalJSON_error t _ (.bad (ascii "Mon") []) (by rfl)
  · exact twitter.RubyDate.UnmarshalJSON_error t _ (.bad (ascii "Mon") []) (by rfl)
  · exact twitter.RubyDate.UnmarshalJSON_error t _ (.bad (ascii "Mon") (ascii "null")) (by rfl)
  · exact twitter.RubyDate.UnmarshalJSON_error t _ (.dayOutOfRange []) (by rfl)
  · exact twitter.RubyDate.UnmarshalJSON_error t _
      (.bad (ascii "02") (ascii "2 15:04:05 -0700 2006")) (by rfl)
  · exact twitter.RubyDate.UnmarshalJSON_error t _ (.extraText (ascii " ")) (by rfl)
  · exact twitter.RubyDate.UnmarshalJSON_error t _
      (.bad (ascii "Mon") (ascii "hello world")) (by rfl)

/-- C6 (witness): the timestamp `Mon Jan 02 15:04:05 -0700 2006` between quotes
is decoded to 2006-01-02 15:04:05, seven hours west of UTC; the buffer `null`
is no timestamp between quotes, and is rejected with the receiver unchanged. -/
theorem twitter.RubyDate.UnmarshalJSON_spec_witness :
    ((⟨1, 0, 2, 15, 4, 5, false, 7, 0, 2006⟩ : time.Stamp).valid ∧
      twitter.RubyDate.UnmarshalJSON time.Time.zero
        (twitter.quoted (ascii "Mon Jan 02 15:04:05 -0700 2006")) =
        (⟨2006, 1, 2, 15, 4, 5, 0, -25200⟩, none)) ∧
    ((¬ ∃ (l : time.Loose) (m n : Nat), l.valid ∧
        ascii "null" = twitter.quotes m ++ l.text ++ twitter.quotes n) ∧
      ∃ e, twitter.RubyDate.UnmarshalJSON time.Time.zero (ascii "null") =
        (time.Time.zero, some e)) := by
  have hno : ¬ ∃ (l : time.Loose) (m n : Nat), l.valid ∧
      ascii "null" = twitter.quotes m ++ l.text ++ twitter.quotes n := by
    rintro ⟨l, m, n, hv, hb⟩
    have h := (twitter.RubyDate.UnmarshalJSON_spec.2.1 time.Time.zero (ascii "null")
      l.time).2 ⟨l, m, n, hv, hb, rfl⟩
    have e : twitter.RubyDate.UnmarshalJSON time.Time.zero (ascii "null") =
        (time.Time.zero, some (.bad (ascii "Mon") (ascii "null"))) := by rfl
    rw [e] at h
    exact absurd (congrArg Prod.snd h) (by simp)
  exact ⟨⟨by decide,
    twitter.RubyDate.UnmarshalJSON_spec.1 ⟨1, 0, 2, 15, 4, 5, false, 7, 0, 2006⟩
      time.Time.zero (by decide)⟩,
    hno, twitter.RubyDate.UnmarshalJSON_spec.2.2.1 time.Time.zero (ascii "null") hno⟩

/-- C6 (counterexample): a timestamp with a fractional second,
`Mon Jan 02 15:04:05.5 -0700 2006`, is not written in the layout (no timestamp
has this text), yet the decode returns nil and stores an instant. -/
theorem twitter.RubyDate.UnmarshalJSON_lenient :
    (∀ s : time.Stamp, ascii "Mon Jan 02 15:04:05.5 -0700 2006" ≠ s.text) ∧
    twitter.RubyDate.UnmarshalJSON time.Time.zero
      (twitter.quoted (ascii "Mon Jan 02 15:04:05.5 -0700 2006")) =
      (⟨2006, 1, 2, 15, 4, 5, 500000000, -25200⟩, none) := by
  constructor
  · intro s h
    have := congrArg List.length h
    rw [time.Stamp.text_length] at this
    exact absurd this (by decide)
  · decide
